import Mathlib

/-!
# Declaration layout of the Decaf compiler (`ast_decl.cc`, `ast_decl.h`)

A shallow embedding of the declaration nodes and of the class layout engine:
`VarDecl::GetMemBytes`, `ClassDecl::GetMemBytes`, `ClassDecl::GetVTblBytes`,
`ClassDecl::GetMethodLabels`, `FnDecl::Emit`, `FnDecl::AddLabelPrefix` and
`ClassDecl::Emit`.

Conventions of the embedding.

* A C++ `int` is a 32-bit two's complement integer: a value is an `Int` in the
  range of `IsInt`, and every addition on `int` is `intAdd`, which wraps around as
  the compiled program does (`wrapInt`).
* Declaration objects live in a heap (`Program.decls`); a pointer is a position in
  it.  `Program::gScope->table` maps a name to such a pointer.
* A failed `Assert` and a dereferenced null pointer are results of type `Err`.
  Recursion through the registry may not terminate (a cyclic `extends` chain); it
  is bounded by a fuel argument and `Err.diverged` marks exhausted fuel.
-/

namespace Decaf

/-- Range of a C++ `int`: 32 bits, two's complement. -/
def IsInt (x : Int) : Prop :=
  -2147483648 ≤ x ∧ x ≤ 2147483647

instance (x : Int) : Decidable (IsInt x) := by
  unfold IsInt
  infer_instance

/-- The `int` left by an operation whose mathematical result is `x`: the result
reduced modulo `2^32` into the range of `int` (wrap-around). -/
def wrapInt (x : Int) : Int :=
  (x + 2147483648) % 4294967296 - 2147483648

/-- `a + b` on `int`. -/
def intAdd (a b : Int) : Int :=
  wrapInt (a + b)

/-- The `int` counter `b` after `n` times `+= v`. -/
def intAddN (b v : Int) : Nat → Int
  | 0 => b
  | n + 1 => intAddN (intAdd b v) v n

/-- Modelled from the spec: the layout constants of `CodeGenerator`, declared in
`codegen.h` and not in `ast_decl.h` or `ast_decl.cc`.  Their values are target
dependent, so they are parameters of every definition that reads them; each is
an `int`. -/
structure CodeGenerator where
  VarSize : Int
  OffsetToFirstField : Int
  OffsetToFirstMethod : Int
  OffsetToFirstParam : Int
  isInt : IsInt VarSize ∧ IsInt OffsetToFirstField ∧ IsInt OffsetToFirstMethod ∧
    IsInt OffsetToFirstParam
  deriving DecidableEq, Repr

/-- Ways in which a call fails to return normally. -/
inductive Err where
  /-- An `Assert(...)` did not hold. -/
  | assertFailed
  /-- A member was called through a null pointer. -/
  | nullDeref
  /-- The recursion did not come back within the given fuel. -/
  | diverged
  deriving DecidableEq, Repr

/-- Segment of a `Location` (only `fpRelative` is used by `ast_decl.cc`). -/
inductive Segment where
  | fpRelative
  | gpRelative
  deriving DecidableEq, Repr

/-- A storage location, `new Location(segment, offset, name)`. -/
structure Location where
  segment : Segment
  offset : Int
  name : String
  deriving DecidableEq, Repr

/-- A function body is an external collaborator (`Stmt`): all that `ast_decl.cc`
uses of it is `GetMemBytes()` and `Emit(cg)`. -/
structure Stmt where
  /-- Identity of the statement subtree. -/
  id : Nat
  /-- Result of `body->GetMemBytes()`. -/
  memBytes : Int
  deriving DecidableEq, Repr

/-- Requests received by the code generator. -/
inductive CgReq where
  /-- `cg->GenLabel(label)`. -/
  | GenLabel (label : String)
  /-- `cg->GenBeginFunc()->SetFrameSize(frameSize)`. -/
  | GenBeginFunc (frameSize : Int)
  /-- `body->Emit(cg)`: whatever the body emits. -/
  | body (s : Stmt)
  /-- `cg->GenEndFunc()`. -/
  | GenEndFunc
  /-- `cg->GenVTable(className, labels)`. -/
  | GenVTable (className : String) (labels : List String)
  deriving DecidableEq, Repr

/-- `VarDecl`: identifier, the location set by `SetMemLoc` and the offset set by
`SetMemOffset` (both unset after construction).  The declared type plays no role
in layout. -/
structure VarDecl where
  name : String
  memLoc : Option Location
  memOffset : Option Int
  deriving DecidableEq, Repr

/-- `FnDecl`: identifier, formals, optional body, the mutable label and the slot
set by `SetVTblOffset`. -/
structure FnDecl where
  name : String
  formals : List VarDecl
  body : Option Stmt
  label : String
  vtblOffset : Option Int
  deriving DecidableEq, Repr

/-- A direct member of a class or interface: the parser builds member lists from
variable and function declarations only. -/
inductive Member where
  | var (v : VarDecl)
  | fn (f : FnDecl)
  deriving DecidableEq, Repr

/-- `ClassDecl`: identifier, optional superclass name, implemented interface
names, members in source order. -/
structure ClassDecl where
  name : String
  extends_ : Option String
  implements : List String
  members : List Member
  deriving DecidableEq, Repr

/-- `InterfaceDecl`: identifier and member signatures. -/
structure InterfaceDecl where
  name : String
  members : List Member
  deriving DecidableEq, Repr

/-- A declaration object, one of the four subclasses of `Decl`. -/
inductive Decl where
  | var (v : VarDecl)
  | fn (f : FnDecl)
  | cls (c : ClassDecl)
  | iface (i : InterfaceDecl)
  deriving DecidableEq, Repr

/-- What `Program::gScope->table->Lookup(name)` yields at some moment: the
declaration object registered under the name, or nothing (`NULL`). -/
abbrev Lookup := String → Option Decl

/-! ## Constructors -/

/-- `VarDecl::VarDecl(n, t)`. -/
def VarDecl.new (n : String) : VarDecl :=
  { name := n, memLoc := none, memOffset := none }

/-- `FnDecl::FnDecl(n, r, d)`: no body, and the label starts as the name. -/
def FnDecl.new (n : String) (d : List VarDecl) : FnDecl :=
  { name := n, formals := d, body := none, label := n, vtblOffset := none }

/-- `FnDecl::SetFunctionBody(b)`. -/
def FnDecl.SetFunctionBody (f : FnDecl) (b : Stmt) : FnDecl :=
  { f with body := some b }

/-- `ClassDecl::ClassDecl(n, ex, imp, m)`. -/
def ClassDecl.new (n : String) (ex : Option String) (imp : List String)
    (m : List Member) : ClassDecl :=
  { name := n, extends_ := ex, implements := imp, members := m }

/-! ## Sizes -/

/-- `VarDecl::GetMemBytes`: the word size, whatever the type. -/
def VarDecl.GetMemBytes (cg : CodeGenerator) (_v : VarDecl) : Int :=
  cg.VarSize

/-- `FnDecl::GetVTblBytes`: one slot. -/
def FnDecl.GetVTblBytes (cg : CodeGenerator) (_f : FnDecl) : Int :=
  cg.VarSize

/-- `FnDecl::GetLabel`. -/
def FnDecl.GetLabel (f : FnDecl) : String :=
  f.label

/-- `FnDecl::AddLabelPrefix(p)`: `label->insert(0, p)`. -/
def FnDecl.AddLabelPrefix (f : FnDecl) (p : String) : FnDecl :=
  { f with label := p ++ f.label }

/-- Virtual `GetMemBytes` on a member: `VarDecl::GetMemBytes` for a field, the
default `Decl::GetMemBytes` (zero) for a method. -/
def Member.GetMemBytes (cg : CodeGenerator) : Member → Int
  | .var v => v.GetMemBytes cg
  | .fn _ => 0

/-- Modelled from the spec: the base-class default of the virtual
`Decl::GetVTblBytes`, which `ast_decl.cc` calls on any declaration and
`ast_decl.h` does not declare.  It reports zero, like `Decl::GetMemBytes`;
`VarDecl` and `InterfaceDecl` inherit it. -/
abbrev Decl.defaultVTblBytes : Int := 0

/-- Virtual `GetVTblBytes` on a member: the default for a field,
`FnDecl::GetVTblBytes` for a method. -/
def Member.GetVTblBytes (cg : CodeGenerator) : Member → Int
  | .var _ => Decl.defaultVTblBytes
  | .fn f => f.GetVTblBytes cg

/-- Body of `ClassDecl::GetMemBytes`; `call` is the virtual `d->GetMemBytes()` on
the declaration found for the superclass. -/
def ClassDecl.GetMemBytes (cg : CodeGenerator) (lookup : Lookup)
    (call : Decl → Except Err Int) (c : ClassDecl) : Except Err Int :=
  match c.extends_ with
  | none => .ok (c.members.foldl (fun memBytes m => intAdd memBytes (m.GetMemBytes cg)) 0)
  | some ex =>
    match lookup ex with
    | none => .error .assertFailed
    | some d =>
      match call d with
      | .error e => .error e
      | .ok b =>
        .ok (c.members.foldl (fun memBytes m => intAdd memBytes (m.GetMemBytes cg)) (intAdd 0 b))

/-- Virtual `GetMemBytes` on any declaration; `fuel` is the number of nested
calls on superclasses that may be made before the call counts as diverged. -/
def Decl.GetMemBytes (cg : CodeGenerator) (lookup : Lookup) : Nat → Decl → Except Err Int
  | _, .var v => .ok (v.GetMemBytes cg)
  | _, .fn _ => .ok 0
  | _, .iface _ => .ok 0
  | 0, .cls c => ClassDecl.GetMemBytes cg lookup (fun _ => .error .diverged) c
  | fuel + 1, .cls c => ClassDecl.GetMemBytes cg lookup (Decl.GetMemBytes cg lookup fuel) c

/-- Body of `ClassDecl::GetVTblBytes`; `call` is the virtual `d->GetVTblBytes()`. -/
def ClassDecl.GetVTblBytes (cg : CodeGenerator) (lookup : Lookup)
    (call : Decl → Except Err Int) (c : ClassDecl) : Except Err Int :=
  match c.extends_ with
  | none => .ok (c.members.foldl (fun vtblBytes m => intAdd vtblBytes (m.GetVTblBytes cg)) 0)
  | some ex =>
    match lookup ex with
    | none => .error .assertFailed
    | some d =>
      match call d with
      | .error e => .error e
      | .ok b =>
        .ok (c.members.foldl (fun vtblBytes m => intAdd vtblBytes (m.GetVTblBytes cg))
          (intAdd 0 b))

/-- Virtual `GetVTblBytes` on any declaration; `fuel` as in `Decl.GetMemBytes`. -/
def Decl.GetVTblBytes (cg : CodeGenerator) (lookup : Lookup) : Nat → Decl → Except Err Int
  | _, .var _ => .ok Decl.defaultVTblBytes
  | _, .fn f => .ok (f.GetVTblBytes cg)
  | _, .iface _ => .ok Decl.defaultVTblBytes
  | 0, .cls c => ClassDecl.GetVTblBytes cg lookup (fun _ => .error .diverged) c
  | fuel + 1, .cls c => ClassDecl.GetVTblBytes cg lookup (Decl.GetVTblBytes cg lookup fuel) c

/-- Last loop of `ClassDecl::GetMethodLabels`: the labels of the members that are
methods, in order, appended to `labels`. -/
def ClassDecl.appendOwnLabels (labels : List String) : List Member → List String
  | [] => labels
  | .var _ :: ms => ClassDecl.appendOwnLabels labels ms
  | .fn d :: ms => ClassDecl.appendOwnLabels (labels ++ [d.GetLabel]) ms

/-- Body of `ClassDecl::GetMethodLabels`; `call` is `c->GetMethodLabels()` on
the superclass.  The superclass is found through the registry and downcast to
`ClassDecl`; the assertion tests the looked-up pointer, so a declaration of
another kind gets past it and the call goes through a null pointer. -/
def ClassDecl.GetMethodLabelsBody (lookup : Lookup)
    (call : ClassDecl → Except Err (List String)) (c : ClassDecl) : Except Err (List String) :=
  match c.extends_ with
  | none => .ok (ClassDecl.appendOwnLabels [] c.members)
  | some ex =>
    match lookup ex with
    | none => .error .assertFailed
    | some (.cls sup) =>
      match call sup with
      | .error e => .error e
      | .ok extLabels => .ok (ClassDecl.appendOwnLabels ([] ++ extLabels) c.members)
    | some _ => .error .nullDeref

/-- `ClassDecl::GetMethodLabels`, with `fuel` nested calls on superclasses
allowed. -/
def ClassDecl.GetMethodLabels (lookup : Lookup) : Nat → ClassDecl → Except Err (List String)
  | 0, c => ClassDecl.GetMethodLabelsBody lookup (fun _ => .error .diverged) c
  | fuel + 1, c =>
    ClassDecl.GetMethodLabelsBody lookup (ClassDecl.GetMethodLabels lookup fuel) c

/-! ## Emission -/

/-- The declaration heap and the top-level registry.  `decls` holds the
declaration objects, a pointer being a position in it; `table` is
`Program::gScope->table`, from names to pointers. -/
structure Program where
  decls : List Decl
  table : String → Option Nat

/-- `Program::gScope->table->Lookup(name)` in the current heap. -/
def Program.Lookup (p : Program) : Lookup :=
  fun name => (p.table name).bind (fun a => p.decls[a]?)

/-- First loop of `FnDecl::Emit`: every formal gets a frame-pointer relative
location at the running offset, which then advances by the formal's size. -/
def FnDecl.EmitFormals (cg : CodeGenerator) : Int → List VarDecl → List VarDecl
  | _, [] => []
  | offset, d :: ds =>
    { d with memLoc := some { segment := .fpRelative, offset := offset, name := d.name } }
      :: FnDecl.EmitFormals cg (intAdd offset (d.GetMemBytes cg)) ds

/-- `FnDecl::Emit`: the function object after the call and the requests made to
the code generator. -/
def FnDecl.Emit (cg : CodeGenerator) (f : FnDecl) : FnDecl × List CgReq :=
  let f1 := { f with formals := FnDecl.EmitFormals cg cg.OffsetToFirstParam f.formals }
  match f.body with
  | none => (f1, [])
  | some body =>
    (f1, [.GenLabel f1.GetLabel, .GenBeginFunc body.memBytes, .body body, .GenEndFunc])

/-- First loop of `ClassDecl::Emit`: `SetMemOffset` on every member that is a
`VarDecl`, the counter advancing by the field's size; other members are skipped. -/
def ClassDecl.EmitFields (cg : CodeGenerator) : Int → List Member → List Member
  | _, [] => []
  | memOffset, .var d :: ms =>
    .var { d with memOffset := some memOffset }
      :: ClassDecl.EmitFields cg (intAdd memOffset (d.GetMemBytes cg)) ms
  | memOffset, .fn d :: ms => .fn d :: ClassDecl.EmitFields cg memOffset ms

/-- Second loop of `ClassDecl::Emit`: `SetVTblOffset` on every member that is a
`FnDecl`, the counter advancing by `VarSize`; other members are skipped. -/
def ClassDecl.EmitMethods (cg : CodeGenerator) : Int → List Member → List Member
  | _, [] => []
  | vtblOffset, .var d :: ms => .var d :: ClassDecl.EmitMethods cg vtblOffset ms
  | vtblOffset, .fn d :: ms =>
    .fn { d with vtblOffset := some vtblOffset }
      :: ClassDecl.EmitMethods cg (intAdd vtblOffset cg.VarSize) ms

/-- Modelled from the spec: virtual `d->AddLabelPrefix(p)` on a member.
`ast_decl.cc` defines it for `FnDecl` only and `ast_decl.h` does not declare it;
on a field the call is the base-class default, which has no label to change. -/
def Member.AddLabelPrefix (p : String) : Member → Member
  | .var v => .var v
  | .fn f => .fn (f.AddLabelPrefix p)

/-- Virtual `d->Emit(cg)` on a member: `Decl::Emit` (nothing) for a field,
`FnDecl::Emit` for a method. -/
def Member.Emit (cg : CodeGenerator) : Member → Member × List CgReq
  | .var v => (.var v, [])
  | .fn f => (.fn (f.Emit cg).1, (f.Emit cg).2)

/-- Third loop of `ClassDecl::Emit`: every member gets the label prefix and is
emitted. -/
def ClassDecl.EmitMembers (cg : CodeGenerator) (pfx : String) :
    List Member → List Member × List CgReq
  | [] => ([], [])
  | d :: ms =>
    let r := (d.AddLabelPrefix pfx).Emit cg
    let rs := ClassDecl.EmitMembers cg pfx ms
    (r.1 :: rs.1, r.2 ++ rs.2)

/-- Start of `ClassDecl::Emit`: the two counters, set to their bases and, when
there is a superclass, advanced past the bytes of the declaration that the
registry holds for its name. -/
def ClassDecl.EmitBases (cg : CodeGenerator) (fuel : Nat) (lookup : Lookup) (c : ClassDecl) :
    Except Err (Int × Int) :=
  let memOffset := cg.OffsetToFirstField
  let vtblOffset := cg.OffsetToFirstMethod
  match c.extends_ with
  | none => .ok (memOffset, vtblOffset)
  | some ex =>
    match lookup ex with
    | none => .error .assertFailed
    | some d =>
      match d.GetMemBytes cg lookup fuel with
      | .error e => .error e
      | .ok memBytes =>
        match d.GetVTblBytes cg lookup fuel with
        | .error e => .error e
        | .ok vtblBytes => .ok (intAdd memOffset memBytes, intAdd vtblOffset vtblBytes)

/-- The three loops of `ClassDecl::Emit` over the members, run from the given
counters: the class object after them and the requests made by the members. -/
def ClassDecl.EmitLoops (cg : CodeGenerator) (c : ClassDecl) (memOffset vtblOffset : Int) :
    ClassDecl × List CgReq :=
  let m1 := ClassDecl.EmitFields cg memOffset c.members
  let m2 := ClassDecl.EmitMethods cg vtblOffset m1
  let r := ClassDecl.EmitMembers cg (c.name ++ ".") m2
  ({ c with members := r.1 }, r.2)

/-- `ClassDecl::Emit` on the class object `c` stored at `self`: the counters, the
loops, which change the object in the heap, and the vtable request with the
labels that `GetMethodLabels()` returns at that point. -/
def ClassDecl.Emit (cg : CodeGenerator) (fuel : Nat) (p : Program) (self : Nat)
    (c : ClassDecl) : Except Err (Program × List CgReq) :=
  match ClassDecl.EmitBases cg fuel p.Lookup c with
  | .error e => .error e
  | .ok (memOffset, vtblOffset) =>
    let r := ClassDecl.EmitLoops cg c memOffset vtblOffset
    let p1 : Program := { p with decls := p.decls.set self (.cls r.1) }
    match ClassDecl.GetMethodLabels p1.Lookup fuel r.1 with
    | .error e => .error e
    | .ok labels => .ok (p1, r.2 ++ [.GenVTable r.1.name labels])

/-- Virtual `Emit(cg)` on the declaration object at address `a`. -/
def Program.Emit (cg : CodeGenerator) (fuel : Nat) (p : Program) (a : Nat) :
    Except Err (Program × List CgReq) :=
  match p.decls[a]? with
  | none => .error .nullDeref
  | some (.var _) => .ok (p, [])
  | some (.iface _) => .ok (p, [])
  | some (.fn f) => .ok ({ p with decls := p.decls.set a (.fn (f.Emit cg).1) }, (f.Emit cg).2)
  | some (.cls c) => c.Emit cg fuel p a

/-! ## Views used in the statements -/

/-- The members that are fields, in declaration order. -/
def fieldsOf : List Member → List VarDecl
  | [] => []
  | .var v :: ms => v :: fieldsOf ms
  | .fn _ :: ms => fieldsOf ms

/-- The members that are methods, in declaration order. -/
def methodsOf : List Member → List FnDecl
  | [] => []
  | .var _ :: ms => methodsOf ms
  | .fn f :: ms => f :: methodsOf ms

/-- The class object stored at an address, if there is one. -/
def Program.classAt (p : Program) (a : Nat) : Option ClassDecl :=
  match p.decls[a]? with
  | some (.cls c) => some c
  | _ => none

/-- The superclass chain of a class followed through the registry, nearest
ancestor first.  It is defined when every superclass name on the way resolves to
a class declaration and the chain ends, after at most `fuel` steps, at a class
without superclass; a cyclic chain has no value for any fuel. -/
def superChain (lookup : Lookup) : Nat → ClassDecl → Option (List ClassDecl)
  | 0, c =>
    match c.extends_ with
    | none => some []
    | some _ => none
  | fuel + 1, c =>
    match c.extends_ with
    | none => some []
    | some ex =>
      match lookup ex with
      | some (.cls sup) => (superChain lookup fuel sup).map (fun anc => sup :: anc)
      | _ => none

/-- Number of methods declared by the classes of a list. -/
def methodCount : List ClassDecl → Nat
  | [] => 0
  | c :: cs => (methodsOf c.members).length + methodCount cs

/-- Number of fields declared by the classes of a list. -/
def fieldCount : List ClassDecl → Nat
  | [] => 0
  | c :: cs => (fieldsOf c.members).length + fieldCount cs

/-- Labels of the methods of a chain of classes (nearest class first) in vtable
order: those of the farthest ancestor come first. -/
def vtableLabels : List ClassDecl → List String
  | [] => []
  | c :: cs => vtableLabels cs ++ (methodsOf c.members).map FnDecl.GetLabel

/-- `n` successive calls of `Emit(cg)` on the declaration object at address `a`:
the heap after the last one. -/
def Program.EmitN (cg : CodeGenerator) (fuel : Nat) (a : Nat) : Nat → Program → Except Err Program
  | 0, p => .ok p
  | n + 1, p =>
    match Program.Emit cg fuel p a with
    | .error e => .error e
    | .ok (q, _) => Program.EmitN cg fuel a n q

/-- The class object after `n` runs of the loops of `ClassDecl::Emit` from the
same counters. -/
def ClassDecl.EmitLoopsN (cg : CodeGenerator) (memOffset vtblOffset : Int) :
    Nat → ClassDecl → ClassDecl
  | 0, c => c
  | n + 1, c =>
    ClassDecl.EmitLoopsN cg memOffset vtblOffset n (ClassDecl.EmitLoops cg c memOffset vtblOffset).1

/-- The string `s` written `n` times in a row. -/
def repeatString (s : String) : Nat → String
  | 0 => ""
  | n + 1 => s ++ repeatString s n

/-- Walk of the superclass names as the byte totals make it, one step for each
declaration called.  `some true`: every name met is bound in the registry (the
walk ends at a class without superclass or at a declaration that is not a
class); `some false`: a name met is not bound; `none`: the walk is not over
after `fuel` steps, as on a cyclic chain. -/
def chainResolves (lookup : Lookup) : Nat → ClassDecl → Option Bool
  | 0, c =>
    match c.extends_ with
    | none => some true
    | some ex =>
      match lookup ex with
      | none => some false
      | some _ => none
  | fuel + 1, c =>
    match c.extends_ with
    | none => some true
    | some ex =>
      match lookup ex with
      | none => some false
      | some (.cls sup) => chainResolves lookup fuel sup
      | some _ => some true

/-- `Emit(cg)` on the declaration objects at the addresses of a list, one call
after the other: the heap after the last call. -/
def Program.EmitSeq (cg : CodeGenerator) (fuel : Nat) : List Nat → Program → Except Err Program
  | [], p => .ok p
  | a :: rest, p =>
    match Program.Emit cg fuel p a with
    | .error e => .error e
    | .ok (q, _) => Program.EmitSeq cg fuel rest q

/-- Two declaration objects agree in what layout reads of them: they are of the
same kind and, for classes, have the same superclass name, the same field names
in order and the same method names in order. -/
def Decl.sameLayout : Decl → Decl → Prop
  | .var _, .var _ => True
  | .fn _, .fn _ => True
  | .iface _, .iface _ => True
  | .cls c, .cls d =>
    c.extends_ = d.extends_ ∧
    (fieldsOf c.members).map VarDecl.name = (fieldsOf d.members).map VarDecl.name ∧
    (methodsOf c.members).map FnDecl.name = (methodsOf d.members).map FnDecl.name
  | _, _ => False

/-- `Decl.sameLayout` on what a lookup or a heap access yields. -/
def sameLayoutOpt : Option Decl → Option Decl → Prop
  | none, none => True
  | some d, some e => d.sameLayout e
  | _, _ => False

/-- Two heaps with the same registry whose objects agree pairwise in what layout
reads of them. -/
def Program.sameLayout (p q : Program) : Prop :=
  q.table = p.table ∧ ∀ x : Nat, sameLayoutOpt p.decls[x]? q.decls[x]?

/-! ## Scopes -/

/-- `Decl::GetName` on a declaration object. -/
def Decl.GetName : Decl → String
  | .var v => v.name
  | .fn f => f.name
  | .cls c => c.name
  | .iface i => i.name

/-- `Decl::GetName` on a member. -/
def Member.GetName : Member → String
  | .var v => v.name
  | .fn f => f.name

/-- A member seen as a declaration object. -/
def Member.toDecl : Member → Decl
  | .var v => .var v
  | .fn f => .fn f

/-- Modelled from the spec: `Scope`, the map from names to declarations that
every declaration owns; its class is declared outside `ast_decl.h` and
`ast_decl.cc`.  A new scope is empty. -/
structure Scope where
  table : String → Option Decl

/-- Modelled from the spec: the scope made by `new Scope`, which binds no name. -/
def Scope.empty : Scope :=
  { table := fun _ => none }

/-- Modelled from the spec: `Scope::AddDecl(d)` registers `d` under its name; a
registration under a name that is already bound replaces the earlier entry.  It
fails on a null declaration only, and a member of a list is never null here. -/
def Scope.AddDecl (s : Scope) (d : Decl) : Scope :=
  { table := fun n => if n = d.GetName then some d else s.table n }

/-- Modelled from the spec: `Scope::Lookup(name)` searches the table of this
scope only. -/
def Scope.Lookup (s : Scope) (n : String) : Option Decl :=
  s.table n

/-- `VarDecl::BuildScope`, which is empty: the scope of the variable stays as it
is. -/
def VarDecl.BuildScope (scope : Scope) (_v : VarDecl) : Scope :=
  scope

/-- `FnDecl::BuildScope`: the scope of the function after the call.  Every formal
is registered in it; the calls on the formals do nothing, and the call on the
body concerns the scopes inside the body. -/
def FnDecl.BuildScope (scope : Scope) (f : FnDecl) : Scope :=
  f.formals.foldl (fun s d => s.AddDecl (.var d)) scope

/-- Virtual `BuildScope` on a member: the scope of the member after the call. -/
def Member.BuildScope (scope : Scope) : Member → Scope
  | .var v => v.BuildScope scope
  | .fn f => f.BuildScope scope

/-- `ClassDecl::BuildScope`, from the scope of the class and the scopes of its
members before the call: the scope of the class after the first loop, which
registers every member, and the scopes of the members after the second loop,
which calls `BuildScope` on every member. -/
def ClassDecl.BuildScope (scope : Scope) (memberScopes : List Scope) (c : ClassDecl) :
    Scope × List Scope :=
  (c.members.foldl (fun s m => s.AddDecl m.toDecl) scope,
    List.zipWith (fun m s => m.BuildScope s) c.members memberScopes)

/-- `InterfaceDecl::BuildScope`, the same two loops. -/
def InterfaceDecl.BuildScope (scope : Scope) (memberScopes : List Scope) (i : InterfaceDecl) :
    Scope × List Scope :=
  (i.members.foldl (fun s m => s.AddDecl m.toDecl) scope,
    List.zipWith (fun m s => m.BuildScope s) i.members memberScopes)

/-- The last member of a list that has the given name. -/
def lastNamed (n : String) (ms : List Member) : Option Member :=
  ms.reverse.find? (fun m => decide (m.GetName = n))

/-! ## Sample programs -/

/-- Constants of the scenario of the specification: word size 4, first field at
offset 4.  The other two bases are picked for the examples. -/
def scenarioCG : CodeGenerator :=
  { VarSize := 4, OffsetToFirstField := 4, OffsetToFirstMethod := 0, OffsetToFirstParam := 4,
    isInt := by decide }

/-- Class `Point` with the fields `x` and `y`. -/
def Point : ClassDecl :=
  ClassDecl.new "Point" none [] [.var (VarDecl.new "x"), .var (VarDecl.new "y")]

/-- Class `Point3D extends Point` adding the field `z`. -/
def Point3D : ClassDecl :=
  ClassDecl.new "Point3D" (some "Point") [] [.var (VarDecl.new "z")]

/-- The program made of `Point` (address 0) and `Point3D` (address 1). -/
def pointProgram : Program :=
  { decls := [.cls Point, .cls Point3D]
    table := fun n => if n = "Point" then some 0 else if n = "Point3D" then some 1 else none }

/-- Class `A` with a method `foo` declared between two fields. -/
def classA : ClassDecl :=
  ClassDecl.new "A" none []
    [.var (VarDecl.new "u"), .fn (FnDecl.new "foo" []), .var (VarDecl.new "v")]

/-- Class `B extends A` declaring a method named `foo` again, a field and a
method `bar`. -/
def classB : ClassDecl :=
  ClassDecl.new "B" (some "A") []
    [.fn (FnDecl.new "foo" []), .var (VarDecl.new "w"), .fn (FnDecl.new "bar" [])]

/-- The program made of `A` (address 0) and `B` (address 1). -/
def abProgram : Program :=
  { decls := [.cls classA, .cls classB]
    table := fun n => if n = "A" then some 0 else if n = "B" then some 1 else none }

/-- Class `S1`: fields `x`, `y` interleaved with the methods `foo`, `bar`. -/
def classS1 : ClassDecl :=
  ClassDecl.new "S1" none []
    [.var (VarDecl.new "x"), .fn (FnDecl.new "foo" []), .var (VarDecl.new "y"),
      .fn (FnDecl.new "bar" [])]

/-- Class `S2`: the methods of `S1`, another field, declared last. -/
def classS2 : ClassDecl :=
  ClassDecl.new "S2" none []
    [.fn (FnDecl.new "foo" []), .fn (FnDecl.new "bar" []), .var (VarDecl.new "z")]

/-- Class `S3`: the fields of `S1`, another method, declared first. -/
def classS3 : ClassDecl :=
  ClassDecl.new "S3" none []
    [.fn (FnDecl.new "baz" []), .var (VarDecl.new "x"), .var (VarDecl.new "y")]

/-- The program made of `S1`, `S2`, `S3` (addresses 0, 1, 2). -/
def layoutProgram : Program :=
  { decls := [.cls classS1, .cls classS2, .cls classS3]
    table := fun n =>
      if n = "S1" then some 0 else if n = "S2" then some 1 else if n = "S3" then some 2
      else none }

/-- Class `Derived extends Base`, declared before its superclass, with a method
`bar` that has a body. -/
def classDerived : ClassDecl :=
  ClassDecl.new "Derived" (some "Base") []
    [.fn ((FnDecl.new "bar" []).SetFunctionBody { id := 1, memBytes := 0 })]

/-- Class `Base` with a method `foo` that has a body. -/
def classBase : ClassDecl :=
  ClassDecl.new "Base" none []
    [.fn ((FnDecl.new "foo" []).SetFunctionBody { id := 2, memBytes := 0 })]

/-- The program `class Derived extends Base { void bar() {} } class Base { void
foo() {} }`, the declarations at the addresses 0 and 1 in source order. -/
def derivedFirstProgram : Program :=
  { decls := [.cls classDerived, .cls classBase]
    table := fun n => if n = "Derived" then some 0 else if n = "Base" then some 1 else none }

/-- A function `area(w, h, d)` with a body. -/
def fnArea : FnDecl :=
  (FnDecl.new "area" [VarDecl.new "w", VarDecl.new "h", VarDecl.new "d"]).SetFunctionBody
    { id := 7, memBytes := 16 }

/-- A signature `norm(v)` without body. -/
def fnNorm : FnDecl :=
  FnDecl.new "norm" [VarDecl.new "v"]

/-- Class `Box` with the method `area`. -/
def classBox : ClassDecl :=
  ClassDecl.new "Box" none [] [.var (VarDecl.new "side"), .fn fnArea]

/-- The program made of the global function `area` (address 0) and the class
`Box` (address 1). -/
def areaProgram : Program :=
  { decls := [.fn fnArea, .cls classBox]
    table := fun n => if n = "area" then some 0 else if n = "Box" then some 1 else none }

/-- Interface `Shape` with the signatures `area` and `perimeter`. -/
def ifaceShape : InterfaceDecl :=
  { name := "Shape", members := [.fn (FnDecl.new "area" []), .fn (FnDecl.new "perimeter" [])] }

/-- Class `Square extends Shape`: the superclass name is bound to the
interface. -/
def classSquare : ClassDecl :=
  ClassDecl.new "Square" (some "Shape") [] [.var (VarDecl.new "side"), .fn (FnDecl.new "area" [])]

/-- The program made of `Shape` (address 0) and `Square` (address 1). -/
def shapeProgram : Program :=
  { decls := [.iface ifaceShape, .cls classSquare]
    table := fun n => if n = "Shape" then some 0 else if n = "Square" then some 1 else none }

/-- Class `Orphan extends Ghost`, no declaration being named `Ghost`. -/
def classOrphan : ClassDecl :=
  ClassDecl.new "Orphan" (some "Ghost") [] [.var (VarDecl.new "x")]

/-- Class `Child extends Orphan`. -/
def classChild : ClassDecl :=
  ClassDecl.new "Child" (some "Orphan") [] [.fn (FnDecl.new "run" [])]

/-- The program made of `Orphan` (address 0) and `Child` (address 1). -/
def orphanProgram : Program :=
  { decls := [.cls classOrphan, .cls classChild]
    table := fun n => if n = "Orphan" then some 0 else if n = "Child" then some 1 else none }

/-- Class `Dup` declaring the name `x` twice, as a field and then as a method. -/
def classDup : ClassDecl :=
  ClassDecl.new "Dup" none []
    [.var (VarDecl.new "x"), .fn (FnDecl.new "run" []), .fn (FnDecl.new "x" [])]

/-- A configuration whose word size is `2^30` bytes: with it a few members are
enough for the layout sums to leave the range of `int`. -/
def wideCG : CodeGenerator :=
  { VarSize := 1073741824, OffsetToFirstField := 4, OffsetToFirstMethod := 0,
    OffsetToFirstParam := 4, isInt := by decide }

/-- A configuration whose word size is zero. -/
def zeroCG : CodeGenerator :=
  { VarSize := 0, OffsetToFirstField := 4, OffsetToFirstMethod := 0, OffsetToFirstParam := 4,
    isInt := by decide }

/-- Class `P` with the field `a`. -/
def classP : ClassDecl :=
  ClassDecl.new "P" none [] [.var (VarDecl.new "a")]

/-- Class `Q extends P` with the fields `b` and `c`. -/
def classQ : ClassDecl :=
  ClassDecl.new "Q" (some "P") [] [.var (VarDecl.new "b"), .var (VarDecl.new "c")]

/-- The program made of `P` (address 0) and `Q` (address 1). -/
def pqProgram : Program :=
  { decls := [.cls classP, .cls classQ]
    table := fun n => if n = "P" then some 0 else if n = "Q" then some 1 else none }

/-- Class `Five` with the methods `m0` to `m4`. -/
def classFive : ClassDecl :=
  ClassDecl.new "Five" none []
    [.fn (FnDecl.new "m0" []), .fn (FnDecl.new "m1" []), .fn (FnDecl.new "m2" []),
      .fn (FnDecl.new "m3" []), .fn (FnDecl.new "m4" [])]

/-- The program made of `Five` alone. -/
def fiveProgram : Program :=
  { decls := [.cls classFive], table := fun n => if n = "Five" then some 0 else none }

/-! ## Lemmas on the member loops -/

theorem isInt_wrapInt (x : Int) : IsInt (wrapInt x) := by
  unfold IsInt wrapInt
  omega

theorem wrapInt_of_isInt (x : Int) (h : IsInt x) : wrapInt x = x := by
  unfold IsInt at h
  unfold wrapInt
  omega

theorem wrapInt_add_left (x y : Int) : wrapInt (wrapInt x + y) = wrapInt (x + y) := by
  unfold wrapInt
  omega

theorem wrapInt_add_right (x y : Int) : wrapInt (x + wrapInt y) = wrapInt (x + y) := by
  unfold wrapInt
  omega

theorem isInt_zero : IsInt 0 := by
  unfold IsInt
  omega

theorem isInt_intAdd (a b : Int) : IsInt (intAdd a b) :=
  isInt_wrapInt _

theorem intAdd_zero (b : Int) (h : IsInt b) : intAdd b 0 = b := by
  rw [intAdd, Int.add_zero, wrapInt_of_isInt b h]

theorem zero_intAdd (b : Int) (h : IsInt b) : intAdd 0 b = b := by
  rw [intAdd, Int.zero_add, wrapInt_of_isInt b h]

theorem isInt_intAddN (b v : Int) (n : Nat) (h : IsInt b) : IsInt (intAddN b v n) := by
  induction n generalizing b with
  | zero => exact h
  | succ n ih => exact ih _ (isInt_intAdd b v)

/-- A counter that starts as an `int` holds, after `n` additions of `v`, the
wrapped value of `b + v * n`. -/
theorem intAddN_eq (b v : Int) (n : Nat) (h : IsInt b) :
    intAddN b v n = wrapInt (b + v * (n : Int)) := by
  induction n generalizing b with
  | zero => simp [intAddN, wrapInt_of_isInt b h]
  | succ n ih =>
    rw [intAddN, ih (intAdd b v) (isInt_intAdd b v), intAdd, wrapInt_add_left]
    congr 1
    push_cast
    ring

/-- Without overflow on the way the counter holds `b + v * n`. -/
theorem intAddN_exact (b v : Int) (n : Nat) (h : IsInt b) (hn : IsInt (b + v * (n : Int))) :
    intAddN b v n = b + v * (n : Int) := by
  rw [intAddN_eq b v n h, wrapInt_of_isInt _ hn]

theorem intAddN_succ (b v : Int) (n : Nat) :
    intAddN b v (n + 1) = intAdd (intAddN b v n) v := by
  induction n generalizing b with
  | zero => rfl
  | succ n ih => rw [intAddN, ih (intAdd b v)]; rfl

theorem foldl_GetMemBytes (cg : CodeGenerator) (ms : List Member) (b : Int) (hb : IsInt b) :
    ms.foldl (fun memBytes m => intAdd memBytes (m.GetMemBytes cg)) b
      = intAddN b cg.VarSize (fieldsOf ms).length := by
  induction ms generalizing b with
  | nil => rfl
  | cons m ms ih =>
    cases m with
    | var v =>
      simp only [List.foldl_cons]
      rw [ih _ (isInt_intAdd _ _)]
      rfl
    | fn f =>
      simp only [List.foldl_cons]
      rw [ih _ (isInt_intAdd _ _)]
      simp only [fieldsOf, Member.GetMemBytes]
      rw [intAdd_zero b hb]

theorem foldl_GetVTblBytes (cg : CodeGenerator) (ms : List Member) (b : Int) (hb : IsInt b) :
    ms.foldl (fun vtblBytes m => intAdd vtblBytes (m.GetVTblBytes cg)) b
      = intAddN b cg.VarSize (methodsOf ms).length := by
  induction ms generalizing b with
  | nil => rfl
  | cons m ms ih =>
    cases m with
    | var v =>
      simp only [List.foldl_cons]
      rw [ih _ (isInt_intAdd _ _)]
      simp only [methodsOf, Member.GetVTblBytes]
      rw [intAdd_zero b hb]
    | fn f =>
      simp only [List.foldl_cons]
      rw [ih _ (isInt_intAdd _ _)]
      rfl

theorem appendOwnLabels_eq (labels : List String) (ms : List Member) :
    ClassDecl.appendOwnLabels labels ms
      = labels ++ (methodsOf ms).map FnDecl.GetLabel := by
  induction ms generalizing labels with
  | nil => simp [ClassDecl.appendOwnLabels, methodsOf]
  | cons m ms ih =>
    cases m with
    | var v => simp [ClassDecl.appendOwnLabels, methodsOf, ih]
    | fn f => simp [ClassDecl.appendOwnLabels, methodsOf, ih]

theorem methodsOf_EmitFields (cg : CodeGenerator) (off : Int) (ms : List Member) :
    methodsOf (ClassDecl.EmitFields cg off ms) = methodsOf ms := by
  induction ms generalizing off with
  | nil => rfl
  | cons m ms ih => cases m <;> simp [ClassDecl.EmitFields, methodsOf, ih]

theorem fieldsOf_EmitMethods (cg : CodeGenerator) (off : Int) (ms : List Member) :
    fieldsOf (ClassDecl.EmitMethods cg off ms) = fieldsOf ms := by
  induction ms generalizing off with
  | nil => rfl
  | cons m ms ih => cases m <;> simp [ClassDecl.EmitMethods, fieldsOf, ih]

theorem fieldsOf_EmitMembers (cg : CodeGenerator) (pfx : String) (ms : List Member) :
    fieldsOf (ClassDecl.EmitMembers cg pfx ms).1 = fieldsOf ms := by
  induction ms with
  | nil => rfl
  | cons m ms ih =>
    cases m <;> simp [ClassDecl.EmitMembers, fieldsOf, ih, Member.AddLabelPrefix, Member.Emit]

theorem methodsOf_EmitMembers (cg : CodeGenerator) (pfx : String) (ms : List Member) :
    methodsOf (ClassDecl.EmitMembers cg pfx ms).1
      = (methodsOf ms).map (fun f => ((f.AddLabelPrefix pfx).Emit cg).1) := by
  induction ms with
  | nil => rfl
  | cons m ms ih =>
    cases m <;> simp [ClassDecl.EmitMembers, methodsOf, ih, Member.AddLabelPrefix, Member.Emit]

/-- Fields after the first loop: the `k`-th one carries the counter after `k`
additions of the word size. -/
theorem fieldsOf_EmitFields_get (cg : CodeGenerator) (ms : List Member) (off : Int) (k : Nat)
    (v : VarDecl) (h : (fieldsOf ms)[k]? = some v) :
    (fieldsOf (ClassDecl.EmitFields cg off ms))[k]?
      = some { v with memOffset := some (intAddN off cg.VarSize k) } := by
  induction ms generalizing off k with
  | nil => simp [fieldsOf] at h
  | cons m ms ih =>
    cases m with
    | fn f =>
      simp only [fieldsOf] at h
      simpa [ClassDecl.EmitFields, fieldsOf] using ih off k h
    | var w =>
      cases k with
      | zero =>
        simp only [fieldsOf, List.getElem?_cons_zero, Option.some.injEq] at h
        simp [ClassDecl.EmitFields, fieldsOf, h, intAddN]
      | succ k =>
        simp only [fieldsOf, List.getElem?_cons_succ] at h
        have := ih (intAdd off (w.GetMemBytes cg)) k h
        simp only [ClassDecl.EmitFields, fieldsOf, List.getElem?_cons_succ, this]
        rfl

/-- Methods after the second loop: the `k`-th one carries the counter after `k`
additions of the slot width. -/
theorem methodsOf_EmitMethods_get (cg : CodeGenerator) (ms : List Member) (off : Int) (k : Nat)
    (f : FnDecl) (h : (methodsOf ms)[k]? = some f) :
    (methodsOf (ClassDecl.EmitMethods cg off ms))[k]?
      = some { f with vtblOffset := some (intAddN off cg.VarSize k) } := by
  induction ms generalizing off k with
  | nil => simp [methodsOf] at h
  | cons m ms ih =>
    cases m with
    | var w =>
      simp only [methodsOf] at h
      simpa [ClassDecl.EmitMethods, methodsOf] using ih off k h
    | fn g =>
      cases k with
      | zero =>
        simp only [methodsOf, List.getElem?_cons_zero, Option.some.injEq] at h
        simp [ClassDecl.EmitMethods, methodsOf, h, intAddN]
      | succ k =>
        simp only [methodsOf, List.getElem?_cons_succ] at h
        have := ih (intAdd off cg.VarSize) k h
        simp only [ClassDecl.EmitMethods, methodsOf, List.getElem?_cons_succ, this]
        rfl

theorem length_fieldsOf_EmitFields (cg : CodeGenerator) (off : Int) (ms : List Member) :
    (fieldsOf (ClassDecl.EmitFields cg off ms)).length = (fieldsOf ms).length := by
  induction ms generalizing off with
  | nil => rfl
  | cons m ms ih => cases m <;> simp [ClassDecl.EmitFields, fieldsOf, ih]

theorem length_methodsOf_EmitMethods (cg : CodeGenerator) (off : Int) (ms : List Member) :
    (methodsOf (ClassDecl.EmitMethods cg off ms)).length = (methodsOf ms).length := by
  induction ms generalizing off with
  | nil => rfl
  | cons m ms ih => cases m <;> simp [ClassDecl.EmitMethods, methodsOf, ih]

/-! ## Lemmas on the superclass chain -/

/-- Shape of a defined chain: either the class has no superclass, or the name
resolves to a class whose chain is the tail. -/
theorem superChain_eq_some (L : Lookup) (f : Nat) (c : ClassDecl) (anc : List ClassDecl)
    (h : superChain L f c = some anc) :
    (c.extends_ = none ∧ anc = []) ∨
      ∃ g ex sup rest, f = g + 1 ∧ c.extends_ = some ex ∧ L ex = some (.cls sup) ∧
        superChain L g sup = some rest ∧ anc = sup :: rest := by
  cases f with
  | zero =>
    unfold superChain at h
    cases hex : c.extends_ with
    | none =>
      rw [hex] at h
      simp only [Option.some.injEq] at h
      exact Or.inl ⟨rfl, h.symm⟩
    | some ex => rw [hex] at h; simp at h
  | succ f =>
    unfold superChain at h
    cases hex : c.extends_ with
    | none =>
      rw [hex] at h
      simp only [Option.some.injEq] at h
      exact Or.inl ⟨rfl, h.symm⟩
    | some ex =>
      rw [hex] at h
      simp only at h
      cases hl : L ex with
      | none => rw [hl] at h; simp at h
      | some d =>
        rw [hl] at h
        cases d with
        | var v => simp at h
        | fn g => simp at h
        | iface i => simp at h
        | cls sup =>
          simp only [Option.map_eq_some'] at h
          obtain ⟨rest, h1, h2⟩ := h
          exact Or.inr ⟨f, ex, sup, rest, rfl, rfl, hl, h1, h2.symm⟩

theorem superChain_root (L : Lookup) (f : Nat) (c : ClassDecl) (h : c.extends_ = none) :
    superChain L f c = some [] := by
  cases f <;> (unfold superChain; rw [h])

theorem superChain_step (L : Lookup) (f : Nat) (c sup : ClassDecl) (ex : String)
    (rest : List ClassDecl) (h : c.extends_ = some ex) (hl : L ex = some (.cls sup))
    (hr : superChain L f sup = some rest) :
    superChain L (f + 1) c = some (sup :: rest) := by
  unfold superChain
  rw [h]
  simp only
  rw [hl]
  simp [hr]

theorem superChain_mono (L : Lookup) (f : Nat) (c : ClassDecl) (anc : List ClassDecl)
    (h : superChain L f c = some anc) : superChain L (f + 1) c = some anc := by
  induction f generalizing c anc with
  | zero =>
    rcases superChain_eq_some L 0 c anc h with ⟨h1, h2⟩ | ⟨g, _, _, _, hg, _⟩
    · rw [h2]; exact superChain_root L _ c h1
    · omega
  | succ f ih =>
    rcases superChain_eq_some L _ c anc h with ⟨h1, h2⟩ | ⟨g, ex, sup, rest, hg, h1, h2, h3, h4⟩
    · rw [h2]; exact superChain_root L _ c h1
    · have hg : g = f := by omega
      rw [hg] at h3
      rw [h4]; exact superChain_step L _ c sup ex rest h1 h2 (ih sup rest h3)

theorem superChain_le (L : Lookup) (f g : Nat) (c : ClassDecl) (anc : List ClassDecl)
    (h : superChain L f c = some anc) (hfg : f ≤ g) : superChain L g c = some anc := by
  induction hfg with
  | refl => exact h
  | step _ ih => exact superChain_mono L _ c anc ih

theorem superChain_unique (L : Lookup) (f g : Nat) (c : ClassDecl) (a b : List ClassDecl)
    (ha : superChain L f c = some a) (hb : superChain L g c = some b) : a = b := by
  have h1 := superChain_le L f (max f g) c a ha (le_max_left f g)
  have h2 := superChain_le L g (max f g) c b hb (le_max_right f g)
  rw [h1] at h2
  exact Option.some.inj h2

/-- Every ancestor has a chain of its own, shorter than the one it lies on. -/
theorem superChain_mem (L : Lookup) (f : Nat) (c x : ClassDecl) (anc : List ClassDecl)
    (h : superChain L f c = some anc) (hx : x ∈ anc) :
    ∃ rest, superChain L f x = some rest ∧ rest.length < anc.length ∧
      ∀ y, y ∈ rest → y ∈ anc := by
  induction f generalizing c anc with
  | zero =>
    rcases superChain_eq_some L 0 c anc h with ⟨_, h2⟩ | ⟨g, _, _, _, hg, _⟩
    · rw [h2] at hx; simp at hx
    · omega
  | succ f ih =>
    rcases superChain_eq_some L _ c anc h with ⟨_, h2⟩ | ⟨g, ex, sup, rest, hg, _, _, h3, h4⟩
    · rw [h2] at hx; simp at hx
    · have hg : g = f := by omega
      rw [hg] at h3
      rw [h4] at hx
      rcases List.mem_cons.mp hx with hx | hx
      · refine ⟨rest, ?_, ?_, ?_⟩
        · rw [hx]; exact superChain_mono L f sup rest h3
        · rw [h4]; simp
        · intro y hy; rw [h4]; exact List.mem_cons_of_mem _ hy
      · obtain ⟨r, hr1, hr2, hr3⟩ := ih sup rest h3 hx
        refine ⟨r, superChain_mono L f x r hr1, ?_, ?_⟩
        · rw [h4]; simp only [List.length_cons]; omega
        · intro y hy; rw [h4]; exact List.mem_cons_of_mem _ (hr3 y hy)

/-- A class does not lie on its own chain: the chain is acyclic. -/
theorem superChain_not_mem (L : Lookup) (f : Nat) (c : ClassDecl) (anc : List ClassDecl)
    (h : superChain L f c = some anc) : c ∉ anc := by
  intro hc
  obtain ⟨rest, hr1, hr2, _⟩ := superChain_mem L f c c anc h hc
  have := superChain_unique L f f c rest anc hr1 h
  rw [this] at hr2
  exact Nat.lt_irrefl _ hr2

/-- The chain depends on the class through its superclass name only. -/
theorem superChain_extends (L : Lookup) (f : Nat) (c d : ClassDecl)
    (h : c.extends_ = d.extends_) : superChain L f c = superChain L f d := by
  cases f <;> (unfold superChain; rw [h])

/-- A registry that differs from `L` only at names bound to the object `c` gives
the same chain to every class whose chain avoids `c`. -/
theorem superChain_congr (L M : Lookup) (c : ClassDecl)
    (hLM : ∀ n, L n ≠ some (.cls c) → M n = L n) (f : Nat) (x : ClassDecl)
    (anc : List ClassDecl) (h : superChain L f x = some anc) (hc : c ∉ anc) :
    superChain M f x = some anc := by
  induction f generalizing x anc with
  | zero =>
    rcases superChain_eq_some L 0 x anc h with ⟨h1, h2⟩ | ⟨g, _, _, _, hg, _⟩
    · rw [h2]; exact superChain_root M _ x h1
    · omega
  | succ f ih =>
    rcases superChain_eq_some L _ x anc h with ⟨h1, h2⟩ | ⟨g, ex, sup, rest, hg, h1, h2, h3, h4⟩
    · rw [h2]; exact superChain_root M _ x h1
    · have hg : g = f := by omega
      rw [hg] at h3
      rw [h4] at hc ⊢
      have hne : sup ≠ c := fun e => hc (by rw [e]; exact List.mem_cons_self _ _)
      have hM : M ex = some (.cls sup) := by
        rw [hLM ex, h2]
        rw [h2]
        intro e
        exact hne (by injection e with e; injection e)
      exact superChain_step M f x sup ex rest h1 hM
        (ih sup rest h3 (fun hm => hc (List.mem_cons_of_mem _ hm)))

/-! ## The getters along a chain -/

theorem GetMethodLabelsBody_root (L : Lookup) (call : ClassDecl → Except Err (List String))
    (c : ClassDecl) (h : c.extends_ = none) :
    ClassDecl.GetMethodLabelsBody L call c = .ok ((methodsOf c.members).map FnDecl.GetLabel) := by
  unfold ClassDecl.GetMethodLabelsBody
  rw [h]
  simp [appendOwnLabels_eq]

theorem GetMethodLabelsBody_step (L : Lookup) (call : ClassDecl → Except Err (List String))
    (c sup : ClassDecl) (ex : String) (h : c.extends_ = some ex)
    (hl : L ex = some (.cls sup)) :
    ClassDecl.GetMethodLabelsBody L call c
      = (call sup).map (fun extLabels => extLabels ++ (methodsOf c.members).map FnDecl.GetLabel) := by
  unfold ClassDecl.GetMethodLabelsBody
  rw [h]
  simp only
  rw [hl]
  simp only
  cases call sup <;> simp [Except.map, appendOwnLabels_eq]

theorem GetMemBytes_root (cg : CodeGenerator) (L : Lookup) (call : Decl → Except Err Int)
    (c : ClassDecl) (h : c.extends_ = none) :
    ClassDecl.GetMemBytes cg L call c
      = .ok (intAddN 0 cg.VarSize (fieldsOf c.members).length) := by
  unfold ClassDecl.GetMemBytes
  rw [h]
  simp only
  rw [foldl_GetMemBytes cg _ 0 isInt_zero]

theorem GetMemBytes_step (cg : CodeGenerator) (L : Lookup) (call : Decl → Except Err Int)
    (c : ClassDecl) (d : Decl) (ex : String) (h : c.extends_ = some ex) (hl : L ex = some d) :
    ClassDecl.GetMemBytes cg L call c
      = (call d).map (fun b => intAddN (intAdd 0 b) cg.VarSize (fieldsOf c.members).length) := by
  unfold ClassDecl.GetMemBytes
  rw [h]
  simp only
  rw [hl]
  simp only
  cases call d with
  | error e => rfl
  | ok b =>
    simp only [Except.map]
    rw [foldl_GetMemBytes cg _ _ (isInt_intAdd 0 b)]

theorem GetVTblBytes_root (cg : CodeGenerator) (L : Lookup) (call : Decl → Except Err Int)
    (c : ClassDecl) (h : c.extends_ = none) :
    ClassDecl.GetVTblBytes cg L call c
      = .ok (intAddN 0 cg.VarSize (methodsOf c.members).length) := by
  unfold ClassDecl.GetVTblBytes
  rw [h]
  simp only
  rw [foldl_GetVTblBytes cg _ 0 isInt_zero]

theorem GetVTblBytes_step (cg : CodeGenerator) (L : Lookup) (call : Decl → Except Err Int)
    (c : ClassDecl) (d : Decl) (ex : String) (h : c.extends_ = some ex) (hl : L ex = some d) :
    ClassDecl.GetVTblBytes cg L call c
      = (call d).map
          (fun b => intAddN (intAdd 0 b) cg.VarSize (methodsOf c.members).length) := by
  unfold ClassDecl.GetVTblBytes
  rw [h]
  simp only
  rw [hl]
  simp only
  cases call d with
  | error e => rfl
  | ok b =>
    simp only [Except.map]
    rw [foldl_GetVTblBytes cg _ _ (isInt_intAdd 0 b)]

theorem GetMethodLabels_unfold (L : Lookup) (f : Nat) (c : ClassDecl) :
    ClassDecl.GetMethodLabels L (f + 1) c
      = ClassDecl.GetMethodLabelsBody L (ClassDecl.GetMethodLabels L f) c := by
  rw [ClassDecl.GetMethodLabels]

theorem GetMemBytes_unfold (cg : CodeGenerator) (L : Lookup) (f : Nat) (c : ClassDecl) :
    Decl.GetMemBytes cg L (f + 1) (.cls c)
      = ClassDecl.GetMemBytes cg L (Decl.GetMemBytes cg L f) c := by
  rw [Decl.GetMemBytes]

theorem GetVTblBytes_unfold (cg : CodeGenerator) (L : Lookup) (f : Nat) (c : ClassDecl) :
    Decl.GetVTblBytes cg L (f + 1) (.cls c)
      = ClassDecl.GetVTblBytes cg L (Decl.GetVTblBytes cg L f) c := by
  rw [Decl.GetVTblBytes]

theorem length_vtableLabels (cs : List ClassDecl) :
    (vtableLabels cs).length = methodCount cs := by
  induction cs with
  | nil => rfl
  | cons c cs ih => simp [vtableLabels, methodCount, ih]; omega

/-- Along a defined chain `GetMethodLabels` returns the labels of the whole chain
in vtable order. -/
theorem GetMethodLabels_chain (L : Lookup) (f : Nat) (c : ClassDecl) (anc : List ClassDecl)
    (h : superChain L f c = some anc) :
    ClassDecl.GetMethodLabels L f c = .ok (vtableLabels (c :: anc)) := by
  induction f generalizing c anc with
  | zero =>
    rcases superChain_eq_some L 0 c anc h with ⟨h1, h2⟩ | ⟨g, _, _, _, hg, _⟩
    · rw [ClassDecl.GetMethodLabels, GetMethodLabelsBody_root L _ c h1, h2]
      simp [vtableLabels]
    · omega
  | succ f ih =>
    rcases superChain_eq_some L _ c anc h with ⟨h1, h2⟩ | ⟨g, ex, sup, rest, hg, h1, h2, h3, h4⟩
    · rw [GetMethodLabels_unfold, GetMethodLabelsBody_root L _ c h1, h2]
      simp [vtableLabels]
    · have hg : g = f := by omega
      rw [hg] at h3
      rw [GetMethodLabels_unfold, GetMethodLabelsBody_step L _ c sup ex h1 h2, ih sup rest h3, h4]
      simp [Except.map, vtableLabels]

/-- Along a defined chain `GetMemBytes` returns, in `int` arithmetic, the word
size times the number of fields of the whole chain. -/
theorem GetMemBytes_chain (cg : CodeGenerator) (L : Lookup) (f : Nat) (c : ClassDecl)
    (anc : List ClassDecl) (h : superChain L f c = some anc) :
    Decl.GetMemBytes cg L f (.cls c)
      = .ok (wrapInt (cg.VarSize * (fieldCount (c :: anc) : Int))) := by
  induction f generalizing c anc with
  | zero =>
    rcases superChain_eq_some L 0 c anc h with ⟨h1, h2⟩ | ⟨g, _, _, _, hg, _⟩
    · rw [Decl.GetMemBytes, GetMemBytes_root cg L _ c h1, h2, intAddN_eq _ _ _ isInt_zero]
      simp [fieldCount]
    · omega
  | succ f ih =>
    rcases superChain_eq_some L _ c anc h with ⟨h1, h2⟩ | ⟨g, ex, sup, rest, hg, h1, h2, h3, h4⟩
    · rw [GetMemBytes_unfold, GetMemBytes_root cg L _ c h1, h2, intAddN_eq _ _ _ isInt_zero]
      simp [fieldCount]
    · have hg : g = f := by omega
      rw [hg] at h3
      rw [GetMemBytes_unfold, GetMemBytes_step cg L _ c _ ex h1 h2, ih sup rest h3, h4]
      simp only [Except.map, fieldCount]
      rw [intAddN_eq _ _ _ (isInt_intAdd _ _), intAdd, Int.zero_add,
        wrapInt_of_isInt _ (isInt_wrapInt _), wrapInt_add_left]
      congr 2
      push_cast
      ring

/-- Along a defined chain `GetVTblBytes` returns, in `int` arithmetic, the slot
width times the number of methods of the whole chain. -/
theorem GetVTblBytes_chain (cg : CodeGenerator) (L : Lookup) (f : Nat) (c : ClassDecl)
    (anc : List ClassDecl) (h : superChain L f c = some anc) :
    Decl.GetVTblBytes cg L f (.cls c)
      = .ok (wrapInt (cg.VarSize * (methodCount (c :: anc) : Int))) := by
  induction f generalizing c anc with
  | zero =>
    rcases superChain_eq_some L 0 c anc h with ⟨h1, h2⟩ | ⟨g, _, _, _, hg, _⟩
    · rw [Decl.GetVTblBytes, GetVTblBytes_root cg L _ c h1, h2, intAddN_eq _ _ _ isInt_zero]
      simp [methodCount]
    · omega
  | succ f ih =>
    rcases superChain_eq_some L _ c anc h with ⟨h1, h2⟩ | ⟨g, ex, sup, rest, hg, h1, h2, h3, h4⟩
    · rw [GetVTblBytes_unfold, GetVTblBytes_root cg L _ c h1, h2, intAddN_eq _ _ _ isInt_zero]
      simp [methodCount]
    · have hg : g = f := by omega
      rw [hg] at h3
      rw [GetVTblBytes_unfold, GetVTblBytes_step cg L _ c _ ex h1 h2, ih sup rest h3, h4]
      simp only [Except.map, methodCount]
      rw [intAddN_eq _ _ _ (isInt_intAdd _ _), intAdd, Int.zero_add,
        wrapInt_of_isInt _ (isInt_wrapInt _), wrapInt_add_left]
      congr 2
      push_cast
      ring

/-! ## More fuel never changes a returned value -/

theorem GetMethodLabelsBody_mono (L : Lookup) (call1 call2 : ClassDecl → Except Err (List String))
    (hcall : ∀ x r, call1 x = .ok r → call2 x = .ok r) (c : ClassDecl) (l : List String)
    (h : ClassDecl.GetMethodLabelsBody L call1 c = .ok l) :
    ClassDecl.GetMethodLabelsBody L call2 c = .ok l := by
  cases hex : c.extends_ with
  | none =>
    rw [GetMethodLabelsBody_root L _ c hex] at h ⊢
    exact h
  | some ex =>
    cases hl : L ex with
    | none => simp [ClassDecl.GetMethodLabelsBody, hex, hl] at h
    | some d =>
      cases d with
      | var v => simp [ClassDecl.GetMethodLabelsBody, hex, hl] at h
      | fn g => simp [ClassDecl.GetMethodLabelsBody, hex, hl] at h
      | iface i => simp [ClassDecl.GetMethodLabelsBody, hex, hl] at h
      | cls sup =>
        rw [GetMethodLabelsBody_step L _ c sup ex hex hl] at h ⊢
        cases h1 : call1 sup with
        | error e => rw [h1] at h; simp [Except.map] at h
        | ok r => rw [h1] at h; rw [hcall sup r h1]; exact h

theorem GetMethodLabels_mono (L : Lookup) (f : Nat) (c : ClassDecl) (l : List String)
    (h : ClassDecl.GetMethodLabels L f c = .ok l) :
    ClassDecl.GetMethodLabels L (f + 1) c = .ok l := by
  induction f generalizing c l with
  | zero =>
    rw [GetMethodLabels_unfold]
    rw [ClassDecl.GetMethodLabels] at h
    exact GetMethodLabelsBody_mono L _ _ (fun x r hx => by simp at hx) c l h
  | succ f ih =>
    rw [GetMethodLabels_unfold] at h ⊢
    exact GetMethodLabelsBody_mono L _ _ ih c l h

theorem GetMethodLabels_le (L : Lookup) (f g : Nat) (c : ClassDecl) (l : List String)
    (h : ClassDecl.GetMethodLabels L f c = .ok l) (hfg : f ≤ g) :
    ClassDecl.GetMethodLabels L g c = .ok l := by
  induction hfg with
  | refl => exact h
  | step _ ih => exact GetMethodLabels_mono L _ c l ih

theorem ClassGetMemBytes_mono (cg : CodeGenerator) (L : Lookup)
    (call1 call2 : Decl → Except Err Int)
    (hcall : ∀ x r, call1 x = .ok r → call2 x = .ok r) (c : ClassDecl) (b : Int)
    (h : ClassDecl.GetMemBytes cg L call1 c = .ok b) :
    ClassDecl.GetMemBytes cg L call2 c = .ok b := by
  cases hex : c.extends_ with
  | none =>
    rw [GetMemBytes_root cg L _ c hex] at h ⊢
    exact h
  | some ex =>
    cases hl : L ex with
    | none => simp [ClassDecl.GetMemBytes, hex, hl] at h
    | some d =>
      rw [GetMemBytes_step cg L _ c d ex hex hl] at h ⊢
      cases h1 : call1 d with
      | error e => rw [h1] at h; simp [Except.map] at h
      | ok r => rw [h1] at h; rw [hcall d r h1]; exact h

theorem GetMemBytes_mono (cg : CodeGenerator) (L : Lookup) (f : Nat) (d : Decl) (b : Int)
    (h : Decl.GetMemBytes cg L f d = .ok b) : Decl.GetMemBytes cg L (f + 1) d = .ok b := by
  induction f generalizing d b with
  | zero =>
    cases d with
    | var v => simpa [Decl.GetMemBytes] using h
    | fn g => simpa [Decl.GetMemBytes] using h
    | iface i => simpa [Decl.GetMemBytes] using h
    | cls c =>
      rw [GetMemBytes_unfold]
      rw [Decl.GetMemBytes] at h
      exact ClassGetMemBytes_mono cg L _ _ (fun x r hx => by simp at hx) c b h
  | succ f ih =>
    cases d with
    | var v => simpa [Decl.GetMemBytes] using h
    | fn g => simpa [Decl.GetMemBytes] using h
    | iface i => simpa [Decl.GetMemBytes] using h
    | cls c =>
      rw [GetMemBytes_unfold] at h ⊢
      exact ClassGetMemBytes_mono cg L _ _ ih c b h

theorem GetMemBytes_le (cg : CodeGenerator) (L : Lookup) (f g : Nat) (d : Decl) (b : Int)
    (h : Decl.GetMemBytes cg L f d = .ok b) (hfg : f ≤ g) :
    Decl.GetMemBytes cg L g d = .ok b := by
  induction hfg with
  | refl => exact h
  | step _ ih => exact GetMemBytes_mono cg L _ d b ih

theorem ClassGetVTblBytes_mono (cg : CodeGenerator) (L : Lookup)
    (call1 call2 : Decl → Except Err Int)
    (hcall : ∀ x r, call1 x = .ok r → call2 x = .ok r) (c : ClassDecl) (b : Int)
    (h : ClassDecl.GetVTblBytes cg L call1 c = .ok b) :
    ClassDecl.GetVTblBytes cg L call2 c = .ok b := by
  cases hex : c.extends_ with
  | none =>
    rw [GetVTblBytes_root cg L _ c hex] at h ⊢
    exact h
  | some ex =>
    cases hl : L ex with
    | none => simp [ClassDecl.GetVTblBytes, hex, hl] at h
    | some d =>
      rw [GetVTblBytes_step cg L _ c d ex hex hl] at h ⊢
      cases h1 : call1 d with
      | error e => rw [h1] at h; simp [Except.map] at h
      | ok r => rw [h1] at h; rw [hcall d r h1]; exact h

theorem GetVTblBytes_mono (cg : CodeGenerator) (L : Lookup) (f : Nat) (d : Decl) (b : Int)
    (h : Decl.GetVTblBytes cg L f d = .ok b) : Decl.GetVTblBytes cg L (f + 1) d = .ok b := by
  induction f generalizing d b with
  | zero =>
    cases d with
    | var v => simpa [Decl.GetVTblBytes] using h
    | fn g => simpa [Decl.GetVTblBytes] using h
    | iface i => simpa [Decl.GetVTblBytes] using h
    | cls c =>
      rw [GetVTblBytes_unfold]
      rw [Decl.GetVTblBytes] at h
      exact ClassGetVTblBytes_mono cg L _ _ (fun x r hx => by simp at hx) c b h
  | succ f ih =>
    cases d with
    | var v => simpa [Decl.GetVTblBytes] using h
    | fn g => simpa [Decl.GetVTblBytes] using h
    | iface i => simpa [Decl.GetVTblBytes] using h
    | cls c =>
      rw [GetVTblBytes_unfold] at h ⊢
      exact ClassGetVTblBytes_mono cg L _ _ ih c b h

theorem GetVTblBytes_le (cg : CodeGenerator) (L : Lookup) (f g : Nat) (d : Decl) (b : Int)
    (h : Decl.GetVTblBytes cg L f d = .ok b) (hfg : f ≤ g) :
    Decl.GetVTblBytes cg L g d = .ok b := by
  induction hfg with
  | refl => exact h
  | step _ ih => exact GetVTblBytes_mono cg L _ d b ih

/-! ## Lemmas on `ClassDecl::Emit` -/

theorem classAt_eq (p : Program) (a : Nat) (c : ClassDecl) (h : p.classAt a = some c) :
    p.decls[a]? = some (.cls c) := by
  unfold Program.classAt at h
  cases hd : p.decls[a]? with
  | none => rw [hd] at h; simp at h
  | some d =>
    rw [hd] at h
    cases d with
    | cls x => simp only [Option.some.injEq] at h; rw [h]
    | var v => simp at h
    | fn g => simp at h
    | iface i => simp at h

theorem classAt_set (p : Program) (a : Nat) (c c1 : ClassDecl) (h : p.classAt a = some c) :
    Program.classAt { p with decls := p.decls.set a (.cls c1) } a = some c1 := by
  have hd := classAt_eq p a c h
  have hlt : a < p.decls.length := by
    rcases Nat.lt_or_ge a p.decls.length with hl | hl
    · exact hl
    · rw [List.getElem?_eq_none hl] at hd; simp at hd
  simp [Program.classAt, List.getElem?_set, hlt]

/-- Heap positions other than the emitted one keep their object. -/
theorem decls_set_ne (p : Program) (a b : Nat) (d : Decl) (h : b ≠ a) :
    (p.decls.set a d)[b]? = p.decls[b]? := by
  rw [List.getElem?_set_ne (Ne.symm h)]

/-- After the update of the object at `a`, a name is bound as before unless it
was bound to the object at `a`. -/
theorem Lookup_set (p : Program) (a : Nat) (c c1 : ClassDecl) (h : p.classAt a = some c)
    (n : String) (hn : p.Lookup n ≠ some (.cls c)) :
    Program.Lookup { p with decls := p.decls.set a (.cls c1) } n = p.Lookup n := by
  have hd := classAt_eq p a c h
  unfold Program.Lookup at hn ⊢
  cases ht : p.table n with
  | none => simp
  | some b =>
    rw [ht] at hn
    simp only [Option.some_bind] at hn ⊢
    by_cases hb : b = a
    · rw [hb] at hn; exact absurd hd hn
    · exact decls_set_ne p a b _ hb

/-- What a returning `Emit` on a class has done. -/
theorem Emit_ok_inv (cg : CodeGenerator) (fuel : Nat) (p : Program) (a : Nat) (c : ClassDecl)
    (q : Program) (reqs : List CgReq) (hc : p.classAt a = some c)
    (hE : Program.Emit cg fuel p a = .ok (q, reqs)) :
    ∃ mo vo labels, ClassDecl.EmitBases cg fuel p.Lookup c = .ok (mo, vo) ∧
      q = { p with decls := p.decls.set a (.cls (ClassDecl.EmitLoops cg c mo vo).1) } ∧
      ClassDecl.GetMethodLabels q.Lookup fuel (ClassDecl.EmitLoops cg c mo vo).1 = .ok labels ∧
      reqs = (ClassDecl.EmitLoops cg c mo vo).2 ++ [.GenVTable c.name labels] := by
  have hd := classAt_eq p a c hc
  unfold Program.Emit at hE
  rw [hd] at hE
  simp only [ClassDecl.Emit] at hE
  cases hb : ClassDecl.EmitBases cg fuel p.Lookup c with
  | error e => rw [hb] at hE; simp at hE
  | ok mv =>
    obtain ⟨mo, vo⟩ := mv
    rw [hb] at hE
    simp only at hE
    cases hl : ClassDecl.GetMethodLabels
        (Program.Lookup { p with decls := p.decls.set a (.cls (ClassDecl.EmitLoops cg c mo vo).1) })
        fuel (ClassDecl.EmitLoops cg c mo vo).1 with
    | error e => rw [hl] at hE; simp at hE
    | ok labels =>
      rw [hl] at hE
      simp only [Except.ok.injEq, Prod.mk.injEq] at hE
      refine ⟨mo, vo, labels, rfl, hE.1.symm, ?_, ?_⟩
      · rw [← hE.1]; exact hl
      · rw [← hE.2]; rfl

/-- A returning `Emit` on a class, built from its parts. -/
theorem Emit_ok_of (cg : CodeGenerator) (fuel : Nat) (p : Program) (a : Nat) (c : ClassDecl)
    (mo vo : Int) (labels : List String) (hc : p.classAt a = some c)
    (hb : ClassDecl.EmitBases cg fuel p.Lookup c = .ok (mo, vo))
    (hl : ClassDecl.GetMethodLabels
        (Program.Lookup { p with decls := p.decls.set a (.cls (ClassDecl.EmitLoops cg c mo vo).1) })
        fuel (ClassDecl.EmitLoops cg c mo vo).1 = .ok labels) :
    Program.Emit cg fuel p a
      = .ok ({ p with decls := p.decls.set a (.cls (ClassDecl.EmitLoops cg c mo vo).1) },
          (ClassDecl.EmitLoops cg c mo vo).2 ++ [.GenVTable c.name labels]) := by
  have hd := classAt_eq p a c hc
  unfold Program.Emit
  rw [hd]
  simp only [ClassDecl.Emit]
  rw [hb]
  simp only
  rw [hl]
  rfl

/-- The counters with which the loops start, when `EmitBases` returns. -/
theorem EmitBases_ok_inv (cg : CodeGenerator) (fuel : Nat) (L : Lookup) (c : ClassDecl)
    (mo vo : Int) (h : ClassDecl.EmitBases cg fuel L c = .ok (mo, vo)) :
    ∃ S V, IsInt mo ∧ IsInt vo ∧
      (c.extends_ = none →
        mo = cg.OffsetToFirstField ∧ vo = cg.OffsetToFirstMethod ∧ S = 0 ∧ V = 0) ∧
      (∀ ex, c.extends_ = some ex →
        mo = intAdd cg.OffsetToFirstField S ∧ vo = intAdd cg.OffsetToFirstMethod V ∧
        ∃ d, L ex = some d ∧
          Decl.GetMemBytes cg L fuel d = .ok S ∧ Decl.GetVTblBytes cg L fuel d = .ok V) := by
  unfold ClassDecl.EmitBases at h
  cases hex : c.extends_ with
  | none =>
    rw [hex] at h
    simp only [Except.ok.injEq, Prod.mk.injEq] at h
    exact ⟨0, 0, h.1 ▸ cg.isInt.2.1, h.2 ▸ cg.isInt.2.2.1,
      fun _ => ⟨h.1.symm, h.2.symm, rfl, rfl⟩, fun ex he => by simp at he⟩
  | some ex =>
    rw [hex] at h
    simp only at h
    cases hl : L ex with
    | none => rw [hl] at h; simp at h
    | some d =>
      rw [hl] at h
      simp only at h
      cases hm : Decl.GetMemBytes cg L fuel d with
      | error e => rw [hm] at h; simp at h
      | ok S =>
        rw [hm] at h
        simp only at h
        cases hv : Decl.GetVTblBytes cg L fuel d with
        | error e => rw [hv] at h; simp at h
        | ok V =>
          rw [hv] at h
          simp only [Except.ok.injEq, Prod.mk.injEq] at h
          refine ⟨S, V, h.1 ▸ isInt_intAdd _ _, h.2 ▸ isInt_intAdd _ _,
            fun he => by simp at he, ?_⟩
          intro ex2 he
          simp only [Option.some.injEq] at he
          rw [← he]
          exact ⟨h.1.symm, h.2.symm, d, hl, hm, hv⟩

theorem EmitBases_root (cg : CodeGenerator) (fuel : Nat) (L : Lookup) (c : ClassDecl)
    (h : c.extends_ = none) :
    ClassDecl.EmitBases cg fuel L c = .ok (cg.OffsetToFirstField, cg.OffsetToFirstMethod) := by
  unfold ClassDecl.EmitBases
  rw [h]

theorem EmitBases_step (cg : CodeGenerator) (fuel : Nat) (L : Lookup) (c : ClassDecl)
    (ex : String) (d : Decl) (S V : Int) (h : c.extends_ = some ex) (hl : L ex = some d)
    (hm : Decl.GetMemBytes cg L fuel d = .ok S) (hv : Decl.GetVTblBytes cg L fuel d = .ok V) :
    ClassDecl.EmitBases cg fuel L c
      = .ok (intAdd cg.OffsetToFirstField S, intAdd cg.OffsetToFirstMethod V) := by
  unfold ClassDecl.EmitBases
  rw [h]
  simp only
  rw [hl]
  simp only
  rw [hm]
  simp only
  rw [hv]

/-- The function object after `FnDecl::Emit`: only the formals have changed. -/
theorem FnDecl_Emit_fst (cg : CodeGenerator) (f : FnDecl) :
    (f.Emit cg).1
      = { f with formals := FnDecl.EmitFormals cg cg.OffsetToFirstParam f.formals } := by
  unfold FnDecl.Emit
  cases f.body <;> rfl

theorem FnDecl_Emit_vtblOffset (cg : CodeGenerator) (f : FnDecl) :
    (f.Emit cg).1.vtblOffset = f.vtblOffset := by
  rw [FnDecl_Emit_fst]

theorem FnDecl_Emit_label (cg : CodeGenerator) (f : FnDecl) :
    (f.Emit cg).1.label = f.label := by
  rw [FnDecl_Emit_fst]

theorem FnDecl_Emit_name (cg : CodeGenerator) (f : FnDecl) :
    (f.Emit cg).1.name = f.name := by
  rw [FnDecl_Emit_fst]

/-- Fields of the class object after the loops. -/
theorem fieldsOf_EmitLoops_get (cg : CodeGenerator) (c : ClassDecl) (mo vo : Int) (k : Nat)
    (v : VarDecl) (h : (fieldsOf c.members)[k]? = some v) :
    (fieldsOf (ClassDecl.EmitLoops cg c mo vo).1.members)[k]?
      = some { v with memOffset := some (intAddN mo cg.VarSize k) } := by
  simp only [ClassDecl.EmitLoops, fieldsOf_EmitMembers, fieldsOf_EmitMethods]
  exact fieldsOf_EmitFields_get cg c.members mo k v h

theorem length_fieldsOf_EmitLoops (cg : CodeGenerator) (c : ClassDecl) (mo vo : Int) :
    (fieldsOf (ClassDecl.EmitLoops cg c mo vo).1.members).length
      = (fieldsOf c.members).length := by
  simp only [ClassDecl.EmitLoops, fieldsOf_EmitMembers, fieldsOf_EmitMethods,
    length_fieldsOf_EmitFields]

/-- Methods of the class object after the loops. -/
theorem methodsOf_EmitLoops_get (cg : CodeGenerator) (c : ClassDecl) (mo vo : Int) (k : Nat)
    (f : FnDecl) (h : (methodsOf c.members)[k]? = some f) :
    (methodsOf (ClassDecl.EmitLoops cg c mo vo).1.members)[k]?
      = some (FnDecl.Emit cg (FnDecl.AddLabelPrefix
          { f with vtblOffset := some (intAddN vo cg.VarSize k) } (c.name ++ "."))).1 := by
  simp only [ClassDecl.EmitLoops, methodsOf_EmitMembers, List.getElem?_map]
  have h1 : (methodsOf (ClassDecl.EmitFields cg mo c.members))[k]? = some f := by
    rw [methodsOf_EmitFields]; exact h
  rw [methodsOf_EmitMethods_get cg _ vo k f h1]
  rfl

theorem length_methodsOf_EmitLoops (cg : CodeGenerator) (c : ClassDecl) (mo vo : Int) :
    (methodsOf (ClassDecl.EmitLoops cg c mo vo).1.members).length
      = (methodsOf c.members).length := by
  simp only [ClassDecl.EmitLoops, methodsOf_EmitMembers, List.length_map,
    length_methodsOf_EmitMethods, methodsOf_EmitFields]

theorem EmitLoops_extends (cg : CodeGenerator) (c : ClassDecl) (mo vo : Int) :
    (ClassDecl.EmitLoops cg c mo vo).1.extends_ = c.extends_ := rfl

theorem EmitLoops_name (cg : CodeGenerator) (c : ClassDecl) (mo vo : Int) :
    (ClassDecl.EmitLoops cg c mo vo).1.name = c.name := rfl

/-- The memory offsets that the loops leave on the fields depend on the start
counter and on the number of fields only. -/
theorem memOffsets_EmitLoops (cg : CodeGenerator) (c : ClassDecl) (mo vo : Int) :
    (fieldsOf (ClassDecl.EmitLoops cg c mo vo).1.members).map VarDecl.memOffset
      = (List.range (fieldsOf c.members).length).map
          (fun (k : Nat) => some (intAddN mo cg.VarSize k)) := by
  apply List.ext_getElem?
  intro k
  rw [List.getElem?_map, List.getElem?_map]
  rcases Nat.lt_or_ge k (fieldsOf c.members).length with hk | hk
  · have hv : (fieldsOf c.members)[k]? = some ((fieldsOf c.members)[k]) :=
      List.getElem?_eq_getElem hk
    rw [fieldsOf_EmitLoops_get cg c mo vo k _ hv, List.getElem?_range hk]
    rfl
  · rw [List.getElem?_eq_none (by rw [length_fieldsOf_EmitLoops]; exact hk),
      List.getElem?_eq_none (by rw [List.length_range]; exact hk)]
    rfl

/-- The vtable offsets that the loops leave on the methods depend on the start
counter and on the number of methods only. -/
theorem vtblOffsets_EmitLoops (cg : CodeGenerator) (c : ClassDecl) (mo vo : Int) :
    (methodsOf (ClassDecl.EmitLoops cg c mo vo).1.members).map FnDecl.vtblOffset
      = (List.range (methodsOf c.members).length).map
          (fun (k : Nat) => some (intAddN vo cg.VarSize k)) := by
  apply List.ext_getElem?
  intro k
  rw [List.getElem?_map, List.getElem?_map]
  rcases Nat.lt_or_ge k (methodsOf c.members).length with hk | hk
  · have hv : (methodsOf c.members)[k]? = some ((methodsOf c.members)[k]) :=
      List.getElem?_eq_getElem hk
    rw [methodsOf_EmitLoops_get cg c mo vo k _ hv, List.getElem?_range hk]
    simp only [Option.map_some', FnDecl_Emit_vtblOffset]
    rfl
  · rw [List.getElem?_eq_none (by rw [length_methodsOf_EmitLoops]; exact hk),
      List.getElem?_eq_none (by rw [List.length_range]; exact hk)]
    rfl

/-- Along a defined chain the counters start past the fields and the methods of
all the ancestors, in `int` arithmetic. -/
theorem EmitBases_chain (cg : CodeGenerator) (fuel : Nat) (L : Lookup) (c : ClassDecl)
    (anc : List ClassDecl) (h : superChain L fuel c = some anc) :
    ClassDecl.EmitBases cg fuel L c
      = .ok (wrapInt (cg.OffsetToFirstField + cg.VarSize * (fieldCount anc : Int)),
          wrapInt (cg.OffsetToFirstMethod + cg.VarSize * (methodCount anc : Int))) := by
  rcases superChain_eq_some L fuel c anc h with ⟨h1, h2⟩ | ⟨g, ex, sup, rest, hg, h1, h2, h3, h4⟩
  · rw [EmitBases_root cg fuel L c h1, h2]
    simp only [fieldCount, methodCount, Nat.cast_zero, Int.mul_zero, Int.add_zero]
    rw [wrapInt_of_isInt _ cg.isInt.2.1, wrapInt_of_isInt _ cg.isInt.2.2.1]
  · have h5 : superChain L fuel sup = some rest := superChain_le L g fuel sup rest h3 (by omega)
    rw [h4, EmitBases_step cg fuel L c ex (.cls sup) _ _ h1 h2
      (GetMemBytes_chain cg L fuel sup rest h5) (GetVTblBytes_chain cg L fuel sup rest h5)]
    simp only [intAdd, wrapInt_add_right]

/-- Along a defined chain `Emit` on a class returns: the object is replaced by the
one the loops produce, every other object is kept, and the vtable request
carries the labels of the chain as they are at that point. -/
theorem Emit_chain (cg : CodeGenerator) (fuel : Nat) (p : Program) (a : Nat) (c : ClassDecl)
    (anc : List ClassDecl) (hc : p.classAt a = some c)
    (h : superChain p.Lookup fuel c = some anc) :
    ∃ mo vo, mo = wrapInt (cg.OffsetToFirstField + cg.VarSize * (fieldCount anc : Int)) ∧
      vo = wrapInt (cg.OffsetToFirstMethod + cg.VarSize * (methodCount anc : Int)) ∧
      Program.Emit cg fuel p a
        = .ok ({ p with decls := p.decls.set a (.cls (ClassDecl.EmitLoops cg c mo vo).1) },
            (ClassDecl.EmitLoops cg c mo vo).2
              ++ [.GenVTable c.name (vtableLabels ((ClassDecl.EmitLoops cg c mo vo).1 :: anc))]) ∧
      superChain
        (Program.Lookup { p with decls := p.decls.set a (.cls (ClassDecl.EmitLoops cg c mo vo).1) })
        fuel (ClassDecl.EmitLoops cg c mo vo).1 = some anc := by
  refine ⟨_, _, rfl, rfl, ?_⟩
  have hb := EmitBases_chain cg fuel p.Lookup c anc h
  have hch : superChain
      (Program.Lookup { p with decls := p.decls.set a (.cls (ClassDecl.EmitLoops cg c
        (wrapInt (cg.OffsetToFirstField + cg.VarSize * (fieldCount anc : Int)))
        (wrapInt (cg.OffsetToFirstMethod + cg.VarSize * (methodCount anc : Int)))).1) })
      fuel (ClassDecl.EmitLoops cg c
        (wrapInt (cg.OffsetToFirstField + cg.VarSize * (fieldCount anc : Int)))
        (wrapInt (cg.OffsetToFirstMethod + cg.VarSize * (methodCount anc : Int)))).1
        = some anc := by
    rw [superChain_extends _ fuel _ c (EmitLoops_extends cg c _ _)]
    exact superChain_congr p.Lookup _ c (fun n hn => Lookup_set p a c _ hc n hn) fuel c anc h
      (superChain_not_mem p.Lookup fuel c anc h)
  exact ⟨Emit_ok_of cg fuel p a c _ _ _ hc hb (GetMethodLabels_chain _ fuel _ anc hch), hch⟩

theorem fieldCount_append (xs ys : List ClassDecl) :
    fieldCount (xs ++ ys) = fieldCount xs + fieldCount ys := by
  induction xs with
  | nil => simp [fieldCount]
  | cons x xs ih => simp [fieldCount, ih]; omega

theorem methodCount_append (xs ys : List ClassDecl) :
    methodCount (xs ++ ys) = methodCount xs + methodCount ys := by
  induction xs with
  | nil => simp [methodCount]
  | cons x xs ih => simp [methodCount, ih]; omega

/-- The chain of an ancestor is the part of the chain that follows it. -/
theorem superChain_split (L : Lookup) (f : Nat) (c x : ClassDecl) (anc : List ClassDecl)
    (h : superChain L f c = some anc) (hx : x ∈ anc) :
    ∃ pre rest, anc = pre ++ x :: rest ∧ superChain L f x = some rest := by
  induction f generalizing c anc with
  | zero =>
    rcases superChain_eq_some L 0 c anc h with ⟨_, h2⟩ | ⟨g, _, _, _, hg, _⟩
    · rw [h2] at hx; simp at hx
    · omega
  | succ f ih =>
    rcases superChain_eq_some L _ c anc h with ⟨_, h2⟩ | ⟨g, ex, sup, rest, hg, _, _, h3, h4⟩
    · rw [h2] at hx; simp at hx
    · have hg : g = f := by omega
      rw [hg] at h3
      rw [h4] at hx
      rcases List.mem_cons.mp hx with hx | hx
      · exact ⟨[], rest, by rw [h4, hx]; rfl, by rw [hx]; exact superChain_mono L f sup rest h3⟩
      · obtain ⟨pre, r, hr1, hr2⟩ := ih sup rest h3 hx
        exact ⟨sup :: pre, r, by rw [h4, hr1]; rfl, superChain_mono L f x r hr2⟩

/-- A field of the class object after the loops sits at its index times the word
size past the start counter. -/
theorem memOffset_of_get_EmitLoops (cg : CodeGenerator) (c : ClassDecl) (mo vo : Int) (k : Nat)
    (v : VarDecl) (h : (fieldsOf (ClassDecl.EmitLoops cg c mo vo).1.members)[k]? = some v) :
    k < (fieldsOf c.members).length ∧ v.memOffset = some (intAddN mo cg.VarSize k) := by
  have hk : k < (fieldsOf c.members).length := by
    rcases Nat.lt_or_ge k (fieldsOf c.members).length with hk | hk
    · exact hk
    · rw [List.getElem?_eq_none (by rw [length_fieldsOf_EmitLoops]; exact hk)] at h
      simp at h
  refine ⟨hk, ?_⟩
  have hv : (fieldsOf c.members)[k]? = some ((fieldsOf c.members)[k]) :=
    List.getElem?_eq_getElem hk
  rw [fieldsOf_EmitLoops_get cg c mo vo k _ hv] at h
  simp only [Option.some.injEq] at h
  rw [← h]

theorem memOffset_of_mem_EmitLoops (cg : CodeGenerator) (c : ClassDecl) (mo vo : Int)
    (v : VarDecl) (h : v ∈ fieldsOf (ClassDecl.EmitLoops cg c mo vo).1.members) :
    ∃ k, k < (fieldsOf c.members).length ∧ v.memOffset = some (intAddN mo cg.VarSize k) := by
  obtain ⟨k, hk, hkv⟩ := List.getElem_of_mem h
  have h2 : (fieldsOf (ClassDecl.EmitLoops cg c mo vo).1.members)[k]? = some v := by
    rw [List.getElem?_eq_getElem hk, hkv]
  exact ⟨k, memOffset_of_get_EmitLoops cg c mo vo k v h2⟩

/-- An object that is not the emitted one is still there after the update. -/
theorem classAt_set_ne (p : Program) (a x : Nat) (c X c1 : ClassDecl)
    (hc : p.classAt a = some c) (hX : p.classAt x = some X) (hne : X ≠ c) :
    Program.classAt { p with decls := p.decls.set a (.cls c1) } x = some X := by
  have hxa : x ≠ a := by
    intro e
    rw [e, hc] at hX
    exact hne (Option.some.inj hX).symm
  unfold Program.classAt at hX ⊢
  simp only
  rw [decls_set_ne p a x _ hxa]
  exact hX

/-- Appending the same text to two different strings gives different strings. -/
theorem append_right_ne (s t u : String) (h : s ≠ t) : s ++ u ≠ t ++ u := by
  intro e
  apply h
  apply String.ext
  have e2 : (s ++ u).data = (t ++ u).data := by rw [e]
  rw [String.data_append, String.data_append] at e2
  exact List.append_cancel_right e2

/-- A returning `Emit` on a class leaves every own method with the class name and
a dot in front of its former label. -/
theorem Emit_method_label (cg : CodeGenerator) (fuel : Nat) (p : Program) (a : Nat)
    (c : ClassDecl) (q : Program) (reqs : List CgReq) (hc : p.classAt a = some c)
    (hE : Program.Emit cg fuel p a = .ok (q, reqs)) :
    ∃ c1, q.classAt a = some c1 ∧ c1.name = c.name ∧ c1.extends_ = c.extends_ ∧
      (∀ x X, p.classAt x = some X → X ≠ c → q.classAt x = some X) ∧
      ∀ (k : Nat) (f : FnDecl), (methodsOf c.members)[k]? = some f →
        ∃ f1, (methodsOf c1.members)[k]? = some f1 ∧ f1.name = f.name ∧
          f1.label = c.name ++ "." ++ f.label := by
  obtain ⟨mo, vo, labels, _, hq, _, _⟩ := Emit_ok_inv cg fuel p a c q reqs hc hE
  refine ⟨(ClassDecl.EmitLoops cg c mo vo).1, ?_, rfl, rfl, ?_, ?_⟩
  · rw [hq]; exact classAt_set p a c _ hc
  · intro x X hX hne
    rw [hq]; exact classAt_set_ne p a x c X _ hc hX hne
  · intro k f hf
    refine ⟨_, methodsOf_EmitLoops_get cg c mo vo k f hf, ?_, ?_⟩
    · rw [FnDecl_Emit_name]; rfl
    · rw [FnDecl_Emit_label]; rfl

/-- A counter that stays in the range of `int` at its start and at its end stays
in it at every step in between. -/
theorem isInt_between (b v : Int) (j n : Nat) (hb : IsInt b) (hn : IsInt (b + v * (n : Int)))
    (hj : j ≤ n) : IsInt (b + v * (j : Int)) := by
  unfold IsInt at hb hn ⊢
  have hj0 : (0 : Int) ≤ (j : Int) := Int.natCast_nonneg _
  have hjn : (j : Int) ≤ (n : Int) := by exact_mod_cast hj
  rcases le_or_lt 0 v with hv | hv
  · have h1 : 0 ≤ v * (j : Int) := mul_nonneg hv hj0
    have h2 : v * (j : Int) ≤ v * (n : Int) := mul_le_mul_of_nonneg_left hjn hv
    constructor <;> linarith [hb.1, hb.2, hn.1, hn.2]
  · have h1 : v * (j : Int) ≤ 0 := mul_nonpos_of_nonpos_of_nonneg (le_of_lt hv) hj0
    have h2 : v * (n : Int) ≤ v * (j : Int) := mul_le_mul_of_nonpos_left hjn (le_of_lt hv)
    constructor <;> linarith [hb.1, hb.2, hn.1, hn.2]

/-- Without overflow up to step `n`, the counter holds `b + v * j` at every step
`j ≤ n`. -/
theorem intAddN_exact_le (b v : Int) (j n : Nat) (hb : IsInt b)
    (hn : IsInt (b + v * (n : Int))) (hj : j ≤ n) : intAddN b v j = b + v * (j : Int) :=
  intAddN_exact b v j hb (isInt_between b v j n hb hn hj)

/-- A counter that starts at the wrapped value of `b + v * m` and is advanced `k`
times is exact as long as `b + v * N` is an `int` for some `N ≥ m + k`. -/
theorem counter_exact (b v : Int) (m n N k : Nat) (hb : IsInt b)
    (hN : IsInt (b + v * (N : Int))) (hmn : m + n ≤ N) (hk : k ≤ n) :
    intAddN (wrapInt (b + v * (m : Int))) v k = b + v * (m : Int) + v * (k : Int) := by
  have h1 : IsInt (b + v * (m : Int)) := isInt_between b v m N hb hN (by omega)
  have h2 : IsInt (b + v * ((m + k : Nat) : Int)) := isInt_between b v (m + k) N hb hN (by omega)
  have e : b + v * (m : Int) + v * (k : Int) = b + v * ((m + k : Nat) : Int) := by
    push_cast; ring
  rw [wrapInt_of_isInt _ h1, intAddN_eq _ _ _ h1, e, wrapInt_of_isInt _ h2]

/-- What the byte totals return is an `int`. -/
theorem isInt_ClassGetMemBytes (cg : CodeGenerator) (L : Lookup)
    (call : Decl → Except Err Int) (c : ClassDecl) (a : Int)
    (h : ClassDecl.GetMemBytes cg L call c = .ok a) : IsInt a := by
  cases hex : c.extends_ with
  | none =>
    rw [GetMemBytes_root cg L _ c hex] at h
    simp only [Except.ok.injEq] at h
    rw [← h]
    exact isInt_intAddN _ _ _ isInt_zero
  | some ex =>
    cases hl : L ex with
    | none => simp [ClassDecl.GetMemBytes, hex, hl] at h
    | some d =>
      rw [GetMemBytes_step cg L _ c d ex hex hl] at h
      cases hc : call d with
      | error e => rw [hc] at h; simp [Except.map] at h
      | ok b =>
        rw [hc] at h
        simp only [Except.map, Except.ok.injEq] at h
        rw [← h]
        exact isInt_intAddN _ _ _ (isInt_intAdd _ _)

theorem isInt_GetMemBytes (cg : CodeGenerator) (L : Lookup) (f : Nat) (d : Decl) (a : Int)
    (h : Decl.GetMemBytes cg L f d = .ok a) : IsInt a := by
  cases d with
  | var v =>
    have : a = cg.VarSize := by cases f <;> simpa [Decl.GetMemBytes, VarDecl.GetMemBytes] using h.symm
    rw [this]; exact cg.isInt.1
  | fn g =>
    have : a = 0 := by cases f <;> simpa [Decl.GetMemBytes] using h.symm
    rw [this]; exact isInt_zero
  | iface i =>
    have : a = 0 := by cases f <;> simpa [Decl.GetMemBytes] using h.symm
    rw [this]; exact isInt_zero
  | cls c =>
    cases f with
    | zero => rw [Decl.GetMemBytes] at h; exact isInt_ClassGetMemBytes cg L _ c a h
    | succ f => rw [GetMemBytes_unfold] at h; exact isInt_ClassGetMemBytes cg L _ c a h

theorem isInt_ClassGetVTblBytes (cg : CodeGenerator) (L : Lookup)
    (call : Decl → Except Err Int) (c : ClassDecl) (a : Int)
    (h : ClassDecl.GetVTblBytes cg L call c = .ok a) : IsInt a := by
  cases hex : c.extends_ with
  | none =>
    rw [GetVTblBytes_root cg L _ c hex] at h
    simp only [Except.ok.injEq] at h
    rw [← h]
    exact isInt_intAddN _ _ _ isInt_zero
  | some ex =>
    cases hl : L ex with
    | none => simp [ClassDecl.GetVTblBytes, hex, hl] at h
    | some d =>
      rw [GetVTblBytes_step cg L _ c d ex hex hl] at h
      cases hc : call d with
      | error e => rw [hc] at h; simp [Except.map] at h
      | ok b =>
        rw [hc] at h
        simp only [Except.map, Except.ok.injEq] at h
        rw [← h]
        exact isInt_intAddN _ _ _ (isInt_intAdd _ _)

theorem isInt_GetVTblBytes (cg : CodeGenerator) (L : Lookup) (f : Nat) (d : Decl) (a : Int)
    (h : Decl.GetVTblBytes cg L f d = .ok a) : IsInt a := by
  cases d with
  | var v =>
    have : a = 0 := by cases f <;> simpa [Decl.GetVTblBytes] using h.symm
    rw [this]; exact isInt_zero
  | fn g =>
    have : a = cg.VarSize := by
      cases f <;> simpa [Decl.GetVTblBytes, FnDecl.GetVTblBytes] using h.symm
    rw [this]; exact cg.isInt.1
  | iface i =>
    have : a = 0 := by cases f <;> simpa [Decl.GetVTblBytes] using h.symm
    rw [this]; exact isInt_zero
  | cls c =>
    cases f with
    | zero => rw [Decl.GetVTblBytes] at h; exact isInt_ClassGetVTblBytes cg L _ c a h
    | succ f => rw [GetVTblBytes_unfold] at h; exact isInt_ClassGetVTblBytes cg L _ c a h

theorem sum_GetMemBytes (cg : CodeGenerator) (vs : List VarDecl) :
    (vs.map (VarDecl.GetMemBytes cg)).sum = cg.VarSize * (vs.length : Int) := by
  induction vs with
  | nil => simp
  | cons v vs ih =>
    simp only [List.map_cons, List.sum_cons, ih, List.length_cons, VarDecl.GetMemBytes]
    push_cast
    ring

/-! ## The layout totals -/

/-- C2: when the superclass name of `B` resolves in the registry to the class `A`
and `GetMethodLabels(A)` returns `la`, `GetMethodLabels(B)` returns `la` followed
by the labels of the own methods of `B` in declaration order; its length is
`|la|` plus the number of methods of `B`, whatever their names (a method named as
one of `A` is a new slot). -/
theorem GetMethodLabels_appends (L : Lookup) (B A : ClassDecl) (ex : String)
    (hex : B.extends_ = some ex) (hA : L ex = some (.cls A))
    (fA fB : Nat) (la : List String)
    (hla : ClassDecl.GetMethodLabels L fA A = .ok la) (hf : fA < fB) :
    ClassDecl.GetMethodLabels L fB B
        = .ok (la ++ (methodsOf B.members).map FnDecl.GetLabel) ∧
      (la ++ (methodsOf B.members).map FnDecl.GetLabel).length
        = la.length + (methodsOf B.members).length := by
  refine ⟨?_, by simp⟩
  obtain ⟨g, rfl⟩ : ∃ g, fB = g + 1 := ⟨fB - 1, by omega⟩
  have hg : ClassDecl.GetMethodLabels L g A = .ok la :=
    GetMethodLabels_le L fA g A la hla (by omega)
  rw [GetMethodLabels_unfold, GetMethodLabelsBody_step L _ B A ex hex hA, hg]
  rfl

/-- Sample for C2: `B extends A` declares `foo` again; its label sequence is
that of `A` followed by its own two labels, three slots in all. -/
theorem GetMethodLabels_appends_witness :
    classB.extends_ = some "A" ∧ abProgram.Lookup "A" = some (.cls classA) ∧
    ClassDecl.GetMethodLabels abProgram.Lookup 0 classA = .ok ["foo"] ∧
    ClassDecl.GetMethodLabels abProgram.Lookup 1 classB = .ok ["foo", "foo", "bar"] ∧
    ["foo", "foo", "bar"].length = ["foo"].length + (methodsOf classB.members).length :=
  ⟨rfl, rfl, rfl,
    (GetMethodLabels_appends abProgram.Lookup classB classA "A" rfl rfl 0 1 ["foo"] rfl
      (by decide)).1,
    (GetMethodLabels_appends abProgram.Lookup classB classA "A" rfl rfl 0 1 ["foo"] rfl
      (by decide)).2⟩

/-- Without superclass the memory total is the wrapped product of the word size
and the number of fields. -/
theorem GetMemBytes_cls_root (cg : CodeGenerator) (L : Lookup) (fuel : Nat) (c : ClassDecl)
    (h : c.extends_ = none) :
    Decl.GetMemBytes cg L fuel (.cls c)
      = .ok (wrapInt (cg.VarSize * ((fieldsOf c.members).length : Int))) := by
  have e : intAddN 0 cg.VarSize (fieldsOf c.members).length
      = wrapInt (cg.VarSize * ((fieldsOf c.members).length : Int)) := by
    rw [intAddN_eq 0 _ _ isInt_zero, Int.zero_add]
  cases fuel with
  | zero => rw [Decl.GetMemBytes, GetMemBytes_root cg L _ c h, e]
  | succ f => rw [GetMemBytes_unfold, GetMemBytes_root cg L _ c h, e]

/-- With a superclass whose total is `a`, the memory total is the wrapped sum of
`a` and one word per field. -/
theorem GetMemBytes_cls_step (cg : CodeGenerator) (L : Lookup) (B : ClassDecl) (A : Decl)
    (ex : String) (hex : B.extends_ = some ex) (hA : L ex = some A)
    (fA fB : Nat) (a : Int) (ha : Decl.GetMemBytes cg L fA A = .ok a) (hf : fA < fB) :
    Decl.GetMemBytes cg L fB (.cls B)
      = .ok (wrapInt (a + cg.VarSize * ((fieldsOf B.members).length : Int))) := by
  obtain ⟨g, rfl⟩ : ∃ g, fB = g + 1 := ⟨fB - 1, by omega⟩
  have hg : Decl.GetMemBytes cg L g A = .ok a := GetMemBytes_le cg L fA g A a ha (by omega)
  have hIa : IsInt a := isInt_GetMemBytes cg L fA A a ha
  rw [GetMemBytes_unfold, GetMemBytes_step cg L _ B A ex hex hA, hg]
  simp only [Except.map]
  rw [zero_intAdd a hIa, intAddN_eq a _ _ hIa]

/-- Without superclass the vtable total is the wrapped product of the word size
and the number of methods. -/
theorem GetVTblBytes_cls_root (cg : CodeGenerator) (L : Lookup) (fuel : Nat) (c : ClassDecl)
    (h : c.extends_ = none) :
    Decl.GetVTblBytes cg L fuel (.cls c)
      = .ok (wrapInt (cg.VarSize * ((methodsOf c.members).length : Int))) := by
  have e : intAddN 0 cg.VarSize (methodsOf c.members).length
      = wrapInt (cg.VarSize * ((methodsOf c.members).length : Int)) := by
    rw [intAddN_eq 0 _ _ isInt_zero, Int.zero_add]
  cases fuel with
  | zero => rw [Decl.GetVTblBytes, GetVTblBytes_root cg L _ c h, e]
  | succ f => rw [GetVTblBytes_unfold, GetVTblBytes_root cg L _ c h, e]

/-- With a superclass whose total is `a`, the vtable total is the wrapped sum of
`a` and one word per method. -/
theorem GetVTblBytes_cls_step (cg : CodeGenerator) (L : Lookup) (B : ClassDecl) (A : Decl)
    (ex : String) (hex : B.extends_ = some ex) (hA : L ex = some A)
    (fA fB : Nat) (a : Int) (ha : Decl.GetVTblBytes cg L fA A = .ok a) (hf : fA < fB) :
    Decl.GetVTblBytes cg L fB (.cls B)
      = .ok (wrapInt (a + cg.VarSize * ((methodsOf B.members).length : Int))) := by
  obtain ⟨g, rfl⟩ : ∃ g, fB = g + 1 := ⟨fB - 1, by omega⟩
  have hg : Decl.GetVTblBytes cg L g A = .ok a := GetVTblBytes_le cg L fA g A a ha (by omega)
  have hIa : IsInt a := isInt_GetVTblBytes cg L fA A a ha
  rw [GetVTblBytes_unfold, GetVTblBytes_step cg L _ B A ex hex hA, hg]
  simp only [Except.map]
  rw [zero_intAdd a hIa, intAddN_eq a _ _ hIa]

/-- C3 as amended: when the superclass name of `B` resolves in the registry to the
declaration `A` and `GetMemBytes(A)` returns `a`, `GetMemBytes(B)` returns the
32-bit wrap-around of `a` plus the sum of `GetMemBytes` over the members of `B`
that are fields; methods add nothing.  When that sum is in the range of `int`,
`GetMemBytes(B)` is exactly `a` plus the sum over the own fields. -/
theorem GetMemBytes_extends (cg : CodeGenerator) (L : Lookup) (B : ClassDecl) (A : Decl)
    (ex : String) (hex : B.extends_ = some ex) (hA : L ex = some A)
    (fA fB : Nat) (a : Int) (ha : Decl.GetMemBytes cg L fA A = .ok a) (hf : fA < fB) :
    Decl.GetMemBytes cg L fB (.cls B)
        = .ok (wrapInt (a + ((fieldsOf B.members).map (VarDecl.GetMemBytes cg)).sum)) ∧
      (IsInt (a + ((fieldsOf B.members).map (VarDecl.GetMemBytes cg)).sum) →
        Decl.GetMemBytes cg L fB (.cls B)
          = .ok (a + ((fieldsOf B.members).map (VarDecl.GetMemBytes cg)).sum)) := by
  have h := GetMemBytes_cls_step cg L B A ex hex hA fA fB a ha hf
  rw [← sum_GetMemBytes] at h
  refine ⟨h, fun hI => ?_⟩
  rw [h, wrapInt_of_isInt _ hI]

/-- Sample for C3: `GetMemBytes(Point3D)` is `GetMemBytes(Point) + 4 = 12`. -/
theorem GetMemBytes_extends_witness :
    Point3D.extends_ = some "Point" ∧ pointProgram.Lookup "Point" = some (.cls Point) ∧
    Decl.GetMemBytes scenarioCG pointProgram.Lookup 0 (.cls Point) = .ok 8 ∧
    IsInt (8 + ((fieldsOf Point3D.members).map (VarDecl.GetMemBytes scenarioCG)).sum) ∧
    Decl.GetMemBytes scenarioCG pointProgram.Lookup 1 (.cls Point3D) = .ok 12 :=
  ⟨rfl, rfl, rfl, by decide,
    (GetMemBytes_extends scenarioCG pointProgram.Lookup Point3D (.cls Point) "Point" rfl rfl
      0 1 8 rfl (by decide)).2 (by decide)⟩

/-- C3, the code where the sum leaves the range of `int`: with a word size of
`2^30`, the class `Q extends P` has two fields and `P` one; `GetMemBytes(P)` is
`2^30` and the sum over the own fields of `Q` is `2^31`, yet `GetMemBytes(Q)` is
`-2^30`, not `3 * 2^30`. -/
theorem GetMemBytes_extends_overflow :
    classQ.extends_ = some "P" ∧ pqProgram.Lookup "P" = some (.cls classP) ∧
    Decl.GetMemBytes wideCG pqProgram.Lookup 0 (.cls classP) = .ok 1073741824 ∧
    ((fieldsOf classQ.members).map (VarDecl.GetMemBytes wideCG)).sum = 2147483648 ∧
    Decl.GetMemBytes wideCG pqProgram.Lookup 1 (.cls classQ) = .ok (-1073741824) ∧
    Decl.GetMemBytes wideCG pqProgram.Lookup 1 (.cls classQ)
      ≠ .ok (1073741824 + ((fieldsOf classQ.members).map (VarDecl.GetMemBytes wideCG)).sum) :=
  ⟨rfl, rfl, rfl, rfl, rfl, fun h => absurd (Except.ok.inj h) (by decide)⟩

/-- C4 as amended: for a class without superclass, whatever the interleaving of
fields and methods in its member list, `GetMemBytes` returns the 32-bit
wrap-around of the sum of the byte sizes of its own fields; that sum is `VarSize`
times the number of field members, and when it is in the range of `int`,
`GetMemBytes` returns exactly it. -/
theorem GetMemBytes_no_super (cg : CodeGenerator) (L : Lookup) (fuel : Nat) (c : ClassDecl)
    (h : c.extends_ = none) :
    Decl.GetMemBytes cg L fuel (.cls c)
        = .ok (wrapInt ((fieldsOf c.members).map (VarDecl.GetMemBytes cg)).sum) ∧
      ((fieldsOf c.members).map (VarDecl.GetMemBytes cg)).sum
        = cg.VarSize * ((fieldsOf c.members).length : Int) ∧
      (IsInt (cg.VarSize * ((fieldsOf c.members).length : Int)) →
        Decl.GetMemBytes cg L fuel (.cls c)
          = .ok (cg.VarSize * ((fieldsOf c.members).length : Int))) := by
  have e := GetMemBytes_cls_root cg L fuel c h
  refine ⟨?_, sum_GetMemBytes cg _, fun hI => ?_⟩
  · rw [sum_GetMemBytes]; exact e
  · rw [e, wrapInt_of_isInt _ hI]

/-- Sample for C4: `Point` with the fields `x`, `y` and word size 4 gives 8, and
so does `A`, whose two fields surround a method. -/
theorem GetMemBytes_no_super_witness :
    Point.extends_ = none ∧
    IsInt (scenarioCG.VarSize * ((fieldsOf Point.members).length : Int)) ∧
    Decl.GetMemBytes scenarioCG pointProgram.Lookup 0 (.cls Point) = .ok 8 ∧
    Decl.GetMemBytes scenarioCG abProgram.Lookup 0 (.cls classA) = .ok 8 :=
  ⟨rfl, by decide,
    (GetMemBytes_no_super scenarioCG pointProgram.Lookup 0 Point rfl).2.2 (by decide),
    (GetMemBytes_no_super scenarioCG abProgram.Lookup 0 classA rfl).2.2 (by decide)⟩

/-- C4, the code where the sum leaves the range of `int`: with a word size of
`2^30`, `Point` has no superclass and two fields whose byte sizes sum to `2^31`, yet
`GetMemBytes` returns `-2^31`. -/
theorem GetMemBytes_no_super_overflow :
    Point.extends_ = none ∧
    ((fieldsOf Point.members).map (VarDecl.GetMemBytes wideCG)).sum = 2147483648 ∧
    wideCG.VarSize * ((fieldsOf Point.members).length : Int) = 2147483648 ∧
    Decl.GetMemBytes wideCG pointProgram.Lookup 0 (.cls Point) = .ok (-2147483648) ∧
    Decl.GetMemBytes wideCG pointProgram.Lookup 0 (.cls Point)
      ≠ .ok ((fieldsOf Point.members).map (VarDecl.GetMemBytes wideCG)).sum :=
  ⟨rfl, rfl, rfl, rfl, fun h => absurd (Except.ok.inj h) (by decide)⟩

/-- C5 as amended: in 32-bit wrap-around arithmetic, `GetVTblBytes` of a class is
`VarSize` times the number of its direct members that are methods when it has no
superclass; when its superclass name resolves to a declaration whose
`GetVTblBytes` returns `a`, it is that product plus `a`; fields contribute
nothing.  When the chain of superclasses resolves to classes and is acyclic, it is
`VarSize` times the length of `GetMethodLabels`.  Each of the three values is
exact when it is in the range of `int`. -/
theorem GetVTblBytes_spec (cg : CodeGenerator) (L : Lookup) (c : ClassDecl) :
    (c.extends_ = none → ∀ fuel,
        Decl.GetVTblBytes cg L fuel (.cls c)
          = .ok (wrapInt (cg.VarSize * ((methodsOf c.members).length : Int))) ∧
        (IsInt (cg.VarSize * ((methodsOf c.members).length : Int)) →
          Decl.GetVTblBytes cg L fuel (.cls c)
            = .ok (cg.VarSize * ((methodsOf c.members).length : Int)))) ∧
    (∀ ex d fA fB a, c.extends_ = some ex → L ex = some d →
        Decl.GetVTblBytes cg L fA d = .ok a → fA < fB →
        Decl.GetVTblBytes cg L fB (.cls c)
          = .ok (wrapInt (cg.VarSize * ((methodsOf c.members).length : Int) + a)) ∧
        (IsInt (cg.VarSize * ((methodsOf c.members).length : Int) + a) →
          Decl.GetVTblBytes cg L fB (.cls c)
            = .ok (cg.VarSize * ((methodsOf c.members).length : Int) + a))) ∧
    (∀ fuel anc, superChain L fuel c = some anc →
        ∃ labels, ClassDecl.GetMethodLabels L fuel c = .ok labels ∧
          Decl.GetVTblBytes cg L fuel (.cls c)
            = .ok (wrapInt (cg.VarSize * (labels.length : Int))) ∧
          (IsInt (cg.VarSize * (labels.length : Int)) →
            Decl.GetVTblBytes cg L fuel (.cls c)
              = .ok (cg.VarSize * (labels.length : Int)))) := by
  refine ⟨?_, ?_, ?_⟩
  · intro h fuel
    have e := GetVTblBytes_cls_root cg L fuel c h
    exact ⟨e, fun hI => by rw [e, wrapInt_of_isInt _ hI]⟩
  · intro ex d fA fB a hex hd ha hf
    have e := GetVTblBytes_cls_step cg L c d ex hex hd fA fB a ha hf
    rw [Int.add_comm] at e
    exact ⟨e, fun hI => by rw [e, wrapInt_of_isInt _ hI]⟩
  · intro fuel anc h
    have e := GetVTblBytes_chain cg L fuel c anc h
    rw [← length_vtableLabels] at e
    exact ⟨vtableLabels (c :: anc), GetMethodLabels_chain L fuel c anc h, e,
      fun hI => by rw [e, wrapInt_of_isInt _ hI]⟩

/-- Sample for C5: `A` has one method among three members, 4 bytes; `B extends
A` has two methods and a field, 4 + 8 = 12 bytes, three labels. -/
theorem GetVTblBytes_spec_witness :
    (classA.extends_ = none ∧
      Decl.GetVTblBytes scenarioCG abProgram.Lookup 0 (.cls classA) = .ok 4) ∧
    (classB.extends_ = some "A" ∧ abProgram.Lookup "A" = some (.cls classA) ∧
      Decl.GetVTblBytes scenarioCG abProgram.Lookup 1 (.cls classB) = .ok 12) ∧
    (superChain abProgram.Lookup 1 classB = some [classA] ∧
      ∃ labels, ClassDecl.GetMethodLabels abProgram.Lookup 1 classB = .ok labels ∧
        Decl.GetVTblBytes scenarioCG abProgram.Lookup 1 (.cls classB)
          = .ok (wrapInt (scenarioCG.VarSize * (labels.length : Int))) ∧
        (IsInt (scenarioCG.VarSize * (labels.length : Int)) →
          Decl.GetVTblBytes scenarioCG abProgram.Lookup 1 (.cls classB)
            = .ok (scenarioCG.VarSize * (labels.length : Int)))) :=
  ⟨⟨rfl, ((GetVTblBytes_spec scenarioCG abProgram.Lookup classA).1 rfl 0).2 (by decide)⟩,
    ⟨rfl, rfl, ((GetVTblBytes_spec scenarioCG abProgram.Lookup classB).2.1 "A" (.cls classA)
      0 1 4 rfl rfl rfl (by decide)).2 (by decide)⟩,
    ⟨rfl, (GetVTblBytes_spec scenarioCG abProgram.Lookup classB).2.2 1 [classA] rfl⟩⟩

/-- C5, the code where the product leaves the range of `int`: with a word size of
`2^30`, the class `Five` has no superclass and five methods, so five labels;
`VarSize` times five is `5 * 2^30`, yet `GetVTblBytes` returns `2^30`. -/
theorem GetVTblBytes_spec_overflow :
    classFive.extends_ = none ∧ (methodsOf classFive.members).length = 5 ∧
    ClassDecl.GetMethodLabels fiveProgram.Lookup 0 classFive
      = .ok ["m0", "m1", "m2", "m3", "m4"] ∧
    wideCG.VarSize * ((methodsOf classFive.members).length : Int) = 5368709120 ∧
    Decl.GetVTblBytes wideCG fiveProgram.Lookup 0 (.cls classFive) = .ok 1073741824 ∧
    Decl.GetVTblBytes wideCG fiveProgram.Lookup 0 (.cls classFive)
      ≠ .ok (wideCG.VarSize * ((methodsOf classFive.members).length : Int)) :=
  ⟨rfl, rfl, rfl, rfl, rfl, fun h => absurd (Except.ok.inj h) (by decide)⟩

/-! ## Offsets assigned by `ClassDecl::Emit` -/

/-- The counters with which the loops of `Emit` start, in terms of the byte
totals of the superclass. -/
theorem EmitBases_ok_wrap (cg : CodeGenerator) (fuel : Nat) (L : Lookup) (c : ClassDecl)
    (mo vo : Int) (h : ClassDecl.EmitBases cg fuel L c = .ok (mo, vo)) :
    ∃ S V, IsInt mo ∧ IsInt vo ∧ mo = wrapInt (cg.OffsetToFirstField + S) ∧
      vo = wrapInt (cg.OffsetToFirstMethod + V) ∧
      (c.extends_ = none → S = 0 ∧ V = 0) ∧
      (∀ ex, c.extends_ = some ex →
        ∃ d, L ex = some d ∧ Decl.GetMemBytes cg L fuel d = .ok S ∧
          Decl.GetVTblBytes cg L fuel d = .ok V) := by
  obtain ⟨S, V, hImo, hIvo, hroot, hstep⟩ := EmitBases_ok_inv cg fuel L c mo vo h
  refine ⟨S, V, hImo, hIvo, ?_, ?_, fun hex => (hroot hex).2.2, fun ex hex => (hstep ex hex).2.2⟩
  · cases hex : c.extends_ with
    | none =>
      obtain ⟨h1, _, h3, _⟩ := hroot hex
      rw [h3, Int.add_zero, wrapInt_of_isInt _ cg.isInt.2.1, h1]
    | some ex => exact (hstep ex hex).1
  · cases hex : c.extends_ with
    | none =>
      obtain ⟨_, h2, _, h4⟩ := hroot hex
      rw [h4, Int.add_zero, wrapInt_of_isInt _ cg.isInt.2.2.1, h2]
    | some ex => exact (hstep ex hex).2.1

/-- C6 as amended: `ClassDecl::Emit` leaves on the `k`-th field member (fields
only, declaration order, from 0) the 32-bit wrap-around of `OffsetToFirstField +
S + k * VarSize`, where `S` is what `GetMemBytes` returned for the declaration
that the registry holds for the superclass name, and 0 when there is no
superclass; when that sum is in the range of `int`, the offset is exactly the
sum.  The call returns whenever the superclass chain resolves to classes and is
acyclic. -/
theorem Emit_field_offsets (cg : CodeGenerator) (fuel : Nat) (p : Program) (a : Nat)
    (c : ClassDecl) (hc : p.classAt a = some c) :
    (∀ anc, superChain p.Lookup fuel c = some anc →
      ∃ q reqs, Program.Emit cg fuel p a = .ok (q, reqs)) ∧
    ∀ q reqs, Program.Emit cg fuel p a = .ok (q, reqs) →
      ∃ S c1, (c.extends_ = none → S = 0) ∧
        (∀ ex, c.extends_ = some ex →
          ∃ d, p.Lookup ex = some d ∧ Decl.GetMemBytes cg p.Lookup fuel d = .ok S) ∧
        q.classAt a = some c1 ∧
        (fieldsOf c1.members).length = (fieldsOf c.members).length ∧
        ∀ (k : Nat) (v : VarDecl), (fieldsOf c.members)[k]? = some v →
          (fieldsOf c1.members)[k]?
            = some { v with
                memOffset :=
                  some (wrapInt (cg.OffsetToFirstField + S + (k : Int) * cg.VarSize)) } ∧
          (IsInt (cg.OffsetToFirstField + S + (k : Int) * cg.VarSize) →
            (fieldsOf c1.members)[k]?
              = some { v with
                  memOffset := some (cg.OffsetToFirstField + S + (k : Int) * cg.VarSize) }) := by
  refine ⟨?_, ?_⟩
  · intro anc h
    obtain ⟨mo, vo, _, _, hE, _⟩ := Emit_chain cg fuel p a c anc hc h
    exact ⟨_, _, hE⟩
  intro q reqs hE
  obtain ⟨mo, vo, labels, hb, hq, _, _⟩ := Emit_ok_inv cg fuel p a c q reqs hc hE
  obtain ⟨S, V, hImo, _, hmo, _, hroot, hstep⟩ := EmitBases_ok_wrap cg fuel p.Lookup c mo vo hb
  refine ⟨S, (ClassDecl.EmitLoops cg c mo vo).1, fun h => (hroot h).1, ?_, ?_, ?_, ?_⟩
  · intro ex hex
    obtain ⟨d, h1, h2, _⟩ := hstep ex hex
    exact ⟨d, h1, h2⟩
  · rw [hq]; exact classAt_set p a c _ hc
  · exact length_fieldsOf_EmitLoops cg c mo vo
  · intro k v hv
    have e : intAddN mo cg.VarSize k
        = wrapInt (cg.OffsetToFirstField + S + (k : Int) * cg.VarSize) := by
      rw [intAddN_eq mo _ _ hImo, hmo, wrapInt_add_left, Int.mul_comm]
    have h := fieldsOf_EmitLoops_get cg c mo vo k v hv
    rw [e] at h
    refine ⟨h, fun hI => ?_⟩
    rw [h, wrapInt_of_isInt _ hI]

/-- Sample for C6: with first field offset 4 and word size 4, emitting `Point`
puts `x` at 4 and `y` at 8. -/
theorem Emit_field_offsets_witness :
    pointProgram.classAt 0 = some Point ∧ superChain pointProgram.Lookup 0 Point = some [] ∧
    (∃ q reqs, Program.Emit scenarioCG 0 pointProgram 0 = .ok (q, reqs)) ∧
    ∃ q reqs, Program.Emit scenarioCG 0 pointProgram 0 = .ok (q, reqs) ∧
      (q.classAt 0).map (fun c => (fieldsOf c.members).map (fun v => (v.name, v.memOffset)))
        = some [("x", some 4), ("y", some 8)] ∧
      ∃ S c1, (Point.extends_ = none → S = 0) ∧
        (∀ ex, Point.extends_ = some ex → ∃ d, pointProgram.Lookup ex = some d ∧
          Decl.GetMemBytes scenarioCG pointProgram.Lookup 0 d = .ok S) ∧
        q.classAt 0 = some c1 ∧
        (fieldsOf c1.members).length = (fieldsOf Point.members).length ∧
        ∀ (k : Nat) (v : VarDecl), (fieldsOf Point.members)[k]? = some v →
          (fieldsOf c1.members)[k]?
            = some { v with
                memOffset :=
                  some (wrapInt (scenarioCG.OffsetToFirstField + S
                    + (k : Int) * scenarioCG.VarSize)) } ∧
          (IsInt (scenarioCG.OffsetToFirstField + S + (k : Int) * scenarioCG.VarSize) →
            (fieldsOf c1.members)[k]?
              = some { v with
                  memOffset := some (scenarioCG.OffsetToFirstField + S
                    + (k : Int) * scenarioCG.VarSize) }) :=
  ⟨rfl, rfl, (Emit_field_offsets scenarioCG 0 pointProgram 0 Point rfl).1 [] rfl,
    _, _, rfl, rfl, (Emit_field_offsets scenarioCG 0 pointProgram 0 Point rfl).2 _ _ rfl⟩

/-- C6, the code where the sum leaves the range of `int`: with a word size of `2^30`
and first field offset 4, `Q extends P` has the fields `b`, `c` and `GetMemBytes(P)`
is `2^30`. `Emit(Q)` puts `b` at `4 + 2^30` and `c` at `-2147483644`, while
`OffsetToFirstField + S + 1 * VarSize` is `2147483652`. -/
theorem Emit_field_offsets_overflow :
    pqProgram.classAt 1 = some classQ ∧ classQ.extends_ = some "P" ∧
    pqProgram.Lookup "P" = some (.cls classP) ∧
    Decl.GetMemBytes wideCG pqProgram.Lookup 1 (.cls classP) = .ok 1073741824 ∧
    wideCG.OffsetToFirstField + 1073741824 + ((1 : Nat) : Int) * wideCG.VarSize = 2147483652 ∧
    ∃ q reqs, Program.Emit wideCG 1 pqProgram 1 = .ok (q, reqs) ∧
      (q.classAt 1).map (fun c => (fieldsOf c.members).map (fun v => (v.name, v.memOffset)))
        = some [("b", some 1073741828), ("c", some (-2147483644))] :=
  ⟨rfl, rfl, rfl, rfl, rfl, _, _, rfl, rfl⟩

/-- C8: the two layout loops of `ClassDecl::Emit` do not influence each other.
For two class objects with the same superclass name, emitted from the same
program state: when their member lists hold the same methods in the same order
(the fields may differ in number and place), the methods get the same vtable
offsets; when they hold the same fields in the same order (the methods may
differ), the fields get the same memory offsets. -/
theorem Emit_passes_independent (cg : CodeGenerator) (p : Program) (f1 f2 a1 a2 : Nat)
    (c1 c2 : ClassDecl) (q1 q2 : Program) (r1 r2 : List CgReq)
    (h1 : p.classAt a1 = some c1) (h2 : p.classAt a2 = some c2)
    (hs : c1.extends_ = c2.extends_)
    (hE1 : Program.Emit cg f1 p a1 = .ok (q1, r1))
    (hE2 : Program.Emit cg f2 p a2 = .ok (q2, r2)) :
    ∃ d1 d2, q1.classAt a1 = some d1 ∧ q2.classAt a2 = some d2 ∧
      (methodsOf c1.members = methodsOf c2.members →
        (methodsOf d1.members).map FnDecl.vtblOffset
          = (methodsOf d2.members).map FnDecl.vtblOffset) ∧
      (fieldsOf c1.members = fieldsOf c2.members →
        (fieldsOf d1.members).map VarDecl.memOffset
          = (fieldsOf d2.members).map VarDecl.memOffset) := by
  obtain ⟨mo1, vo1, _, hb1, hq1, _, _⟩ := Emit_ok_inv cg f1 p a1 c1 q1 r1 h1 hE1
  obtain ⟨mo2, vo2, _, hb2, hq2, _, _⟩ := Emit_ok_inv cg f2 p a2 c2 q2 r2 h2 hE2
  obtain ⟨S1, V1, _, _, hmo1, hvo1, hroot1, hstep1⟩ :=
    EmitBases_ok_wrap cg f1 p.Lookup c1 mo1 vo1 hb1
  obtain ⟨S2, V2, _, _, hmo2, hvo2, hroot2, hstep2⟩ :=
    EmitBases_ok_wrap cg f2 p.Lookup c2 mo2 vo2 hb2
  have hSV : S1 = S2 ∧ V1 = V2 := by
    cases hex : c1.extends_ with
    | none =>
      obtain ⟨s1, v1⟩ := hroot1 hex
      obtain ⟨s2, v2⟩ := hroot2 (hs ▸ hex)
      exact ⟨by rw [s1, s2], by rw [v1, v2]⟩
    | some ex =>
      obtain ⟨d1, hl1, hm1, hv1⟩ := hstep1 ex hex
      obtain ⟨d2, hl2, hm2, hv2⟩ := hstep2 ex (hs ▸ hex)
      rw [hl1] at hl2
      simp only [Option.some.injEq] at hl2
      rw [← hl2] at hm2 hv2
      have e1 := GetMemBytes_le cg p.Lookup f1 (max f1 f2) d1 S1 hm1 (le_max_left _ _)
      have e2 := GetMemBytes_le cg p.Lookup f2 (max f1 f2) d1 S2 hm2 (le_max_right _ _)
      have e3 := GetVTblBytes_le cg p.Lookup f1 (max f1 f2) d1 V1 hv1 (le_max_left _ _)
      have e4 := GetVTblBytes_le cg p.Lookup f2 (max f1 f2) d1 V2 hv2 (le_max_right _ _)
      rw [e1] at e2
      rw [e3] at e4
      exact ⟨Except.ok.inj e2, Except.ok.inj e4⟩
  have hmo : mo1 = mo2 := by rw [hmo1, hmo2, hSV.1]
  have hvo : vo1 = vo2 := by rw [hvo1, hvo2, hSV.2]
  refine ⟨(ClassDecl.EmitLoops cg c1 mo1 vo1).1, (ClassDecl.EmitLoops cg c2 mo2 vo2).1,
    ?_, ?_, ?_, ?_⟩
  · rw [hq1]; exact classAt_set p a1 c1 _ h1
  · rw [hq2]; exact classAt_set p a2 c2 _ h2
  · intro hm
    rw [vtblOffsets_EmitLoops, vtblOffsets_EmitLoops, hm, hvo]
  · intro hf
    rw [memOffsets_EmitLoops, memOffsets_EmitLoops, hf, hmo]

/-- Sample for C8: `S1` and `S2` declare the same methods around different
fields and get the same vtable offsets; `S1` and `S3` declare the same fields
around different methods and get the same memory offsets. -/
theorem Emit_passes_independent_witness :
    ∃ q1 r1 q2 r2 q3 r3,
      Program.Emit scenarioCG 0 layoutProgram 0 = .ok (q1, r1) ∧
      Program.Emit scenarioCG 0 layoutProgram 1 = .ok (q2, r2) ∧
      Program.Emit scenarioCG 0 layoutProgram 2 = .ok (q3, r3) ∧
      (∃ d1 d2, q1.classAt 0 = some d1 ∧ q2.classAt 1 = some d2 ∧
        (methodsOf d1.members).map FnDecl.vtblOffset
          = (methodsOf d2.members).map FnDecl.vtblOffset) ∧
      (∃ d1 d3, q1.classAt 0 = some d1 ∧ q3.classAt 2 = some d3 ∧
        (fieldsOf d1.members).map VarDecl.memOffset
          = (fieldsOf d3.members).map VarDecl.memOffset) :=
  ⟨_, _, _, _, _, _, rfl, rfl, rfl,
    match Emit_passes_independent scenarioCG layoutProgram 0 0 0 1 classS1 classS2 _ _ _ _
        rfl rfl rfl rfl rfl with
    | ⟨d1, d2, h1, h2, hm, _⟩ => ⟨d1, d2, h1, h2, hm rfl⟩,
    match Emit_passes_independent scenarioCG layoutProgram 0 0 0 2 classS1 classS3 _ _ _ _
        rfl rfl rfl rfl rfl with
    | ⟨d1, d3, h1, h3, _, hf⟩ => ⟨d1, d3, h1, h3, hf rfl⟩⟩

/-- C1 as amended: let `VarSize` be non-zero and let `OffsetToFirstMethod +
VarSize * n` be in the range of `int`, `n` being the number of methods declared
along the chain of the class.  For a class whose superclass chain resolves through
the registry to class declarations and is acyclic, `ClassDecl::Emit` returns, and
afterwards every own method `m` of the class has a vtable offset `off` such that
the element of `GetMethodLabels` at index `(off - OffsetToFirstMethod) / VarSize`
is the label of `m`: the slot number of a method is the position of its label in
the emitted label sequence. -/
theorem Emit_slot_is_label_position (cg : CodeGenerator) (fuel : Nat) (p : Program) (a : Nat)
    (c : ClassDecl) (anc : List ClassDecl) (hV : cg.VarSize ≠ 0)
    (hfit : IsInt (cg.OffsetToFirstMethod + cg.VarSize * (methodCount (c :: anc) : Int)))
    (hc : p.classAt a = some c) (hchain : superChain p.Lookup fuel c = some anc) :
    ∃ q reqs c1 labels, Program.Emit cg fuel p a = .ok (q, reqs) ∧
      q.classAt a = some c1 ∧
      ClassDecl.GetMethodLabels q.Lookup fuel c1 = .ok labels ∧
      (methodsOf c1.members).map FnDecl.name = (methodsOf c.members).map FnDecl.name ∧
      ∀ m ∈ methodsOf c1.members, ∃ off : Int, m.vtblOffset = some off ∧
        0 ≤ (off - cg.OffsetToFirstMethod) / cg.VarSize ∧
        labels[((off - cg.OffsetToFirstMethod) / cg.VarSize).toNat]? = some m.GetLabel := by
  obtain ⟨mo, vo, _, hvo, hE, hch⟩ := Emit_chain cg fuel p a c anc hc hchain
  refine ⟨_, _, (ClassDecl.EmitLoops cg c mo vo).1, _, hE, classAt_set p a c _ hc,
    GetMethodLabels_chain _ fuel _ anc hch, ?_, ?_⟩
  · apply List.ext_getElem?
    intro k
    rw [List.getElem?_map, List.getElem?_map]
    rcases Nat.lt_or_ge k (methodsOf c.members).length with hk | hk
    · have hv : (methodsOf c.members)[k]? = some ((methodsOf c.members)[k]) :=
        List.getElem?_eq_getElem hk
      rw [methodsOf_EmitLoops_get cg c mo vo k _ hv, hv]
      simp only [Option.map_some', FnDecl_Emit_name]
      rfl
    · rw [List.getElem?_eq_none (by rw [length_methodsOf_EmitLoops]; exact hk),
        List.getElem?_eq_none hk]
  · intro m hm
    obtain ⟨k, hk, hkm⟩ := List.getElem_of_mem hm
    have hk2 : k < (methodsOf c.members).length := by
      rw [← length_methodsOf_EmitLoops cg c mo vo]; exact hk
    have hv : (methodsOf c.members)[k]? = some ((methodsOf c.members)[k]) :=
      List.getElem?_eq_getElem hk2
    have hget := methodsOf_EmitLoops_get cg c mo vo k _ hv
    have hkm2 : (methodsOf (ClassDecl.EmitLoops cg c mo vo).1.members)[k]? = some m := by
      rw [List.getElem?_eq_getElem hk, hkm]
    have hexact : intAddN vo cg.VarSize k
        = cg.OffsetToFirstMethod + cg.VarSize * (methodCount anc : Int)
          + cg.VarSize * (k : Int) := by
      rw [hvo]
      exact counter_exact _ _ (methodCount anc) (methodsOf c.members).length
        (methodCount (c :: anc)) k cg.isInt.2.2.1 hfit (by simp only [methodCount]; omega)
        (le_of_lt hk2)
    have hoff : m.vtblOffset = some (cg.OffsetToFirstMethod
        + cg.VarSize * (methodCount anc : Int) + cg.VarSize * (k : Int)) := by
      rw [hget] at hkm2
      simp only [Option.some.injEq] at hkm2
      rw [← hkm2, FnDecl_Emit_vtblOffset, ← hexact]
      rfl
    have hdiv : (cg.OffsetToFirstMethod + cg.VarSize * (methodCount anc : Int)
          + cg.VarSize * (k : Int) - cg.OffsetToFirstMethod) / cg.VarSize
        = ((methodCount anc + k : Nat) : Int) := by
      have : cg.OffsetToFirstMethod + cg.VarSize * (methodCount anc : Int)
            + cg.VarSize * (k : Int) - cg.OffsetToFirstMethod
          = cg.VarSize * ((methodCount anc + k : Nat) : Int) := by
        push_cast; ring
      rw [this, Int.mul_ediv_cancel_left _ hV]
    refine ⟨_, hoff, ?_, ?_⟩
    · rw [hdiv]; exact Int.natCast_nonneg _
    · rw [hdiv, Int.toNat_natCast]
      simp only [vtableLabels]
      rw [← length_vtableLabels, List.getElem?_append_right (Nat.le_add_right _ _),
        Nat.add_sub_cancel_left, List.getElem?_map, hkm2]
      rfl

/-- Sample for C1: emitting `B extends A`; its methods `foo` and `bar` get the
offsets 4 and 8, and the labels at the positions 1 and 2 are theirs. -/
theorem Emit_slot_is_label_position_witness :
    scenarioCG.VarSize ≠ 0 ∧
    IsInt (scenarioCG.OffsetToFirstMethod
      + scenarioCG.VarSize * (methodCount (classB :: [classA]) : Int)) ∧
    abProgram.classAt 1 = some classB ∧
    superChain abProgram.Lookup 1 classB = some [classA] ∧
    ∃ q reqs c1 labels, Program.Emit scenarioCG 1 abProgram 1 = .ok (q, reqs) ∧
      q.classAt 1 = some c1 ∧
      ClassDecl.GetMethodLabels q.Lookup 1 c1 = .ok labels ∧
      (methodsOf c1.members).map FnDecl.name = (methodsOf classB.members).map FnDecl.name ∧
      ∀ m ∈ methodsOf c1.members, ∃ off : Int, m.vtblOffset = some off ∧
        0 ≤ (off - scenarioCG.OffsetToFirstMethod) / scenarioCG.VarSize ∧
        labels[((off - scenarioCG.OffsetToFirstMethod) / scenarioCG.VarSize).toNat]?
          = some m.GetLabel :=
  ⟨by decide, by decide, rfl, rfl,
    Emit_slot_is_label_position scenarioCG 1 abProgram 1 classB [classA] (by decide)
      (by decide) rfl rfl⟩

/-- C1, the code where the offsets leave the range of `int`, and the code at word
size 0. With a word size of `2^30`, the five methods of `Five` get the offsets `0`,
`2^30`, `-2^31`, `-2^30`, `0`: the index computed from the offset of `m4` is 0,
where the label sequence holds `Five.m0`, and the index computed from the offset of
`m2` is negative. With a word size of 0, both methods of `S1` get the offset 0
although their labels differ. -/
theorem Emit_slot_is_label_position_overflow :
    (fiveProgram.classAt 0 = some classFive ∧
      superChain fiveProgram.Lookup 0 classFive = some [] ∧
      ∃ q reqs c1 labels, Program.Emit wideCG 0 fiveProgram 0 = .ok (q, reqs) ∧
        q.classAt 0 = some c1 ∧
        ClassDecl.GetMethodLabels q.Lookup 0 c1 = .ok labels ∧
        (methodsOf c1.members).map (fun m => (m.GetLabel, m.vtblOffset))
          = [("Five.m0", some 0), ("Five.m1", some 1073741824),
              ("Five.m2", some (-2147483648)), ("Five.m3", some (-1073741824)),
              ("Five.m4", some 0)] ∧
        labels = ["Five.m0", "Five.m1", "Five.m2", "Five.m3", "Five.m4"] ∧
        labels[(((0 : Int) - wideCG.OffsetToFirstMethod) / wideCG.VarSize).toNat]?
          = some "Five.m0" ∧
        ((-2147483648 : Int) - wideCG.OffsetToFirstMethod) / wideCG.VarSize = -2) ∧
    (layoutProgram.classAt 0 = some classS1 ∧
      superChain layoutProgram.Lookup 0 classS1 = some [] ∧
      ∃ q reqs c1 labels, Program.Emit zeroCG 0 layoutProgram 0 = .ok (q, reqs) ∧
        q.classAt 0 = some c1 ∧
        ClassDecl.GetMethodLabels q.Lookup 0 c1 = .ok labels ∧
        (methodsOf c1.members).map (fun m => (m.GetLabel, m.vtblOffset))
          = [("S1.foo", some 0), ("S1.bar", some 0)] ∧
        labels = ["S1.foo", "S1.bar"]) :=
  ⟨⟨rfl, rfl, _, _, _, _, rfl, rfl, rfl, rfl, rfl, rfl, by decide⟩,
    ⟨rfl, rfl, _, _, _, _, rfl, rfl, rfl, rfl, rfl⟩⟩

/-- C7 as amended: let the class `B` extend the class `A` found in the registry,
the chain of `B` being acyclic, let `VarSize > 0`, and let `VarSize * n` and
`OffsetToFirstField + VarSize * n` be in the range of `int`, `n` being the number
of fields declared along the chain of `B`.  Then `Emit(B)` returns and (1) every
ancestor object, `A` among them, is left as it was; (2) the first own field of
`B` is at `OffsetToFirstField + GetMemBytes(A)`; (3) the offsets of the own fields
of `B` strictly increase in declaration order; (4) for every ancestor `X` of
`B`, `Emit(X)` returns and every offset it assigns to a field of `X` is strictly
below every offset that `Emit(B)` assigns to a field of `B`. -/
theorem Emit_inherited_layout (cg : CodeGenerator) (fuel : Nat) (p : Program) (b : Nat)
    (B A : ClassDecl) (ex : String) (anc : List ClassDecl) (hpos : 0 < cg.VarSize)
    (hfit : IsInt (cg.VarSize * (fieldCount (B :: anc) : Int)))
    (hfitOff : IsInt (cg.OffsetToFirstField + cg.VarSize * (fieldCount (B :: anc) : Int)))
    (hB : p.classAt b = some B) (hex : B.extends_ = some ex)
    (hA : p.Lookup ex = some (.cls A)) (hchain : superChain p.Lookup fuel B = some anc) :
    ∃ q reqs B1 S, Program.Emit cg fuel p b = .ok (q, reqs) ∧ q.classAt b = some B1 ∧
      A ∈ anc ∧ q.Lookup ex = some (.cls A) ∧
      (∀ X ∈ anc, ∀ x, p.classAt x = some X → q.classAt x = some X) ∧
      Decl.GetMemBytes cg p.Lookup fuel (.cls A) = .ok S ∧
      (∀ v, (fieldsOf B1.members)[0]? = some v →
        v.memOffset = some (cg.OffsetToFirstField + S)) ∧
      (∀ (i j : Nat) (vi vj : VarDecl) (oi oj : Int), i < j →
        (fieldsOf B1.members)[i]? = some vi → (fieldsOf B1.members)[j]? = some vj →
        vi.memOffset = some oi → vj.memOffset = some oj → oi < oj) ∧
      (∀ X ∈ anc, ∀ x, p.classAt x = some X →
        ∃ qx rx X1, Program.Emit cg fuel p x = .ok (qx, rx) ∧ qx.classAt x = some X1 ∧
          ∀ u ∈ fieldsOf X1.members, ∀ v ∈ fieldsOf B1.members, ∀ ou ov : Int,
            u.memOffset = some ou → v.memOffset = some ov → ou < ov) := by
  obtain ⟨mo, vo, hmo, _, hE, _⟩ := Emit_chain cg fuel p b B anc hB hchain
  have hnot := superChain_not_mem p.Lookup fuel B anc hchain
  obtain ⟨rest, hanc, hArest⟩ : ∃ rest, anc = A :: rest ∧ superChain p.Lookup fuel A = some rest := by
    rcases superChain_eq_some p.Lookup fuel B anc hchain with
      ⟨h1, _⟩ | ⟨g, ex2, sup, rest, hg, h1, h2, h3, h4⟩
    · rw [hex] at h1; simp at h1
    · rw [hex] at h1
      simp only [Option.some.injEq] at h1
      rw [← h1, hA] at h2
      simp only [Option.some.injEq, Decl.cls.injEq] at h2
      rw [← h2] at h3 h4
      exact ⟨rest, h4, superChain_le p.Lookup g fuel A rest h3 (by omega)⟩
  have hAmem : A ∈ anc := by rw [hanc]; exact List.mem_cons_self _ _
  have hS := GetMemBytes_chain cg p.Lookup fuel A rest hArest
  rw [← hanc] at hS
  have hIOff : IsInt cg.OffsetToFirstField := cg.isInt.2.1
  have hle : fieldCount anc ≤ fieldCount (B :: anc) := by simp only [fieldCount]; omega
  have hSE : wrapInt (cg.VarSize * (fieldCount anc : Int))
      = cg.VarSize * (fieldCount anc : Int) := by
    have h0 : IsInt (0 + cg.VarSize * (fieldCount (B :: anc) : Int)) := by
      rw [Int.zero_add]; exact hfit
    have h1 := isInt_between 0 cg.VarSize (fieldCount anc) _ isInt_zero h0 hle
    rw [Int.zero_add] at h1
    exact wrapInt_of_isInt _ h1
  have hexB : ∀ k, k < (fieldsOf B.members).length →
      intAddN mo cg.VarSize k
        = cg.OffsetToFirstField + cg.VarSize * (fieldCount anc : Int)
          + cg.VarSize * (k : Int) := by
    intro k hk
    rw [hmo]
    exact counter_exact _ _ (fieldCount anc) (fieldsOf B.members).length
      (fieldCount (B :: anc)) k hIOff hfitOff (by simp only [fieldCount]; omega) (le_of_lt hk)
  refine ⟨_, _, (ClassDecl.EmitLoops cg B mo vo).1, _, hE, classAt_set p b B _ hB, hAmem,
    ?_, ?_, hS, ?_, ?_, ?_⟩
  · rw [Lookup_set p b B _ hB ex, hA]
    rw [hA]
    intro e
    simp only [Option.some.injEq, Decl.cls.injEq] at e
    exact hnot (e ▸ hAmem)
  · intro X hX x hx
    exact classAt_set_ne p b x B X _ hB hx (fun e => hnot (e ▸ hX))
  · intro v hv
    obtain ⟨hk, h0⟩ := memOffset_of_get_EmitLoops cg B mo vo 0 v hv
    rw [h0, hexB 0 hk, hSE]
    simp
  · intro i j vi vj oi oj hij hi hj hoi hoj
    obtain ⟨hki, h1⟩ := memOffset_of_get_EmitLoops cg B mo vo i vi hi
    obtain ⟨hkj, h2⟩ := memOffset_of_get_EmitLoops cg B mo vo j vj hj
    rw [h1, hexB i hki] at hoi
    rw [h2, hexB j hkj] at hoj
    simp only [Option.some.injEq] at hoi hoj
    rw [← hoi, ← hoj]
    have : (i : Int) < (j : Int) := by exact_mod_cast hij
    nlinarith
  · intro X hX x hx
    obtain ⟨pre, xr, hsplit, hXr⟩ := superChain_split p.Lookup fuel B X anc hchain hX
    obtain ⟨mx, vx, hmx, _, hEx, _⟩ := Emit_chain cg fuel p x X xr hx hXr
    refine ⟨_, _, (ClassDecl.EmitLoops cg X mx vx).1, hEx, classAt_set p x X _ hx, ?_⟩
    intro u hu v hv ou ov hou hov
    obtain ⟨k, hk, h1⟩ := memOffset_of_mem_EmitLoops cg X mx vx u hu
    obtain ⟨j, hj, h2⟩ := memOffset_of_mem_EmitLoops cg B mo vo v hv
    have hcount : fieldCount anc = fieldCount pre + ((fieldsOf X.members).length + fieldCount xr) := by
      rw [hsplit, fieldCount_append]
      simp only [fieldCount]
    have hexX : intAddN mx cg.VarSize k
        = cg.OffsetToFirstField + cg.VarSize * (fieldCount xr : Int)
          + cg.VarSize * (k : Int) := by
      rw [hmx]
      exact counter_exact _ _ (fieldCount xr) (fieldsOf X.members).length
        (fieldCount (B :: anc)) k hIOff hfitOff (by simp only [fieldCount]; omega)
        (le_of_lt hk)
    rw [h1, hexX] at hou
    rw [h2, hexB j hj] at hov
    simp only [Option.some.injEq] at hou hov
    rw [← hou, ← hov, hcount]
    push_cast
    have hk' : (k : Int) + 1 ≤ ((fieldsOf X.members).length : Int) := by exact_mod_cast hk
    have hj : (0 : Int) ≤ (j : Int) := Int.natCast_nonneg _
    have hp : (0 : Int) ≤ (fieldCount pre : Int) := Int.natCast_nonneg _
    nlinarith [mul_nonneg (le_of_lt hpos) hj, mul_nonneg (le_of_lt hpos) hp,
      mul_le_mul_of_nonneg_left hk' (le_of_lt hpos)]

/-- Sample for C7: with the constants of the scenario, emitting `Point3D extends
Point` puts its field `z` at offset 12 and leaves `Point` as it was. -/
theorem Emit_inherited_layout_witness :
    (0 : Int) < scenarioCG.VarSize ∧
    IsInt (scenarioCG.VarSize * (fieldCount (Point3D :: [Point]) : Int)) ∧
    IsInt (scenarioCG.OffsetToFirstField
      + scenarioCG.VarSize * (fieldCount (Point3D :: [Point]) : Int)) ∧
    pointProgram.classAt 1 = some Point3D ∧
    Point3D.extends_ = some "Point" ∧ pointProgram.Lookup "Point" = some (.cls Point) ∧
    superChain pointProgram.Lookup 1 Point3D = some [Point] ∧
    (∃ q reqs, Program.Emit scenarioCG 1 pointProgram 1 = .ok (q, reqs) ∧
      (q.classAt 1).map (fun c => (fieldsOf c.members).map (fun v => (v.name, v.memOffset)))
        = some [("z", some 12)] ∧
      q.classAt 0 = some Point) ∧
    ∃ q reqs B1 S, Program.Emit scenarioCG 1 pointProgram 1 = .ok (q, reqs) ∧
      q.classAt 1 = some B1 ∧
      Point ∈ [Point] ∧ q.Lookup "Point" = some (.cls Point) ∧
      (∀ X ∈ [Point], ∀ x, pointProgram.classAt x = some X → q.classAt x = some X) ∧
      Decl.GetMemBytes scenarioCG pointProgram.Lookup 1 (.cls Point) = .ok S ∧
      (∀ v, (fieldsOf B1.members)[0]? = some v →
        v.memOffset = some (scenarioCG.OffsetToFirstField + S)) ∧
      (∀ (i j : Nat) (vi vj : VarDecl) (oi oj : Int), i < j →
        (fieldsOf B1.members)[i]? = some vi → (fieldsOf B1.members)[j]? = some vj →
        vi.memOffset = some oi → vj.memOffset = some oj → oi < oj) ∧
      (∀ X ∈ [Point], ∀ x, pointProgram.classAt x = some X →
        ∃ qx rx X1, Program.Emit scenarioCG 1 pointProgram x = .ok (qx, rx) ∧
          qx.classAt x = some X1 ∧
          ∀ u ∈ fieldsOf X1.members, ∀ v ∈ fieldsOf B1.members, ∀ ou ov : Int,
            u.memOffset = some ou → v.memOffset = some ov → ou < ov) :=
  ⟨by decide, by decide, by decide, rfl, rfl, rfl, rfl, ⟨_, _, rfl, rfl, rfl⟩,
    Emit_inherited_layout scenarioCG 1 pointProgram 1 Point3D Point "Point" [Point]
      (by decide) (by decide) (by decide) rfl rfl rfl rfl⟩

/-- C7, the code where the offsets leave the range of `int`: with a word size of
`2^30 > 0` and first field offset 4, `Q extends P` resolves and its chain is
acyclic. `Emit(P)` puts the field `a` of `P` at 4; `Emit(Q)` puts `b` at `4 + 2^30`
and `c` at `-2147483644`: the own-field offsets of `Q` do not increase, and the
offset of `c` is below that of the field of `P`. -/
theorem Emit_inherited_layout_overflow :
    (0 : Int) < wideCG.VarSize ∧ pqProgram.classAt 1 = some classQ ∧
    classQ.extends_ = some "P" ∧ pqProgram.Lookup "P" = some (.cls classP) ∧
    superChain pqProgram.Lookup 1 classQ = some [classP] ∧
    (∃ q reqs, Program.Emit wideCG 1 pqProgram 0 = .ok (q, reqs) ∧
      (q.classAt 0).map (fun c => (fieldsOf c.members).map (fun v => (v.name, v.memOffset)))
        = some [("a", some 4)]) ∧
    (∃ q reqs, Program.Emit wideCG 1 pqProgram 1 = .ok (q, reqs) ∧
      (q.classAt 1).map (fun c => (fieldsOf c.members).map (fun v => (v.name, v.memOffset)))
        = some [("b", some 1073741828), ("c", some (-2147483644))]) ∧
    ¬ ((1073741828 : Int) < -2147483644) ∧ ¬ ((4 : Int) < -2147483644) :=
  ⟨by decide, rfl, rfl, rfl, rfl, ⟨_, _, rfl, rfl⟩, ⟨_, _, rfl, rfl⟩, by decide, by decide⟩

/-! ## Labels -/

/-- C9: two class objects with different names each declare a method of the same
name, the labels being those set by the constructor.  After each class has been
emitted once (one after the other, both calls returning), the labels of the two
methods are `<ClassA>.<name>` and `<ClassB>.<name>`, and they differ. -/
theorem Emit_labels_distinct (cg : CodeGenerator) (f1 f2 : Nat) (p q1 q2 : Program)
    (r1 r2 : List CgReq) (a b : Nat) (cA cB : ClassDecl) (i j : Nat) (mA mB : FnDecl)
    (hA : p.classAt a = some cA) (hB : p.classAt b = some cB)
    (hname : cA.name ≠ cB.name)
    (hmA : (methodsOf cA.members)[i]? = some mA) (hmB : (methodsOf cB.members)[j]? = some mB)
    (hsame : mA.name = mB.name) (hlA : mA.label = mA.name) (hlB : mB.label = mB.name)
    (hE1 : Program.Emit cg f1 p a = .ok (q1, r1))
    (hE2 : Program.Emit cg f2 q1 b = .ok (q2, r2)) :
    ∃ cA1 cB1 mA1 mB1, q2.classAt a = some cA1 ∧ q2.classAt b = some cB1 ∧
      (methodsOf cA1.members)[i]? = some mA1 ∧ (methodsOf cB1.members)[j]? = some mB1 ∧
      mA1.GetLabel = cA.name ++ "." ++ mA.name ∧ mB1.GetLabel = cB.name ++ "." ++ mB.name ∧
      mA1.GetLabel ≠ mB1.GetLabel := by
  obtain ⟨cA1, hA1, hnA, _, hkeep1, hlab1⟩ := Emit_method_label cg f1 p a cA q1 r1 hA hE1
  have hB1 : q1.classAt b = some cB :=
    hkeep1 b cB hB (fun e => hname (by rw [e]))
  obtain ⟨cB1, hB2, _, _, hkeep2, hlab2⟩ := Emit_method_label cg f2 q1 b cB q2 r2 hB1 hE2
  have hA2 : q2.classAt a = some cA1 :=
    hkeep2 a cA1 hA1 (fun e => hname (by rw [← hnA, e]))
  obtain ⟨mA1, hmA1, _, hlA1⟩ := hlab1 i mA hmA
  obtain ⟨mB1, hmB1, _, hlB1⟩ := hlab2 j mB hmB
  rw [hlA] at hlA1
  rw [hlB] at hlB1
  refine ⟨cA1, cB1, mA1, mB1, hA2, hB2, hmA1, hmB1, hlA1, hlB1, ?_⟩
  show mA1.label ≠ mB1.label
  rw [hlA1, hlB1, hsame]
  exact append_right_ne _ _ _ (append_right_ne _ _ _ hname)

/-- Sample for C9: `A` and `B` both declare `foo`; once both are emitted the
labels are `A.foo` and `B.foo`. -/
theorem Emit_labels_distinct_witness :
    ∃ q1 r1 q2 r2, Program.Emit scenarioCG 1 abProgram 0 = .ok (q1, r1) ∧
      Program.Emit scenarioCG 1 q1 1 = .ok (q2, r2) ∧
      ∃ cA1 cB1 mA1 mB1, q2.classAt 0 = some cA1 ∧ q2.classAt 1 = some cB1 ∧
        (methodsOf cA1.members)[0]? = some mA1 ∧ (methodsOf cB1.members)[0]? = some mB1 ∧
        mA1.GetLabel = "A" ++ "." ++ "foo" ∧ mB1.GetLabel = "B" ++ "." ++ "foo" ∧
        mA1.GetLabel ≠ mB1.GetLabel :=
  ⟨_, _, _, _, rfl, rfl,
    Emit_labels_distinct scenarioCG 1 1 abProgram _ _ _ _ 0 1 classA classB 0 0
      (FnDecl.new "foo" []) (FnDecl.new "foo" []) rfl rfl (by decide) rfl rfl rfl rfl rfl
      rfl rfl⟩

/-- C10, the code at the failing input: the classes of `class Derived extends
Base { void bar() {} } class Base { void foo() {} }` are emitted once each, in
source order.  The vtable request for `Derived` carries the label `foo` for the
inherited slot, while the method in that slot is emitted under the label
`Base.foo`, its label from then on. -/
theorem GenVTable_inherited_label_unqualified :
    ∃ q1 r1 q2 r2, Program.Emit scenarioCG 1 derivedFirstProgram 0 = .ok (q1, r1) ∧
      Program.Emit scenarioCG 1 q1 1 = .ok (q2, r2) ∧
      r1 = [.GenLabel "Derived.bar", .GenBeginFunc 0, .body { id := 1, memBytes := 0 },
            .GenEndFunc, .GenVTable "Derived" ["foo", "Derived.bar"]] ∧
      r2 = [.GenLabel "Base.foo", .GenBeginFunc 0, .body { id := 2, memBytes := 0 },
            .GenEndFunc, .GenVTable "Base" ["Base.foo"]] ∧
      (q2.classAt 1).map (fun c => (methodsOf c.members).map FnDecl.GetLabel)
        = some ["Base.foo"] ∧
      "foo" ≠ "Base" ++ "." ++ "foo" :=
  ⟨_, _, _, _, rfl, rfl, rfl, rfl, rfl, by decide⟩

/-- C11: `FnDecl::AddLabelPrefix` composes from left to right: after the prefix
`p` and then the prefix `q` the label is `q ++ p ++ L`, `L` being the label
before; from `foo`, `X.` then `Y.` give `Y.X.foo`.  The label of a function just
constructed is its name. -/
theorem AddLabelPrefix_compose (f : FnDecl) (p q : String) :
    ((f.AddLabelPrefix p).AddLabelPrefix q).GetLabel = q ++ p ++ f.GetLabel ∧
    (∀ (n : String) (d : List VarDecl), (FnDecl.new n d).GetLabel = n) ∧
    (((FnDecl.new "foo" []).AddLabelPrefix "X.").AddLabelPrefix "Y.").GetLabel = "Y.X.foo" := by
  refine ⟨?_, fun _ _ => rfl, by decide⟩
  simp only [FnDecl.AddLabelPrefix, FnDecl.GetLabel]
  rw [String.append_assoc]

/-! ## `FnDecl::Emit` -/

theorem length_EmitFormals (cg : CodeGenerator) (off : Int) (ds : List VarDecl) :
    (FnDecl.EmitFormals cg off ds).length = ds.length := by
  induction ds generalizing off with
  | nil => rfl
  | cons d ds ih => simp [FnDecl.EmitFormals, ih]

/-- Formals after the loop of `FnDecl::Emit`: the `i`-th one is located at the
value the counter has after `i` steps of `VarSize` from `off`, relative to the
frame pointer, under its own name. -/
theorem EmitFormals_get (cg : CodeGenerator) (ds : List VarDecl) (off : Int) (i : Nat)
    (v : VarDecl) (h : ds[i]? = some v) :
    (FnDecl.EmitFormals cg off ds)[i]?
      = some { v with
          memLoc := some { segment := .fpRelative, offset := intAddN off cg.VarSize i,
                           name := v.name } } := by
  induction ds generalizing off i with
  | nil => simp at h
  | cons d ds ih =>
    cases i with
    | zero =>
      simp only [List.getElem?_cons_zero, Option.some.injEq] at h
      simp [FnDecl.EmitFormals, h, intAddN]
    | succ i =>
      simp only [List.getElem?_cons_succ] at h
      have := ih (intAdd off (d.GetMemBytes cg)) i h
      simp only [FnDecl.EmitFormals, List.getElem?_cons_succ, this]
      rfl

/-- C16 as amended: `FnDecl::Emit` gives the `i`-th formal the location
`fpRelative` under the formal's name, at the 32-bit wrap-around of
`OffsetToFirstParam + i * VarSize`, which is exactly that sum when the sum is in
the range of `int`, every formal having the byte size `VarSize`; the offsets
strictly increase in declaration order when `VarSize > 0` and
`OffsetToFirstParam + i * VarSize` is in the range of `int` for every formal;
and the formals come out the same when the function is emitted as a top-level
declaration and when it is emitted as a member of a class. -/
theorem FnDecl_Emit_param_locations (cg : CodeGenerator) (f : FnDecl) :
    (∀ v ∈ f.formals, v.GetMemBytes cg = cg.VarSize) ∧
    (f.Emit cg).1.formals.length = f.formals.length ∧
    (∀ (i : Nat) (v : VarDecl), f.formals[i]? = some v →
      (f.Emit cg).1.formals[i]?
          = some { v with
              memLoc :=
                some { segment := .fpRelative,
                       offset := wrapInt (cg.OffsetToFirstParam + (i : Int) * cg.VarSize),
                       name := v.name } } ∧
        (IsInt (cg.OffsetToFirstParam + (i : Int) * cg.VarSize) →
          (f.Emit cg).1.formals[i]?
            = some { v with
                memLoc := some { segment := .fpRelative,
                                 offset := cg.OffsetToFirstParam + (i : Int) * cg.VarSize,
                                 name := v.name } })) ∧
    (0 < cg.VarSize →
      (∀ i : Nat, i < f.formals.length →
        IsInt (cg.OffsetToFirstParam + (i : Int) * cg.VarSize)) →
      ∀ (i j : Nat) (vi vj : VarDecl) (li lj : Location), i < j →
      (f.Emit cg).1.formals[i]? = some vi → (f.Emit cg).1.formals[j]? = some vj →
      vi.memLoc = some li → vj.memLoc = some lj → li.offset < lj.offset) ∧
    (∀ (fuel : Nat) (p : Program) (a : Nat), p.decls[a]? = some (.fn f) →
      ∃ q r, Program.Emit cg fuel p a = .ok (q, r) ∧
        q.decls[a]? = some (.fn (f.Emit cg).1)) ∧
    (∀ (fuel : Nat) (p : Program) (a : Nat) (c : ClassDecl) (k : Nat) (q : Program)
        (r : List CgReq), p.classAt a = some c → (methodsOf c.members)[k]? = some f →
      Program.Emit cg fuel p a = .ok (q, r) →
      ∃ c1 f1, q.classAt a = some c1 ∧ (methodsOf c1.members)[k]? = some f1 ∧
        f1.formals = (f.Emit cg).1.formals) := by
  have hwrap : ∀ i : Nat, intAddN cg.OffsetToFirstParam cg.VarSize i
      = wrapInt (cg.OffsetToFirstParam + (i : Int) * cg.VarSize) := by
    intro i
    rw [intAddN_eq _ _ _ cg.isInt.2.2.2, Int.mul_comm]
  have hget : ∀ (i : Nat) (w : VarDecl), (f.Emit cg).1.formals[i]? = some w →
      ∃ v, i < f.formals.length ∧ f.formals[i]? = some v ∧
        w.memLoc = some { segment := .fpRelative,
                          offset := wrapInt (cg.OffsetToFirstParam + (i : Int) * cg.VarSize),
                          name := v.name } := by
    intro i w hw
    rw [FnDecl_Emit_fst] at hw
    simp only at hw
    have hi : i < f.formals.length := by
      rcases Nat.lt_or_ge i f.formals.length with hi | hi
      · exact hi
      · rw [List.getElem?_eq_none (by rw [length_EmitFormals]; exact hi)] at hw
        simp at hw
    have hv : f.formals[i]? = some (f.formals[i]) := List.getElem?_eq_getElem hi
    rw [EmitFormals_get cg f.formals _ i _ hv, hwrap] at hw
    simp only [Option.some.injEq] at hw
    exact ⟨_, hi, hv, by rw [← hw]⟩
  refine ⟨fun _ _ => rfl, ?_, ?_, ?_, ?_, ?_⟩
  · rw [FnDecl_Emit_fst]
    exact length_EmitFormals cg _ _
  · intro i v hv
    have h : (f.Emit cg).1.formals[i]?
        = some { v with
            memLoc :=
              some { segment := .fpRelative,
                     offset := wrapInt (cg.OffsetToFirstParam + (i : Int) * cg.VarSize),
                     name := v.name } } := by
      rw [FnDecl_Emit_fst, ← hwrap]
      exact EmitFormals_get cg f.formals _ i v hv
    refine ⟨h, fun hI => ?_⟩
    rw [h, wrapInt_of_isInt _ hI]
  · intro hpos hfit i j vi vj li lj hij hi hj hli hlj
    obtain ⟨_, hi1, _, h1⟩ := hget i vi hi
    obtain ⟨_, hj1, _, h2⟩ := hget j vj hj
    rw [h1, wrapInt_of_isInt _ (hfit i hi1)] at hli
    rw [h2, wrapInt_of_isInt _ (hfit j hj1)] at hlj
    simp only [Option.some.injEq] at hli hlj
    rw [← hli, ← hlj]
    simp only
    have : (i : Int) < (j : Int) := by exact_mod_cast hij
    nlinarith
  · intro fuel p a hd
    have hlt : a < p.decls.length := by
      rcases Nat.lt_or_ge a p.decls.length with hl | hl
      · exact hl
      · rw [List.getElem?_eq_none hl] at hd; simp at hd
    refine ⟨_, _, by unfold Program.Emit; rw [hd], ?_⟩
    simp [List.getElem?_set, hlt]
  · intro fuel p a c k q r hc hk hE
    obtain ⟨mo, vo, labels, _, hq, _, _⟩ := Emit_ok_inv cg fuel p a c q r hc hE
    refine ⟨(ClassDecl.EmitLoops cg c mo vo).1, _, ?_, methodsOf_EmitLoops_get cg c mo vo k f hk, ?_⟩
    · rw [hq]; exact classAt_set p a c _ hc
    · rw [FnDecl_Emit_fst, FnDecl_Emit_fst]
      rfl

/-- Sample for C16: `area(w, h, d)` with first parameter offset 4 and word size 4
gets `w`, `h`, `d` at 4, 8, 12, as a global function and as a method of `Box`. -/
theorem FnDecl_Emit_param_locations_witness :
    ((fnArea.Emit scenarioCG).1.formals.map (fun v => (v.name, v.memLoc.map Location.offset))
      = [("w", some 4), ("h", some 8), ("d", some 12)]) ∧
    (0 : Int) < scenarioCG.VarSize ∧
    (∀ i : Nat, i < fnArea.formals.length →
      IsInt (scenarioCG.OffsetToFirstParam + (i : Int) * scenarioCG.VarSize)) ∧
    (∀ (i j : Nat) (vi vj : VarDecl) (li lj : Location), i < j →
      (fnArea.Emit scenarioCG).1.formals[i]? = some vi →
      (fnArea.Emit scenarioCG).1.formals[j]? = some vj →
      vi.memLoc = some li → vj.memLoc = some lj → li.offset < lj.offset) ∧
    areaProgram.decls[0]? = some (.fn fnArea) ∧
    (∃ q r, Program.Emit scenarioCG 0 areaProgram 0 = .ok (q, r) ∧
      q.decls[0]? = some (.fn (fnArea.Emit scenarioCG).1)) ∧
    areaProgram.classAt 1 = some classBox ∧ (methodsOf classBox.members)[0]? = some fnArea ∧
    (∃ q r, Program.Emit scenarioCG 0 areaProgram 1 = .ok (q, r) ∧
      ∃ c1 f1, q.classAt 1 = some c1 ∧ (methodsOf c1.members)[0]? = some f1 ∧
        f1.formals = (fnArea.Emit scenarioCG).1.formals) :=
  ⟨rfl, by decide, by decide,
    (FnDecl_Emit_param_locations scenarioCG fnArea).2.2.2.1 (by decide) (by decide), rfl,
    (FnDecl_Emit_param_locations scenarioCG fnArea).2.2.2.2.1 0 areaProgram 0 rfl, rfl, rfl,
    ⟨_, _, rfl,
      (FnDecl_Emit_param_locations scenarioCG fnArea).2.2.2.2.2 0 areaProgram 1 classBox 0 _ _
        rfl rfl rfl⟩⟩

/-- C16, the code where the offsets leave the range of `int`: with a word size of
`2^30 > 0` and first parameter offset 4, `area(w, h, d)` gets `w` at 4, `h` at `4 +
2^30` and `d` at `-2147483644`, which is neither `OffsetToFirstParam + 2 * VarSize =
2147483652` nor above the offset of `h`. -/
theorem FnDecl_Emit_param_locations_overflow :
    (0 : Int) < wideCG.VarSize ∧
    (fnArea.Emit wideCG).1.formals.map (fun v => (v.name, v.memLoc.map Location.offset))
      = [("w", some 4), ("h", some 1073741828), ("d", some (-2147483644))] ∧
    wideCG.OffsetToFirstParam + ((2 : Nat) : Int) * wideCG.VarSize = 2147483652 ∧
    ¬ ((1073741828 : Int) < -2147483644) :=
  ⟨by decide, rfl, rfl, by decide⟩

/-- C17: the requests that `FnDecl::Emit` makes to the code generator.  With a
body they are, in this order, the label request with the current label of the
function, the begin of a frame whose size is the body's `GetMemBytes()`, the
emission of the body and the end of the frame.  Without a body there is none.
In both cases the function object changes in the locations of its formals only. -/
theorem FnDecl_Emit_requests (cg : CodeGenerator) (f : FnDecl) :
    (∀ body, f.body = some body →
      (f.Emit cg).2
        = [.GenLabel f.GetLabel, .GenBeginFunc body.memBytes, .body body, .GenEndFunc]) ∧
    (f.body = none → (f.Emit cg).2 = []) ∧
    (f.Emit cg).1
      = { f with formals := FnDecl.EmitFormals cg cg.OffsetToFirstParam f.formals } := by
  refine ⟨?_, ?_, FnDecl_Emit_fst cg f⟩
  · intro body hb
    unfold FnDecl.Emit
    rw [hb]
    rfl
  · intro hb
    unfold FnDecl.Emit
    rw [hb]

/-- Sample for C17: `area`, which has a body with 16 bytes of locals, makes the
four requests; the signature `norm` makes none. -/
theorem FnDecl_Emit_requests_witness :
    fnArea.body = some { id := 7, memBytes := 16 } ∧
    (fnArea.Emit scenarioCG).2
      = [.GenLabel "area", .GenBeginFunc 16, .body { id := 7, memBytes := 16 }, .GenEndFunc] ∧
    fnNorm.body = none ∧ (fnNorm.Emit scenarioCG).2 = [] :=
  ⟨rfl, (FnDecl_Emit_requests scenarioCG fnArea).1 _ rfl, rfl,
    (FnDecl_Emit_requests scenarioCG fnNorm).2.1 rfl⟩

/-! ## Interfaces -/

/-- C13, the code at an interface: `Emit` on the interface `Shape` returns
normally, with the program unchanged and no request made; it does not fail. -/
theorem Emit_interface_returns :
    Program.Emit scenarioCG 0 shapeProgram 0 = .ok (shapeProgram, []) ∧
    ∀ e, Program.Emit scenarioCG 0 shapeProgram 0 ≠ .error e := by
  have h : Program.Emit scenarioCG 0 shapeProgram 0 = .ok (shapeProgram, []) := rfl
  refine ⟨h, ?_⟩
  intro e he
  rw [h] at he
  cases he

/-- C13 as amended: `Emit` on an interface declaration is the default
`Decl::Emit`; it returns normally, makes no request to the code generator and
leaves every declaration as it was. -/
theorem Emit_interface_noop (cg : CodeGenerator) (fuel : Nat) (p : Program) (a : Nat)
    (i : InterfaceDecl) (h : p.decls[a]? = some (.iface i)) :
    Program.Emit cg fuel p a = .ok (p, []) := by
  unfold Program.Emit
  rw [h]

/-- Sample for the amended C13: the interface `Shape` at address 0. -/
theorem Emit_interface_noop_witness :
    shapeProgram.decls[0]? = some (.iface ifaceShape) ∧
    Program.Emit scenarioCG 3 shapeProgram 0 = .ok (shapeProgram, []) :=
  ⟨rfl, Emit_interface_noop scenarioCG 3 shapeProgram 0 ifaceShape rfl⟩

/-- C15: `GetMemBytes` and `GetVTblBytes` of an interface declaration are zero,
whatever its members; a class whose superclass name is bound to an interface
has the totals of its own members alone: one word per field and one word per
method, summed in 32-bit wrap-around arithmetic (exactly the product when it is
in the range of `int`), the same totals as the class has without the superclass
name. -/
theorem Interface_reports_zero (cg : CodeGenerator) (L : Lookup) (fuel : Nat)
    (i : InterfaceDecl) :
    Decl.GetMemBytes cg L fuel (.iface i) = .ok 0 ∧
    Decl.GetVTblBytes cg L fuel (.iface i) = .ok 0 ∧
    ∀ (c : ClassDecl) (ex : String), c.extends_ = some ex → L ex = some (.iface i) →
      Decl.GetMemBytes cg L (fuel + 1) (.cls c)
        = .ok (wrapInt (cg.VarSize * ((fieldsOf c.members).length : Int))) ∧
      Decl.GetVTblBytes cg L (fuel + 1) (.cls c)
        = .ok (wrapInt (cg.VarSize * ((methodsOf c.members).length : Int))) ∧
      (IsInt (cg.VarSize * ((fieldsOf c.members).length : Int)) →
        Decl.GetMemBytes cg L (fuel + 1) (.cls c)
          = .ok (cg.VarSize * ((fieldsOf c.members).length : Int))) ∧
      (IsInt (cg.VarSize * ((methodsOf c.members).length : Int)) →
        Decl.GetVTblBytes cg L (fuel + 1) (.cls c)
          = .ok (cg.VarSize * ((methodsOf c.members).length : Int))) ∧
      Decl.GetMemBytes cg L (fuel + 1) (.cls c)
        = Decl.GetMemBytes cg L (fuel + 1) (.cls { c with extends_ := none }) ∧
      Decl.GetVTblBytes cg L (fuel + 1) (.cls c)
        = Decl.GetVTblBytes cg L (fuel + 1) (.cls { c with extends_ := none }) := by
  have h1 : Decl.GetMemBytes cg L fuel (.iface i) = .ok 0 := by
    cases fuel <;> rfl
  have h2 : Decl.GetVTblBytes cg L fuel (.iface i) = .ok 0 := by
    cases fuel <;> rfl
  refine ⟨h1, h2, ?_⟩
  intro c ex hex hl
  have e1 := GetMemBytes_cls_step cg L c _ ex hex hl fuel (fuel + 1) 0 h1 (Nat.lt_succ_self _)
  have e2 := GetVTblBytes_cls_step cg L c _ ex hex hl fuel (fuel + 1) 0 h2 (Nat.lt_succ_self _)
  rw [Int.zero_add] at e1 e2
  refine ⟨e1, e2, fun hI => ?_, fun hI => ?_, ?_, ?_⟩
  · rw [e1, wrapInt_of_isInt _ hI]
  · rw [e2, wrapInt_of_isInt _ hI]
  · rw [e1, GetMemBytes_cls_root cg L (fuel + 1) { c with extends_ := none } rfl]
  · rw [e2, GetVTblBytes_cls_root cg L (fuel + 1) { c with extends_ := none } rfl]

/-- Sample for C15: `Shape`, with two signatures, reports 0 and 0; `Square
extends Shape` has 4 bytes for its field and 4 for its method. -/
theorem Interface_reports_zero_witness :
    Decl.GetMemBytes scenarioCG shapeProgram.Lookup 0 (.iface ifaceShape) = .ok 0 ∧
    Decl.GetVTblBytes scenarioCG shapeProgram.Lookup 0 (.iface ifaceShape) = .ok 0 ∧
    classSquare.extends_ = some "Shape" ∧
    shapeProgram.Lookup "Shape" = some (.iface ifaceShape) ∧
    Decl.GetMemBytes scenarioCG shapeProgram.Lookup 1 (.cls classSquare) = .ok 4 ∧
    Decl.GetVTblBytes scenarioCG shapeProgram.Lookup 1 (.cls classSquare) = .ok 4 :=
  ⟨(Interface_reports_zero scenarioCG shapeProgram.Lookup 0 ifaceShape).1,
    (Interface_reports_zero scenarioCG shapeProgram.Lookup 0 ifaceShape).2.1, rfl, rfl,
    ((Interface_reports_zero scenarioCG shapeProgram.Lookup 0 ifaceShape).2.2
      classSquare "Shape" rfl rfl).2.2.1 (by decide),
    ((Interface_reports_zero scenarioCG shapeProgram.Lookup 0 ifaceShape).2.2
      classSquare "Shape" rfl rfl).2.2.2.1 (by decide)⟩

/-! ## Failure and totality -/

theorem GetMemBytes_absent (cg : CodeGenerator) (L : Lookup) (call : Decl → Except Err Int)
    (c : ClassDecl) (ex : String) (h : c.extends_ = some ex) (hl : L ex = none) :
    ClassDecl.GetMemBytes cg L call c = .error .assertFailed := by
  unfold ClassDecl.GetMemBytes
  rw [h]
  simp only
  rw [hl]

theorem GetVTblBytes_absent (cg : CodeGenerator) (L : Lookup) (call : Decl → Except Err Int)
    (c : ClassDecl) (ex : String) (h : c.extends_ = some ex) (hl : L ex = none) :
    ClassDecl.GetVTblBytes cg L call c = .error .assertFailed := by
  unfold ClassDecl.GetVTblBytes
  rw [h]
  simp only
  rw [hl]

theorem EmitBases_absent (cg : CodeGenerator) (fuel : Nat) (L : Lookup) (c : ClassDecl)
    (ex : String) (h : c.extends_ = some ex) (hl : L ex = none) :
    ClassDecl.EmitBases cg fuel L c = .error .assertFailed := by
  unfold ClassDecl.EmitBases
  rw [h]
  simp only
  rw [hl]

/-- The byte totals of a class at any fuel, by the first step of the walk. -/
theorem GetMemBytes_cls (cg : CodeGenerator) (L : Lookup) (f : Nat) (c : ClassDecl) :
    ∃ call, Decl.GetMemBytes cg L f (.cls c) = ClassDecl.GetMemBytes cg L call c ∧
      (f = 0 → call = fun _ => .error .diverged) ∧
      (∀ g, f = g + 1 → call = Decl.GetMemBytes cg L g) := by
  cases f with
  | zero => exact ⟨_, by rw [Decl.GetMemBytes], fun _ => rfl, fun g hg => by omega⟩
  | succ g =>
    refine ⟨_, GetMemBytes_unfold cg L g c, fun h => by omega, fun g2 hg => ?_⟩
    have : g = g2 := by omega
    rw [this]

theorem GetVTblBytes_cls (cg : CodeGenerator) (L : Lookup) (f : Nat) (c : ClassDecl) :
    ∃ call, Decl.GetVTblBytes cg L f (.cls c) = ClassDecl.GetVTblBytes cg L call c ∧
      (f = 0 → call = fun _ => .error .diverged) ∧
      (∀ g, f = g + 1 → call = Decl.GetVTblBytes cg L g) := by
  cases f with
  | zero => exact ⟨_, by rw [Decl.GetVTblBytes], fun _ => rfl, fun g hg => by omega⟩
  | succ g =>
    refine ⟨_, GetVTblBytes_unfold cg L g c, fun h => by omega, fun g2 hg => ?_⟩
    have : g = g2 := by omega
    rw [this]

/-- Shape of a finished walk. -/
theorem chainResolves_eq_some (L : Lookup) (f : Nat) (c : ClassDecl) (b : Bool)
    (h : chainResolves L f c = some b) :
    (c.extends_ = none ∧ b = true) ∨
    (∃ ex, c.extends_ = some ex ∧ L ex = none ∧ b = false) ∨
    (∃ g ex d, f = g + 1 ∧ c.extends_ = some ex ∧ L ex = some d ∧
      (∀ x, d ≠ .cls x) ∧ b = true) ∨
    (∃ g ex sup, f = g + 1 ∧ c.extends_ = some ex ∧ L ex = some (.cls sup) ∧
      chainResolves L g sup = some b) := by
  cases f with
  | zero =>
    unfold chainResolves at h
    cases hex : c.extends_ with
    | none =>
      rw [hex] at h
      simp only [Option.some.injEq] at h
      exact Or.inl ⟨rfl, h.symm⟩
    | some ex =>
      rw [hex] at h
      simp only at h
      cases hl : L ex with
      | none =>
        rw [hl] at h
        simp only [Option.some.injEq] at h
        exact Or.inr (Or.inl ⟨ex, rfl, hl, h.symm⟩)
      | some d => rw [hl] at h; simp at h
  | succ g =>
    unfold chainResolves at h
    cases hex : c.extends_ with
    | none =>
      rw [hex] at h
      simp only [Option.some.injEq] at h
      exact Or.inl ⟨rfl, h.symm⟩
    | some ex =>
      rw [hex] at h
      simp only at h
      cases hl : L ex with
      | none =>
        rw [hl] at h
        simp only [Option.some.injEq] at h
        exact Or.inr (Or.inl ⟨ex, rfl, hl, h.symm⟩)
      | some d =>
        rw [hl] at h
        cases d with
        | cls sup => exact Or.inr (Or.inr (Or.inr ⟨g, ex, sup, rfl, rfl, hl, h⟩))
        | var v =>
          simp only [Option.some.injEq] at h
          exact Or.inr (Or.inr (Or.inl ⟨g, ex, _, rfl, rfl, hl, (fun x hx => by cases hx), h.symm⟩))
        | fn v =>
          simp only [Option.some.injEq] at h
          exact Or.inr (Or.inr (Or.inl ⟨g, ex, _, rfl, rfl, hl, (fun x hx => by cases hx), h.symm⟩))
        | iface v =>
          simp only [Option.some.injEq] at h
          exact Or.inr (Or.inr (Or.inl ⟨g, ex, _, rfl, rfl, hl, (fun x hx => by cases hx), h.symm⟩))

/-- A declaration that is not a class answers the byte totals at once. -/
theorem totals_of_not_cls (cg : CodeGenerator) (L : Lookup) (f : Nat) (d : Decl)
    (h : ∀ x, d ≠ .cls x) :
    (∃ m, Decl.GetMemBytes cg L f d = .ok m) ∧ (∃ v, Decl.GetVTblBytes cg L f d = .ok v) := by
  cases d with
  | cls x => exact absurd rfl (h x)
  | var v => cases f <;> exact ⟨⟨_, rfl⟩, ⟨_, rfl⟩⟩
  | fn g => cases f <;> exact ⟨⟨_, rfl⟩, ⟨_, rfl⟩⟩
  | iface i => cases f <;> exact ⟨⟨_, rfl⟩, ⟨_, rfl⟩⟩

/-- A walk that meets an unbound name makes both byte totals fail on the
assertion. -/
theorem totals_of_chainResolves_false (cg : CodeGenerator) (L : Lookup) (f : Nat)
    (c : ClassDecl) (h : chainResolves L f c = some false) :
    Decl.GetMemBytes cg L f (.cls c) = .error .assertFailed ∧
    Decl.GetVTblBytes cg L f (.cls c) = .error .assertFailed := by
  induction f generalizing c with
  | zero =>
    rcases chainResolves_eq_some L 0 c false h with
      ⟨_, hb⟩ | ⟨ex, hex, hl, _⟩ | ⟨g, _, _, hg, _⟩ | ⟨g, _, _, hg, _⟩
    · cases hb
    · exact ⟨by rw [Decl.GetMemBytes]; exact GetMemBytes_absent cg L _ c ex hex hl,
        by rw [Decl.GetVTblBytes]; exact GetVTblBytes_absent cg L _ c ex hex hl⟩
    · omega
    · omega
  | succ f ih =>
    rcases chainResolves_eq_some L _ c false h with
      ⟨_, hb⟩ | ⟨ex, hex, hl, _⟩ | ⟨g, _, _, _, _, _, _, hb⟩ | ⟨g, ex, sup, hg, hex, hl, hs⟩
    · cases hb
    · exact ⟨by rw [GetMemBytes_unfold]; exact GetMemBytes_absent cg L _ c ex hex hl,
        by rw [GetVTblBytes_unfold]; exact GetVTblBytes_absent cg L _ c ex hex hl⟩
    · cases hb
    · have hg : g = f := by omega
      rw [hg] at hs
      obtain ⟨i1, i2⟩ := ih sup hs
      exact ⟨by rw [GetMemBytes_unfold, GetMemBytes_step cg L _ c _ ex hex hl, i1]; rfl,
        by rw [GetVTblBytes_unfold, GetVTblBytes_step cg L _ c _ ex hex hl, i2]; rfl⟩

/-- A walk on which every name is bound makes both byte totals return. -/
theorem totals_of_chainResolves_true (cg : CodeGenerator) (L : Lookup) (f : Nat)
    (c : ClassDecl) (h : chainResolves L f c = some true) :
    (∃ m, Decl.GetMemBytes cg L f (.cls c) = .ok m) ∧
    (∃ v, Decl.GetVTblBytes cg L f (.cls c) = .ok v) := by
  induction f generalizing c with
  | zero =>
    rcases chainResolves_eq_some L 0 c true h with
      ⟨hex, _⟩ | ⟨_, _, _, hb⟩ | ⟨g, _, _, hg, _⟩ | ⟨g, _, _, hg, _⟩
    · exact ⟨⟨_, by rw [Decl.GetMemBytes]; exact GetMemBytes_root cg L _ c hex⟩,
        ⟨_, by rw [Decl.GetVTblBytes]; exact GetVTblBytes_root cg L _ c hex⟩⟩
    · cases hb
    · omega
    · omega
  | succ f ih =>
    rcases chainResolves_eq_some L _ c true h with
      ⟨hex, _⟩ | ⟨_, _, _, hb⟩ | ⟨g, ex, d, hg, hex, hl, hd, _⟩ | ⟨g, ex, sup, hg, hex, hl, hs⟩
    · exact ⟨⟨_, by rw [GetMemBytes_unfold]; exact GetMemBytes_root cg L _ c hex⟩,
        ⟨_, by rw [GetVTblBytes_unfold]; exact GetVTblBytes_root cg L _ c hex⟩⟩
    · cases hb
    · obtain ⟨⟨m, hm⟩, ⟨v, hv⟩⟩ := totals_of_not_cls cg L f d hd
      exact ⟨⟨_, by rw [GetMemBytes_unfold, GetMemBytes_step cg L _ c _ ex hex hl, hm]; rfl⟩,
        ⟨_, by rw [GetVTblBytes_unfold, GetVTblBytes_step cg L _ c _ ex hex hl, hv]; rfl⟩⟩
    · have hg : g = f := by omega
      rw [hg] at hs
      obtain ⟨⟨m, hm⟩, ⟨v, hv⟩⟩ := ih sup hs
      exact ⟨⟨_, by rw [GetMemBytes_unfold, GetMemBytes_step cg L _ c _ ex hex hl, hm]; rfl⟩,
        ⟨_, by rw [GetVTblBytes_unfold, GetVTblBytes_step cg L _ c _ ex hex hl, hv]; rfl⟩⟩

/-- C14: an unresolved superclass name is fatal.  When the superclass name of a
class is not bound in the registry, `GetMemBytes`, `GetVTblBytes` and `Emit` fail
on the assertion; the byte totals also fail on it when the walk along the chain
ends at an unbound name further up, and they return a value when the walk ends
with every name bound.  A failed call yields the failure alone: no heap and no
request come with it. -/
theorem unresolved_superclass_is_fatal (cg : CodeGenerator) (fuel : Nat) (p : Program)
    (a : Nat) (c : ClassDecl) (hc : p.classAt a = some c) :
    (∀ ex, c.extends_ = some ex → p.Lookup ex = none →
      Decl.GetMemBytes cg p.Lookup fuel (.cls c) = .error .assertFailed ∧
      Decl.GetVTblBytes cg p.Lookup fuel (.cls c) = .error .assertFailed ∧
      Program.Emit cg fuel p a = .error .assertFailed) ∧
    (chainResolves p.Lookup fuel c = some false →
      Decl.GetMemBytes cg p.Lookup fuel (.cls c) = .error .assertFailed ∧
      Decl.GetVTblBytes cg p.Lookup fuel (.cls c) = .error .assertFailed) ∧
    (chainResolves p.Lookup fuel c = some true →
      (∃ m, Decl.GetMemBytes cg p.Lookup fuel (.cls c) = .ok m) ∧
      (∃ v, Decl.GetVTblBytes cg p.Lookup fuel (.cls c) = .ok v)) := by
  refine ⟨?_, totals_of_chainResolves_false cg p.Lookup fuel c,
    totals_of_chainResolves_true cg p.Lookup fuel c⟩
  intro ex hex hl
  obtain ⟨call1, h1, _⟩ := GetMemBytes_cls cg p.Lookup fuel c
  obtain ⟨call2, h2, _⟩ := GetVTblBytes_cls cg p.Lookup fuel c
  refine ⟨by rw [h1]; exact GetMemBytes_absent cg _ _ c ex hex hl,
    by rw [h2]; exact GetVTblBytes_absent cg _ _ c ex hex hl, ?_⟩
  have hd := classAt_eq p a c hc
  unfold Program.Emit
  rw [hd]
  simp only [ClassDecl.Emit]
  rw [EmitBases_absent cg fuel p.Lookup c ex hex hl]

/-- Sample for C14: `Orphan extends Ghost` with `Ghost` undeclared fails in the
three calls; `Child extends Orphan` fails in the byte totals further up the
chain; `Point3D extends Point` returns 12 and 0. -/
theorem unresolved_superclass_is_fatal_witness :
    orphanProgram.classAt 0 = some classOrphan ∧ classOrphan.extends_ = some "Ghost" ∧
    orphanProgram.Lookup "Ghost" = none ∧
    (Decl.GetMemBytes scenarioCG orphanProgram.Lookup 2 (.cls classOrphan)
        = .error .assertFailed ∧
      Decl.GetVTblBytes scenarioCG orphanProgram.Lookup 2 (.cls classOrphan)
        = .error .assertFailed ∧
      Program.Emit scenarioCG 2 orphanProgram 0 = .error .assertFailed) ∧
    orphanProgram.classAt 1 = some classChild ∧
    chainResolves orphanProgram.Lookup 2 classChild = some false ∧
    (Decl.GetMemBytes scenarioCG orphanProgram.Lookup 2 (.cls classChild)
        = .error .assertFailed ∧
      Decl.GetVTblBytes scenarioCG orphanProgram.Lookup 2 (.cls classChild)
        = .error .assertFailed) ∧
    pointProgram.classAt 1 = some Point3D ∧
    chainResolves pointProgram.Lookup 2 Point3D = some true ∧
    ((∃ m, Decl.GetMemBytes scenarioCG pointProgram.Lookup 2 (.cls Point3D) = .ok m) ∧
      (∃ v, Decl.GetVTblBytes scenarioCG pointProgram.Lookup 2 (.cls Point3D) = .ok v)) :=
  ⟨rfl, rfl, rfl,
    (unresolved_superclass_is_fatal scenarioCG 2 orphanProgram 0 classOrphan rfl).1 "Ghost"
      rfl rfl,
    rfl, rfl,
    (unresolved_superclass_is_fatal scenarioCG 2 orphanProgram 1 classChild rfl).2.1 rfl,
    rfl, rfl,
    (unresolved_superclass_is_fatal scenarioCG 2 pointProgram 1 Point3D rfl).2.2 rfl⟩

/-- C20: when the superclass chain of a class resolves through the registry to
class declarations and is acyclic, `GetMemBytes`, `GetVTblBytes`,
`GetMethodLabels` and `Emit` on the class each return a value: no assertion
fails, no null pointer is called through, and the recursion ends. -/
theorem layout_calls_total (cg : CodeGenerator) (fuel : Nat) (p : Program) (a : Nat)
    (c : ClassDecl) (anc : List ClassDecl) (hc : p.classAt a = some c)
    (hchain : superChain p.Lookup fuel c = some anc) :
    (∃ m, Decl.GetMemBytes cg p.Lookup fuel (.cls c) = .ok m) ∧
    (∃ v, Decl.GetVTblBytes cg p.Lookup fuel (.cls c) = .ok v) ∧
    (∃ labels, ClassDecl.GetMethodLabels p.Lookup fuel c = .ok labels) ∧
    (∃ q r, Program.Emit cg fuel p a = .ok (q, r)) := by
  refine ⟨⟨_, GetMemBytes_chain cg p.Lookup fuel c anc hchain⟩,
    ⟨_, GetVTblBytes_chain cg p.Lookup fuel c anc hchain⟩,
    ⟨_, GetMethodLabels_chain p.Lookup fuel c anc hchain⟩, ?_⟩
  obtain ⟨mo, vo, _, _, hE, _⟩ := Emit_chain cg fuel p a c anc hc hchain
  exact ⟨_, _, hE⟩

/-- Sample for C20: `B extends A` in the program of `A` and `B`. -/
theorem layout_calls_total_witness :
    abProgram.classAt 1 = some classB ∧ superChain abProgram.Lookup 1 classB = some [classA] ∧
    (∃ m, Decl.GetMemBytes scenarioCG abProgram.Lookup 1 (.cls classB) = .ok m) ∧
    (∃ v, Decl.GetVTblBytes scenarioCG abProgram.Lookup 1 (.cls classB) = .ok v) ∧
    (∃ labels, ClassDecl.GetMethodLabels abProgram.Lookup 1 classB = .ok labels) ∧
    (∃ q r, Program.Emit scenarioCG 1 abProgram 1 = .ok (q, r)) :=
  ⟨rfl, rfl, layout_calls_total scenarioCG 1 abProgram 1 classB [classA] rfl rfl⟩

/-! ## Repeated emission -/

/-- A returning `GetMethodLabels` has walked a chain of classes to its end. -/
theorem GetMethodLabels_ok_chain (L : Lookup) (f : Nat) (c : ClassDecl) (l : List String)
    (h : ClassDecl.GetMethodLabels L f c = .ok l) : ∃ anc, superChain L f c = some anc := by
  induction f generalizing c l with
  | zero =>
    rw [ClassDecl.GetMethodLabels] at h
    cases hex : c.extends_ with
    | none => exact ⟨[], superChain_root L 0 c hex⟩
    | some ex =>
      cases hl : L ex with
      | none => simp [ClassDecl.GetMethodLabelsBody, hex, hl] at h
      | some d =>
        cases d with
        | var v => simp [ClassDecl.GetMethodLabelsBody, hex, hl] at h
        | fn g => simp [ClassDecl.GetMethodLabelsBody, hex, hl] at h
        | iface i => simp [ClassDecl.GetMethodLabelsBody, hex, hl] at h
        | cls sup =>
          rw [GetMethodLabelsBody_step L _ c sup ex hex hl] at h
          simp [Except.map] at h
  | succ f ih =>
    rw [GetMethodLabels_unfold] at h
    cases hex : c.extends_ with
    | none => exact ⟨[], superChain_root L _ c hex⟩
    | some ex =>
      cases hl : L ex with
      | none => simp [ClassDecl.GetMethodLabelsBody, hex, hl] at h
      | some d =>
        cases d with
        | var v => simp [ClassDecl.GetMethodLabelsBody, hex, hl] at h
        | fn g => simp [ClassDecl.GetMethodLabelsBody, hex, hl] at h
        | iface i => simp [ClassDecl.GetMethodLabelsBody, hex, hl] at h
        | cls sup =>
          rw [GetMethodLabelsBody_step L _ c sup ex hex hl] at h
          cases hs : ClassDecl.GetMethodLabels L f sup with
          | error e => rw [hs] at h; simp [Except.map] at h
          | ok l0 =>
            obtain ⟨rest, hr⟩ := ih sup l0 hs
            exact ⟨sup :: rest, superChain_step L f c sup ex rest hex hl hr⟩

/-- Before the update of the object at `a`, a name was bound as after it unless
it is bound to the object at `a`. -/
theorem Lookup_set_rev (p : Program) (a : Nat) (c c1 : ClassDecl) (h : p.classAt a = some c)
    (n : String)
    (hn : Program.Lookup { p with decls := p.decls.set a (.cls c1) } n ≠ some (.cls c1)) :
    p.Lookup n = Program.Lookup { p with decls := p.decls.set a (.cls c1) } n := by
  have hd := classAt_eq p a c h
  have hlt : a < p.decls.length := by
    rcases Nat.lt_or_ge a p.decls.length with hl | hl
    · exact hl
    · rw [List.getElem?_eq_none hl] at hd; simp at hd
  unfold Program.Lookup at hn ⊢
  simp only at hn ⊢
  cases ht : p.table n with
  | none => simp
  | some b =>
    rw [ht] at hn
    simp only [Option.some_bind] at hn ⊢
    by_cases hb : b = a
    · rw [hb] at hn
      exact absurd (by simp [List.getElem?_set, hlt]) hn
    · exact (decls_set_ne p a b _ hb).symm

/-- A returning `Emit` on a class has found the chain of the class resolved to
classes and ended. -/
theorem superChain_of_Emit_ok (cg : CodeGenerator) (fuel : Nat) (p : Program) (a : Nat)
    (c : ClassDecl) (q : Program) (r : List CgReq) (hc : p.classAt a = some c)
    (hE : Program.Emit cg fuel p a = .ok (q, r)) :
    ∃ anc, superChain p.Lookup fuel c = some anc := by
  obtain ⟨mo, vo, labels, _, hq, hl, _⟩ := Emit_ok_inv cg fuel p a c q r hc hE
  obtain ⟨anc, hanc⟩ := GetMethodLabels_ok_chain q.Lookup fuel _ labels hl
  refine ⟨anc, ?_⟩
  rw [← superChain_extends p.Lookup fuel _ c (EmitLoops_extends cg c mo vo)]
  rw [hq] at hanc
  exact superChain_congr _ p.Lookup (ClassDecl.EmitLoops cg c mo vo).1
    (fun n hn => Lookup_set_rev p a c _ hc n hn) fuel _ anc hanc
    (superChain_not_mem _ fuel _ anc hanc)

theorem EmitLoopsN_snoc (cg : CodeGenerator) (mo vo : Int) (n : Nat) (c : ClassDecl) :
    ClassDecl.EmitLoopsN cg mo vo (n + 1) c
      = (ClassDecl.EmitLoops cg (ClassDecl.EmitLoopsN cg mo vo n c) mo vo).1 := by
  induction n generalizing c with
  | zero => rfl
  | succ n ih =>
    rw [ClassDecl.EmitLoopsN, ih]
    rfl

theorem EmitLoopsN_name (cg : CodeGenerator) (mo vo : Int) (n : Nat) (c : ClassDecl) :
    (ClassDecl.EmitLoopsN cg mo vo n c).name = c.name := by
  induction n generalizing c with
  | zero => rfl
  | succ n ih => rw [ClassDecl.EmitLoopsN, ih]; rfl

theorem EmitLoopsN_extends (cg : CodeGenerator) (mo vo : Int) (n : Nat) (c : ClassDecl) :
    (ClassDecl.EmitLoopsN cg mo vo n c).extends_ = c.extends_ := by
  induction n generalizing c with
  | zero => rfl
  | succ n ih => rw [ClassDecl.EmitLoopsN, ih]; rfl

/-- The fields after the loops are a function of the fields before. -/
theorem fieldsOf_EmitLoops_congr (cg : CodeGenerator) (c d : ClassDecl) (mo vo : Int)
    (h : fieldsOf c.members = fieldsOf d.members) :
    fieldsOf (ClassDecl.EmitLoops cg c mo vo).1.members
      = fieldsOf (ClassDecl.EmitLoops cg d mo vo).1.members := by
  apply List.ext_getElem?
  intro k
  rcases Nat.lt_or_ge k (fieldsOf c.members).length with hk | hk
  · have hv : (fieldsOf c.members)[k]? = some ((fieldsOf c.members)[k]) :=
      List.getElem?_eq_getElem hk
    have hv2 : (fieldsOf d.members)[k]? = some ((fieldsOf c.members)[k]) := by
      rw [← h]; exact hv
    rw [fieldsOf_EmitLoops_get cg c mo vo k _ hv, fieldsOf_EmitLoops_get cg d mo vo k _ hv2]
  · rw [List.getElem?_eq_none (by rw [length_fieldsOf_EmitLoops]; exact hk),
      List.getElem?_eq_none (by rw [length_fieldsOf_EmitLoops, ← h]; exact hk)]

/-- Running the loops again from the same counter leaves the fields as they are. -/
theorem fieldsOf_EmitLoops_idem (cg : CodeGenerator) (c : ClassDecl) (mo vo : Int) :
    fieldsOf (ClassDecl.EmitLoops cg (ClassDecl.EmitLoops cg c mo vo).1 mo vo).1.members
      = fieldsOf (ClassDecl.EmitLoops cg c mo vo).1.members := by
  apply List.ext_getElem?
  intro k
  rcases Nat.lt_or_ge k (fieldsOf c.members).length with hk | hk
  · have hv : (fieldsOf c.members)[k]? = some ((fieldsOf c.members)[k]) :=
      List.getElem?_eq_getElem hk
    have h1 := fieldsOf_EmitLoops_get cg c mo vo k _ hv
    rw [fieldsOf_EmitLoops_get cg _ mo vo k _ h1, h1]
  · rw [List.getElem?_eq_none
        (by rw [length_fieldsOf_EmitLoops, length_fieldsOf_EmitLoops]; exact hk),
      List.getElem?_eq_none (by rw [length_fieldsOf_EmitLoops]; exact hk)]

theorem fieldsOf_EmitLoopsN_succ (cg : CodeGenerator) (mo vo : Int) (n : Nat) (c : ClassDecl) :
    fieldsOf (ClassDecl.EmitLoopsN cg mo vo (n + 1) c).members
      = fieldsOf (ClassDecl.EmitLoops cg c mo vo).1.members := by
  induction n with
  | zero => rfl
  | succ n ih =>
    rw [EmitLoopsN_snoc, fieldsOf_EmitLoops_congr cg _ _ mo vo ih, fieldsOf_EmitLoops_idem]

theorem names_EmitLoops (cg : CodeGenerator) (c : ClassDecl) (mo vo : Int) :
    (methodsOf (ClassDecl.EmitLoops cg c mo vo).1.members).map FnDecl.name
      = (methodsOf c.members).map FnDecl.name := by
  apply List.ext_getElem?
  intro k
  rw [List.getElem?_map, List.getElem?_map]
  rcases Nat.lt_or_ge k (methodsOf c.members).length with hk | hk
  · have hv : (methodsOf c.members)[k]? = some ((methodsOf c.members)[k]) :=
      List.getElem?_eq_getElem hk
    rw [methodsOf_EmitLoops_get cg c mo vo k _ hv, hv]
    simp only [Option.map_some', FnDecl_Emit_name]
    rfl
  · rw [List.getElem?_eq_none (by rw [length_methodsOf_EmitLoops]; exact hk),
      List.getElem?_eq_none hk]

theorem labels_EmitLoops (cg : CodeGenerator) (c : ClassDecl) (mo vo : Int) :
    (methodsOf (ClassDecl.EmitLoops cg c mo vo).1.members).map FnDecl.label
      = (methodsOf c.members).map (fun f => c.name ++ "." ++ f.label) := by
  apply List.ext_getElem?
  intro k
  rw [List.getElem?_map, List.getElem?_map]
  rcases Nat.lt_or_ge k (methodsOf c.members).length with hk | hk
  · have hv : (methodsOf c.members)[k]? = some ((methodsOf c.members)[k]) :=
      List.getElem?_eq_getElem hk
    rw [methodsOf_EmitLoops_get cg c mo vo k _ hv, hv]
    simp only [Option.map_some', FnDecl_Emit_label]
    rfl
  · rw [List.getElem?_eq_none (by rw [length_methodsOf_EmitLoops]; exact hk),
      List.getElem?_eq_none hk]
    rfl

theorem names_EmitLoopsN (cg : CodeGenerator) (mo vo : Int) (n : Nat) (c : ClassDecl) :
    (methodsOf (ClassDecl.EmitLoopsN cg mo vo n c).members).map FnDecl.name
      = (methodsOf c.members).map FnDecl.name := by
  induction n with
  | zero => rfl
  | succ n ih => rw [EmitLoopsN_snoc, names_EmitLoops, ih]

theorem length_methodsOf_EmitLoopsN (cg : CodeGenerator) (mo vo : Int) (n : Nat)
    (c : ClassDecl) :
    (methodsOf (ClassDecl.EmitLoopsN cg mo vo n c).members).length
      = (methodsOf c.members).length := by
  have h := congrArg List.length (names_EmitLoopsN cg mo vo n c)
  simpa using h

theorem vtblOffsets_EmitLoopsN_succ (cg : CodeGenerator) (mo vo : Int) (n : Nat)
    (c : ClassDecl) :
    (methodsOf (ClassDecl.EmitLoopsN cg mo vo (n + 1) c).members).map FnDecl.vtblOffset
      = (methodsOf (ClassDecl.EmitLoops cg c mo vo).1.members).map FnDecl.vtblOffset := by
  rw [EmitLoopsN_snoc, vtblOffsets_EmitLoops, vtblOffsets_EmitLoops,
    length_methodsOf_EmitLoopsN]

theorem labels_EmitLoopsN (cg : CodeGenerator) (mo vo : Int) (n : Nat) (c : ClassDecl) :
    (methodsOf (ClassDecl.EmitLoopsN cg mo vo n c).members).map FnDecl.label
      = (methodsOf c.members).map (fun f => repeatString (c.name ++ ".") n ++ f.label) := by
  induction n with
  | zero => simp [ClassDecl.EmitLoopsN, repeatString]
  | succ n ih =>
    have key : ∀ (ms : List FnDecl) (s : String),
        ms.map (fun f => s ++ f.label) = (ms.map FnDecl.label).map (fun l => s ++ l) := by
      intro ms s
      rw [List.map_map]
      rfl
    rw [EmitLoopsN_snoc, labels_EmitLoops, key, ih, EmitLoopsN_name, List.map_map]
    apply List.map_congr_left
    intro f _
    simp only [Function.comp, repeatString]
    exact (String.append_assoc _ _ _).symm

/-- Along a defined chain, `n` calls of `Emit` on a class in a row all return,
each running the loops from the same counters; the chain stays as it is. -/
theorem EmitN_chain (cg : CodeGenerator) (fuel : Nat) (a : Nat) (anc : List ClassDecl)
    (n : Nat) (p : Program) (c : ClassDecl) (hc : p.classAt a = some c)
    (h : superChain p.Lookup fuel c = some anc) :
    ∃ q, Program.EmitN cg fuel a n p = .ok q ∧
      q.classAt a = some (ClassDecl.EmitLoopsN cg
        (wrapInt (cg.OffsetToFirstField + cg.VarSize * (fieldCount anc : Int)))
        (wrapInt (cg.OffsetToFirstMethod + cg.VarSize * (methodCount anc : Int))) n c) ∧
      superChain q.Lookup fuel (ClassDecl.EmitLoopsN cg
        (wrapInt (cg.OffsetToFirstField + cg.VarSize * (fieldCount anc : Int)))
        (wrapInt (cg.OffsetToFirstMethod + cg.VarSize * (methodCount anc : Int))) n c)
          = some anc := by
  induction n generalizing p c with
  | zero => exact ⟨p, rfl, hc, h⟩
  | succ n ih =>
    obtain ⟨mo, vo, hmo, hvo, hE, hch⟩ := Emit_chain cg fuel p a c anc hc h
    rw [hmo, hvo] at hE hch
    obtain ⟨q, hq1, hq2, hq3⟩ := ih _ _ (classAt_set p a c _ hc) hch
    refine ⟨q, ?_, hq2, hq3⟩
    rw [Program.EmitN, hE]
    exact hq1

/-! ## Emission keeps what layout reads -/

theorem sameLayout_refl (d : Decl) : d.sameLayout d := by
  cases d <;> simp [Decl.sameLayout]

theorem sameLayoutOpt_refl (o : Option Decl) : sameLayoutOpt o o := by
  cases o with
  | none => trivial
  | some d => exact sameLayout_refl d

theorem sameLayout_trans (d e g : Decl) (h1 : d.sameLayout e) (h2 : e.sameLayout g) :
    d.sameLayout g := by
  cases d <;> cases e <;> cases g <;> simp only [Decl.sameLayout] at h1 h2 ⊢
  exact ⟨h1.1.trans h2.1, h1.2.1.trans h2.2.1, h1.2.2.trans h2.2.2⟩

theorem sameLayoutOpt_trans (a b c : Option Decl) (h1 : sameLayoutOpt a b)
    (h2 : sameLayoutOpt b c) : sameLayoutOpt a c := by
  cases a <;> cases b <;> cases c <;> simp only [sameLayoutOpt] at h1 h2 ⊢
  exact sameLayout_trans _ _ _ h1 h2

theorem Program_sameLayout_refl (p : Program) : p.sameLayout p :=
  ⟨rfl, fun _ => sameLayoutOpt_refl _⟩

theorem Program_sameLayout_trans (p q r : Program) (h1 : p.sameLayout q)
    (h2 : q.sameLayout r) : p.sameLayout r :=
  ⟨h2.1.trans h1.1, fun x => sameLayoutOpt_trans _ _ _ (h1.2 x) (h2.2 x)⟩

theorem Lookup_sameLayout (p q : Program) (h : p.sameLayout q) (n : String) :
    sameLayoutOpt (p.Lookup n) (q.Lookup n) := by
  unfold Program.Lookup
  rw [h.1]
  cases p.table n with
  | none => trivial
  | some b => exact h.2 b

theorem sameLayout_cls_lengths (c d : ClassDecl) (h : Decl.sameLayout (.cls c) (.cls d)) :
    c.extends_ = d.extends_ ∧ (fieldsOf c.members).length = (fieldsOf d.members).length ∧
      (methodsOf c.members).length = (methodsOf d.members).length := by
  simp only [Decl.sameLayout] at h
  refine ⟨h.1, ?_, ?_⟩
  · simpa using congrArg List.length h.2.1
  · simpa using congrArg List.length h.2.2

/-- The byte totals do not tell apart registries and declarations that agree in
what layout reads. -/
theorem totals_sameLayout (cg : CodeGenerator) (L M : Lookup)
    (hLM : ∀ n, sameLayoutOpt (L n) (M n)) (f : Nat) (d e : Decl) (h : d.sameLayout e) :
    Decl.GetMemBytes cg L f d = Decl.GetMemBytes cg M f e ∧
    Decl.GetVTblBytes cg L f d = Decl.GetVTblBytes cg M f e := by
  have body : ∀ (call1 call2 call3 call4 : Decl → Except Err Int) (c c2 : ClassDecl),
      Decl.sameLayout (.cls c) (.cls c2) →
      (∀ x y, x.sameLayout y → call1 x = call2 y ∧ call3 x = call4 y) →
      ClassDecl.GetMemBytes cg L call1 c = ClassDecl.GetMemBytes cg M call2 c2 ∧
      ClassDecl.GetVTblBytes cg L call3 c = ClassDecl.GetVTblBytes cg M call4 c2 := by
    intro call1 call2 call3 call4 c c2 hcc hcall
    obtain ⟨hex, hf, hm⟩ := sameLayout_cls_lengths c c2 hcc
    cases hc : c.extends_ with
    | none =>
      rw [GetMemBytes_root cg L _ c hc, GetMemBytes_root cg M _ c2 (hex ▸ hc),
        GetVTblBytes_root cg L _ c hc, GetVTblBytes_root cg M _ c2 (hex ▸ hc), hf, hm]
      exact ⟨rfl, rfl⟩
    | some ex =>
      have hc2 : c2.extends_ = some ex := hex ▸ hc
      have hrel := hLM ex
      cases hl : L ex with
      | none =>
        cases hm2 : M ex with
        | some y => rw [hl, hm2] at hrel; exact absurd hrel (by simp [sameLayoutOpt])
        | none =>
          rw [GetMemBytes_absent cg L _ c ex hc hl, GetMemBytes_absent cg M _ c2 ex hc2 hm2,
            GetVTblBytes_absent cg L _ c ex hc hl, GetVTblBytes_absent cg M _ c2 ex hc2 hm2]
          exact ⟨rfl, rfl⟩
      | some x =>
        cases hm2 : M ex with
        | none => rw [hl, hm2] at hrel; exact absurd hrel (by simp [sameLayoutOpt])
        | some y =>
          rw [hl, hm2] at hrel
          simp only [sameLayoutOpt] at hrel
          obtain ⟨e1, e2⟩ := hcall x y hrel
          rw [GetMemBytes_step cg L _ c x ex hc hl, GetMemBytes_step cg M _ c2 y ex hc2 hm2,
            GetVTblBytes_step cg L _ c x ex hc hl, GetVTblBytes_step cg M _ c2 y ex hc2 hm2,
            e1, e2, hf, hm]
          exact ⟨rfl, rfl⟩
  induction f generalizing d e with
  | zero =>
    cases d <;> cases e <;> simp only [Decl.sameLayout] at h
    · exact ⟨rfl, rfl⟩
    · exact ⟨rfl, rfl⟩
    · rw [Decl.GetMemBytes, Decl.GetMemBytes, Decl.GetVTblBytes, Decl.GetVTblBytes]
      exact body _ _ _ _ _ _ (by simpa [Decl.sameLayout] using h) (fun _ _ _ => ⟨rfl, rfl⟩)
    · exact ⟨rfl, rfl⟩
  | succ f ih =>
    cases d <;> cases e <;> simp only [Decl.sameLayout] at h
    · exact ⟨rfl, rfl⟩
    · exact ⟨rfl, rfl⟩
    · rw [GetMemBytes_unfold, GetMemBytes_unfold, GetVTblBytes_unfold, GetVTblBytes_unfold]
      exact body _ _ _ _ _ _ (by simpa [Decl.sameLayout] using h) (fun x y hxy => ih x y hxy)
    · exact ⟨rfl, rfl⟩

/-- The counters of `Emit` do not tell apart registries that agree in what
layout reads. -/
theorem EmitBases_sameLayout (cg : CodeGenerator) (fuel : Nat) (L M : Lookup)
    (hLM : ∀ n, sameLayoutOpt (L n) (M n)) (c d : ClassDecl) (h : c.extends_ = d.extends_) :
    ClassDecl.EmitBases cg fuel L c = ClassDecl.EmitBases cg fuel M d := by
  cases hc : c.extends_ with
  | none => rw [EmitBases_root cg fuel L c hc, EmitBases_root cg fuel M d (h ▸ hc)]
  | some ex =>
    have hd : d.extends_ = some ex := h ▸ hc
    have hrel := hLM ex
    cases hl : L ex with
    | none =>
      cases hm : M ex with
      | some y => rw [hl, hm] at hrel; exact absurd hrel (by simp [sameLayoutOpt])
      | none =>
        rw [EmitBases_absent cg fuel L c ex hc hl, EmitBases_absent cg fuel M d ex hd hm]
    | some x =>
      cases hm : M ex with
      | none => rw [hl, hm] at hrel; exact absurd hrel (by simp [sameLayoutOpt])
      | some y =>
        rw [hl, hm] at hrel
        simp only [sameLayoutOpt] at hrel
        obtain ⟨e1, e2⟩ := totals_sameLayout cg L M hLM fuel x y hrel
        unfold ClassDecl.EmitBases
        rw [hc, hd]
        simp only
        rw [hl, hm]
        simp only
        rw [e1, e2]

theorem fieldNames_EmitLoops (cg : CodeGenerator) (c : ClassDecl) (mo vo : Int) :
    (fieldsOf (ClassDecl.EmitLoops cg c mo vo).1.members).map VarDecl.name
      = (fieldsOf c.members).map VarDecl.name := by
  apply List.ext_getElem?
  intro k
  rw [List.getElem?_map, List.getElem?_map]
  rcases Nat.lt_or_ge k (fieldsOf c.members).length with hk | hk
  · have hv : (fieldsOf c.members)[k]? = some ((fieldsOf c.members)[k]) :=
      List.getElem?_eq_getElem hk
    rw [fieldsOf_EmitLoops_get cg c mo vo k _ hv, hv]
    rfl
  · rw [List.getElem?_eq_none (by rw [length_fieldsOf_EmitLoops]; exact hk),
      List.getElem?_eq_none hk]

/-- Replacing an object by one that agrees with it in what layout reads gives a
heap that agrees with the former one. -/
theorem set_sameLayout (p : Program) (b : Nat) (d e : Decl) (hd : p.decls[b]? = some d)
    (h : d.sameLayout e) : p.sameLayout { p with decls := p.decls.set b e } := by
  have hlt : b < p.decls.length := by
    rcases Nat.lt_or_ge b p.decls.length with hl | hl
    · exact hl
    · rw [List.getElem?_eq_none hl] at hd; simp at hd
  refine ⟨rfl, fun x => ?_⟩
  by_cases hx : x = b
  · rw [hx, hd]
    simp only [List.getElem?_set, hlt, if_true]
    exact h
  · simp only []
    rw [decls_set_ne p b x e hx]
    exact sameLayoutOpt_refl _

/-- A returning `Emit` leaves a heap that agrees with the former one in what
layout reads. -/
theorem Emit_sameLayout (cg : CodeGenerator) (fuel : Nat) (p : Program) (b : Nat)
    (q : Program) (r : List CgReq) (hE : Program.Emit cg fuel p b = .ok (q, r)) :
    p.sameLayout q := by
  cases hd : p.decls[b]? with
  | none => unfold Program.Emit at hE; rw [hd] at hE; simp at hE
  | some d =>
    cases d with
    | var v =>
      unfold Program.Emit at hE
      rw [hd] at hE
      simp only [Except.ok.injEq, Prod.mk.injEq] at hE
      rw [← hE.1]
      exact Program_sameLayout_refl p
    | iface i =>
      unfold Program.Emit at hE
      rw [hd] at hE
      simp only [Except.ok.injEq, Prod.mk.injEq] at hE
      rw [← hE.1]
      exact Program_sameLayout_refl p
    | fn f =>
      unfold Program.Emit at hE
      rw [hd] at hE
      simp only [Except.ok.injEq, Prod.mk.injEq] at hE
      rw [← hE.1]
      exact set_sameLayout p b _ _ hd (by simp [Decl.sameLayout])
    | cls c =>
      have hc : p.classAt b = some c := by simp [Program.classAt, hd]
      obtain ⟨mo, vo, _, _, hq, _, _⟩ := Emit_ok_inv cg fuel p b c q r hc hE
      rw [hq]
      refine set_sameLayout p b _ _ hd ?_
      simp only [Decl.sameLayout]
      exact ⟨rfl, (fieldNames_EmitLoops cg c mo vo).symm, (names_EmitLoops cg c mo vo).symm⟩

theorem EmitSeq_sameLayout (cg : CodeGenerator) (fuel : Nat) (rest : List Nat) (p q : Program)
    (h : Program.EmitSeq cg fuel rest p = .ok q) : p.sameLayout q := by
  induction rest generalizing p with
  | nil =>
    simp only [Program.EmitSeq, Except.ok.injEq] at h
    rw [← h]
    exact Program_sameLayout_refl p
  | cons a rest ih =>
    rw [Program.EmitSeq] at h
    cases hE : Program.Emit cg fuel p a with
    | error e => rw [hE] at h; simp at h
    | ok qr =>
      obtain ⟨q1, r1⟩ := qr
      rw [hE] at h
      exact Program_sameLayout_trans p q1 q (Emit_sameLayout cg fuel p a q1 r1 hE) (ih q1 h)

theorem classAt_of_sameLayout (p q : Program) (h : p.sameLayout q) (a : Nat) (c : ClassDecl)
    (hc : p.classAt a = some c) :
    ∃ d, q.classAt a = some d ∧ Decl.sameLayout (.cls c) (.cls d) := by
  have hd := classAt_eq p a c hc
  have hrel := h.2 a
  rw [hd] at hrel
  cases hq : q.decls[a]? with
  | none => rw [hq] at hrel; exact absurd hrel (by simp [sameLayoutOpt])
  | some e =>
    rw [hq] at hrel
    cases e with
    | cls d => exact ⟨d, by simp [Program.classAt, hq], hrel⟩
    | var v => exact absurd hrel (by simp [sameLayoutOpt, Decl.sameLayout])
    | fn g => exact absurd hrel (by simp [sameLayoutOpt, Decl.sameLayout])
    | iface i => exact absurd hrel (by simp [sameLayoutOpt, Decl.sameLayout])

/-- From two heaps that agree in what layout reads, `Emit` on the class at the
same address assigns the same offsets to the same names. -/
theorem Emit_offsets_sameLayout (cg : CodeGenerator) (fuel : Nat) (p q : Program) (a : Nat)
    (c : ClassDecl) (p1 q1 : Program) (r1 r2 : List CgReq) (hs : p.sameLayout q)
    (hc : p.classAt a = some c) (hE1 : Program.Emit cg fuel p a = .ok (p1, r1))
    (hE2 : Program.Emit cg fuel q a = .ok (q1, r2)) :
    ∃ c1 d1, p1.classAt a = some c1 ∧ q1.classAt a = some d1 ∧
      (fieldsOf d1.members).map VarDecl.name = (fieldsOf c1.members).map VarDecl.name ∧
      (fieldsOf d1.members).map VarDecl.memOffset
        = (fieldsOf c1.members).map VarDecl.memOffset ∧
      (methodsOf d1.members).map FnDecl.name = (methodsOf c1.members).map FnDecl.name ∧
      (methodsOf d1.members).map FnDecl.vtblOffset
        = (methodsOf c1.members).map FnDecl.vtblOffset := by
  obtain ⟨d, hd, hcd⟩ := classAt_of_sameLayout p q hs a c hc
  obtain ⟨hex, hfl, hml⟩ := sameLayout_cls_lengths c d hcd
  simp only [Decl.sameLayout] at hcd
  obtain ⟨mo, vo, _, hb1, hp1, _, _⟩ := Emit_ok_inv cg fuel p a c p1 r1 hc hE1
  obtain ⟨mo2, vo2, _, hb2, hq1, _, _⟩ := Emit_ok_inv cg fuel q a d q1 r2 hd hE2
  rw [EmitBases_sameLayout cg fuel p.Lookup q.Lookup (Lookup_sameLayout p q hs) c d hex,
    hb2] at hb1
  simp only [Except.ok.injEq, Prod.mk.injEq] at hb1
  obtain ⟨hmo, hvo⟩ := hb1
  refine ⟨(ClassDecl.EmitLoops cg c mo vo).1, (ClassDecl.EmitLoops cg d mo2 vo2).1,
    by rw [hp1]; exact classAt_set p a c _ hc, by rw [hq1]; exact classAt_set q a d _ hd,
    ?_, ?_, ?_, ?_⟩
  · rw [fieldNames_EmitLoops, fieldNames_EmitLoops, hcd.2.1]
  · rw [memOffsets_EmitLoops, memOffsets_EmitLoops, hfl, hmo]
  · rw [names_EmitLoops, names_EmitLoops, hcd.2.2]
  · rw [vtblOffsets_EmitLoops, vtblOffsets_EmitLoops, hml, hvo]

/-- Putting a text that is not empty in front of every string of a list that is
not empty changes the list. -/
theorem map_append_ne (s : String) (xs : List String) (hs : 0 < s.length) (hx : xs ≠ []) :
    xs.map (fun l => s ++ l) ≠ xs := by
  cases xs with
  | nil => exact absurd rfl hx
  | cons x xs =>
    intro e
    simp only [List.map_cons, List.cons.injEq] at e
    have h := congrArg String.length e.1
    rw [String.length_append] at h
    omega

/-- C12: when `Emit` on a class returns, every further `Emit` on it returns as
well, and after the `n`-th call in a row (`n ≥ 1`) the fields of the class are the
same objects as after the first call, memory offsets included, and the methods
have the same names and the same vtable offsets as after the first call.  The
same offsets are assigned by any later returning `Emit` on the class, whatever
`Emit` calls on declarations of the program were made in between. -/
theorem Emit_offsets_repeatable (cg : CodeGenerator) (fuel : Nat) (p : Program) (a : Nat)
    (c : ClassDecl) (q1 : Program) (r1 : List CgReq) (hc : p.classAt a = some c)
    (hE : Program.Emit cg fuel p a = .ok (q1, r1)) :
    (∀ n : Nat, 1 ≤ n →
      ∃ qn c1 cn, Program.EmitN cg fuel a n p = .ok qn ∧
        q1.classAt a = some c1 ∧ qn.classAt a = some cn ∧
        fieldsOf cn.members = fieldsOf c1.members ∧
        (methodsOf cn.members).map FnDecl.name = (methodsOf c1.members).map FnDecl.name ∧
        (methodsOf cn.members).map FnDecl.vtblOffset
          = (methodsOf c1.members).map FnDecl.vtblOffset) ∧
    (∀ (between : List Nat) (q q2 : Program) (r2 : List CgReq),
      Program.EmitSeq cg fuel between q1 = .ok q → Program.Emit cg fuel q a = .ok (q2, r2) →
      ∃ c1 c2, q1.classAt a = some c1 ∧ q2.classAt a = some c2 ∧
        (fieldsOf c2.members).map VarDecl.name = (fieldsOf c1.members).map VarDecl.name ∧
        (fieldsOf c2.members).map VarDecl.memOffset
          = (fieldsOf c1.members).map VarDecl.memOffset ∧
        (methodsOf c2.members).map FnDecl.name = (methodsOf c1.members).map FnDecl.name ∧
        (methodsOf c2.members).map FnDecl.vtblOffset
          = (methodsOf c1.members).map FnDecl.vtblOffset) := by
  constructor
  · intro n hn
    obtain ⟨anc, hanc⟩ := superChain_of_Emit_ok cg fuel p a c q1 r1 hc hE
    obtain ⟨mo, vo, hmo, hvo, hE1, _⟩ := Emit_chain cg fuel p a c anc hc hanc
    rw [hE] at hE1
    simp only [Except.ok.injEq, Prod.mk.injEq] at hE1
    obtain ⟨m, rfl⟩ : ∃ m, n = m + 1 := ⟨n - 1, by omega⟩
    obtain ⟨qn, hqn, hcn, _⟩ := EmitN_chain cg fuel a anc (m + 1) p c hc hanc
    rw [← hmo, ← hvo] at hcn
    refine ⟨qn, (ClassDecl.EmitLoops cg c mo vo).1, _, hqn, ?_, hcn,
      fieldsOf_EmitLoopsN_succ cg mo vo m c, ?_, vtblOffsets_EmitLoopsN_succ cg mo vo m c⟩
    · rw [hE1.1]; exact classAt_set p a c _ hc
    · rw [names_EmitLoopsN, names_EmitLoops]
  · intro between q q2 r2 hseq hE2
    have hs : p.sameLayout q :=
      Program_sameLayout_trans p q1 q (Emit_sameLayout cg fuel p a q1 r1 hE)
        (EmitSeq_sameLayout cg fuel between q1 q hseq)
    exact Emit_offsets_sameLayout cg fuel p q a c q1 q2 r1 r2 hs hc hE hE2

/-- Sample for C12: `B extends A` emitted three times in a row has its field `w`
at 12 and its methods at 4 and 8, as after the first call; and so it has when
`A`, `B` and `A` are emitted after the first call and `B` is emitted again. -/
theorem Emit_offsets_repeatable_witness :
    abProgram.classAt 1 = some classB ∧
    ∃ q1 r1, Program.Emit scenarioCG 1 abProgram 1 = .ok (q1, r1) ∧
      (q1.classAt 1).map (fun c => ((fieldsOf c.members).map VarDecl.memOffset,
          (methodsOf c.members).map FnDecl.vtblOffset))
        = some ([some 12], [some 4, some 8]) ∧
      (∃ qn c1 cn, Program.EmitN scenarioCG 1 1 3 abProgram = .ok qn ∧
        q1.classAt 1 = some c1 ∧ qn.classAt 1 = some cn ∧
        fieldsOf cn.members = fieldsOf c1.members ∧
        (methodsOf cn.members).map FnDecl.name = (methodsOf c1.members).map FnDecl.name ∧
        (methodsOf cn.members).map FnDecl.vtblOffset
          = (methodsOf c1.members).map FnDecl.vtblOffset) ∧
      ∃ q q2 r2, Program.EmitSeq scenarioCG 1 [0, 1, 0] q1 = .ok q ∧
        Program.Emit scenarioCG 1 q 1 = .ok (q2, r2) ∧
        ∃ c1 c2, q1.classAt 1 = some c1 ∧ q2.classAt 1 = some c2 ∧
          (fieldsOf c2.members).map VarDecl.name = (fieldsOf c1.members).map VarDecl.name ∧
          (fieldsOf c2.members).map VarDecl.memOffset
            = (fieldsOf c1.members).map VarDecl.memOffset ∧
          (methodsOf c2.members).map FnDecl.name = (methodsOf c1.members).map FnDecl.name ∧
          (methodsOf c2.members).map FnDecl.vtblOffset
            = (methodsOf c1.members).map FnDecl.vtblOffset :=
  ⟨rfl, _, _, rfl, rfl,
    (Emit_offsets_repeatable scenarioCG 1 abProgram 1 classB _ _ rfl rfl).1 3 (by decide),
    _, _, _, rfl, rfl,
    (Emit_offsets_repeatable scenarioCG 1 abProgram 1 classB _ _ rfl rfl).2 [0, 1, 0] _ _ _
      rfl rfl⟩

/-- C19: label prefixes pile up over repeated emission.  After `n` calls of
`Emit` in a row on a class named `C`, a method that was constructed with the
name `m` has the label made of `C.` written `n` times followed by `m`; and for a
class with at least one method the label sequence of the vtable request of the
second call differs from that of the first.  The calls return whenever the chain
of the class resolves to classes and is acyclic. -/
theorem Emit_label_prefixes_accumulate (cg : CodeGenerator) (fuel : Nat) (p : Program)
    (a : Nat) (c : ClassDecl) (hc : p.classAt a = some c) :
    (∀ (n : Nat) (q : Program) (k : Nat) (f : FnDecl),
      Program.EmitN cg fuel a n p = .ok q → (methodsOf c.members)[k]? = some f →
      f.label = f.name →
      ∃ cn fn, q.classAt a = some cn ∧ (methodsOf cn.members)[k]? = some fn ∧
        fn.GetLabel = repeatString (c.name ++ ".") n ++ f.name) ∧
    (∀ (q1 q2 : Program) (r1 r2 : List CgReq), methodsOf c.members ≠ [] →
      Program.Emit cg fuel p a = .ok (q1, r1) → Program.Emit cg fuel q1 a = .ok (q2, r2) →
      ∃ l1 l2, r1.getLast? = some (.GenVTable c.name l1) ∧
        r2.getLast? = some (.GenVTable c.name l2) ∧ l1 ≠ l2) ∧
    (∀ anc, superChain p.Lookup fuel c = some anc →
      ∀ n, ∃ q, Program.EmitN cg fuel a n p = .ok q) := by
  refine ⟨?_, ?_, ?_⟩
  · intro n q k f hq hk hlab
    have hmain : ∀ cn, q.classAt a = some cn →
        (methodsOf cn.members).map FnDecl.label
          = (methodsOf c.members).map (fun f => repeatString (c.name ++ ".") n ++ f.label) →
        ∃ cn fn, q.classAt a = some cn ∧ (methodsOf cn.members)[k]? = some fn ∧
          fn.GetLabel = repeatString (c.name ++ ".") n ++ f.name := by
      intro cn hcn hmap
      have h := congrArg (fun l => l[k]?) hmap
      simp only [List.getElem?_map, hk, Option.map_some'] at h
      obtain ⟨fn, h1, h2⟩ := Option.map_eq_some'.mp h
      exact ⟨cn, fn, hcn, h1, by rw [← hlab]; exact h2⟩
    cases n with
    | zero =>
      simp only [Program.EmitN, Except.ok.injEq] at hq
      subst hq
      exact hmain c hc (by simp [repeatString])
    | succ n =>
      have hfirst : ∃ q1 r1, Program.Emit cg fuel p a = .ok (q1, r1) := by
        rw [Program.EmitN] at hq
        cases hE : Program.Emit cg fuel p a with
        | error e => rw [hE] at hq; simp at hq
        | ok qr => exact ⟨qr.1, qr.2, rfl⟩
      obtain ⟨q1, r1, hE⟩ := hfirst
      obtain ⟨anc, hanc⟩ := superChain_of_Emit_ok cg fuel p a c q1 r1 hc hE
      obtain ⟨q', hq1, hq2, _⟩ := EmitN_chain cg fuel a anc (n + 1) p c hc hanc
      rw [hq] at hq1
      simp only [Except.ok.injEq] at hq1
      subst hq1
      exact hmain _ hq2 (labels_EmitLoopsN cg _ _ (n + 1) c)
  · intro q1 q2 r1 r2 hne hE1 hE2
    obtain ⟨anc, hanc⟩ := superChain_of_Emit_ok cg fuel p a c q1 r1 hc hE1
    obtain ⟨mo, vo, _, _, hF1, hch1⟩ := Emit_chain cg fuel p a c anc hc hanc
    rw [hE1] at hF1
    simp only [Except.ok.injEq, Prod.mk.injEq] at hF1
    have hc1 : q1.classAt a = some (ClassDecl.EmitLoops cg c mo vo).1 := by
      rw [hF1.1]; exact classAt_set p a c _ hc
    rw [← hF1.1] at hch1
    obtain ⟨mo2, vo2, _, _, hF2, _⟩ := Emit_chain cg fuel q1 a _ anc hc1 hch1
    rw [hE2] at hF2
    simp only [Except.ok.injEq, Prod.mk.injEq] at hF2
    have hr1 : r1.getLast? = some (.GenVTable c.name
        (vtableLabels ((ClassDecl.EmitLoops cg c mo vo).1 :: anc))) := by
      rw [hF1.2]; exact List.getLast?_concat _
    have hr2 : r2.getLast? = some (.GenVTable c.name
        (vtableLabels ((ClassDecl.EmitLoops cg (ClassDecl.EmitLoops cg c mo vo).1 mo2 vo2).1
          :: anc))) := by
      rw [hF2.2]; exact List.getLast?_concat _
    refine ⟨_, _, hr1, hr2, ?_⟩
    simp only [vtableLabels]
    intro e
    have e2 := List.append_cancel_left e
    have h2 := labels_EmitLoops cg (ClassDecl.EmitLoops cg c mo vo).1 mo2 vo2
    have key : ∀ (ms : List FnDecl) (s : String),
        ms.map (fun f => s ++ f.label) = (ms.map FnDecl.label).map (fun l => s ++ l) := by
      intro ms s
      rw [List.map_map]
      rfl
    rw [key, EmitLoops_name] at h2
    have e3 : List.map FnDecl.label
          (methodsOf (ClassDecl.EmitLoops cg (ClassDecl.EmitLoops cg c mo vo).1 mo2 vo2).1.members)
        = List.map FnDecl.label (methodsOf (ClassDecl.EmitLoops cg c mo vo).1.members) :=
      e2.symm
    rw [e3] at h2
    refine map_append_ne (c.name ++ ".") _ ?_ ?_ h2.symm
    · rw [String.length_append]
      have : (".").length = 1 := by decide
      omega
    · intro hnil
      have hl := congrArg List.length hnil
      simp only [List.length_map, List.length_nil, length_methodsOf_EmitLoops] at hl
      exact hne (List.length_eq_zero.mp hl)
  · intro anc hanc n
    obtain ⟨q, hq, _⟩ := EmitN_chain cg fuel a anc n p c hc hanc
    exact ⟨q, hq⟩

/-- Sample for C19: `A` emitted twice has `foo` labelled `A.A.foo`, and the two
vtable requests carry `A.foo` and `A.A.foo`. -/
theorem Emit_label_prefixes_accumulate_witness :
    abProgram.classAt 0 = some classA ∧
    (methodsOf classA.members)[0]? = some (FnDecl.new "foo" []) ∧
    (∃ q, Program.EmitN scenarioCG 0 0 2 abProgram = .ok q ∧
      (q.classAt 0).map (fun c => (methodsOf c.members).map FnDecl.GetLabel)
        = some ["A.A.foo"] ∧
      ∃ cn fn, q.classAt 0 = some cn ∧ (methodsOf cn.members)[0]? = some fn ∧
        fn.GetLabel = repeatString ("A" ++ ".") 2 ++ "foo") ∧
    (∃ q1 r1 q2 r2, Program.Emit scenarioCG 0 abProgram 0 = .ok (q1, r1) ∧
      Program.Emit scenarioCG 0 q1 0 = .ok (q2, r2) ∧
      r1 = [.GenVTable "A" ["A.foo"]] ∧ r2 = [.GenVTable "A" ["A.A.foo"]] ∧
      ∃ l1 l2, r1.getLast? = some (.GenVTable "A" l1) ∧
        r2.getLast? = some (.GenVTable "A" l2) ∧ l1 ≠ l2) ∧
    superChain abProgram.Lookup 0 classA = some [] ∧
    (∀ n, ∃ q, Program.EmitN scenarioCG 0 0 n abProgram = .ok q) :=
  ⟨rfl, rfl,
    ⟨_, rfl, rfl,
      (Emit_label_prefixes_accumulate scenarioCG 0 abProgram 0 classA rfl).1 2 _ 0
        (FnDecl.new "foo" []) rfl rfl rfl⟩,
    ⟨_, _, _, _, rfl, rfl, rfl, rfl,
      (Emit_label_prefixes_accumulate scenarioCG 0 abProgram 0 classA rfl).2.1 _ _ _ _
        (by decide) rfl rfl⟩,
    rfl, (Emit_label_prefixes_accumulate scenarioCG 0 abProgram 0 classA rfl).2.2 [] rfl⟩

/-! ## `BuildScope` -/

theorem Member_toDecl_GetName (m : Member) : m.toDecl.GetName = m.GetName := by
  cases m <;> rfl

/-- A lookup after the registration loop: the last member of that name, and
what the scope held before when no member has the name. -/
theorem Lookup_foldl_AddDecl (ms : List Member) (s : Scope) (n : String) :
    (ms.foldl (fun s m => s.AddDecl m.toDecl) s).Lookup n
      = ((lastNamed n ms).map Member.toDecl).or (s.Lookup n) := by
  induction ms generalizing s with
  | nil => simp [lastNamed]
  | cons m ms ih =>
    rw [List.foldl_cons, ih]
    simp only [lastNamed, List.reverse_cons, List.find?_append]
    cases hfind : List.find? (fun m => decide (m.GetName = n)) ms.reverse with
    | some x => simp
    | none =>
      simp only [Option.none_or, Option.map_none', List.find?_cons, List.find?_nil]
      by_cases hn : m.GetName = n
      · simp [hn, Scope.Lookup, Scope.AddDecl, Member_toDecl_GetName]
      · have hn2 : ¬ n = m.GetName := fun e => hn e.symm
        simp [hn, hn2, Scope.Lookup, Scope.AddDecl, Member_toDecl_GetName]

/-- C18: after `ClassDecl::BuildScope`, and after `InterfaceDecl::BuildScope`, on
a declaration whose scope was empty, a lookup of a name in the scope of the
declaration returns the last declared direct member of that name, and nothing
when no direct member has the name; an interface with two signatures of
different names has both bound. -/
theorem BuildScope_lookup (n : String) (memberScopes : List Scope) :
    (∀ c : ClassDecl, (c.BuildScope Scope.empty memberScopes).1.Lookup n
      = (lastNamed n c.members).map Member.toDecl) ∧
    (∀ i : InterfaceDecl, (i.BuildScope Scope.empty memberScopes).1.Lookup n
      = (lastNamed n i.members).map Member.toDecl) ∧
    (∀ ms : List Member, (∀ m ∈ ms, m.GetName ≠ n) → lastNamed n ms = none) ∧
    (∀ (ms rest : List Member) (m : Member), m.GetName = n →
      (∀ x ∈ rest, x.GetName ≠ n) → lastNamed n (ms ++ m :: rest) = some m) ∧
    (∀ (name : String) (f g : FnDecl), f.name ≠ g.name →
      ((InterfaceDecl.BuildScope Scope.empty memberScopes
          { name := name, members := [.fn f, .fn g] }).1.Lookup f.name = some (.fn f) ∧
        (InterfaceDecl.BuildScope Scope.empty memberScopes
          { name := name, members := [.fn f, .fn g] }).1.Lookup g.name = some (.fn g))) := by
  refine ⟨?_, ?_, ?_, ?_, ?_⟩
  · intro c
    simp only [ClassDecl.BuildScope, Lookup_foldl_AddDecl]
    cases (lastNamed n c.members).map Member.toDecl <;> rfl
  · intro i
    simp only [InterfaceDecl.BuildScope, Lookup_foldl_AddDecl]
    cases (lastNamed n i.members).map Member.toDecl <;> rfl
  · intro ms h
    simp only [lastNamed, List.find?_eq_none, List.mem_reverse, decide_eq_true_eq]
    exact h
  · intro ms rest m hm hrest
    have hnone : List.find? (fun m => decide (m.GetName = n)) rest.reverse = none := by
      simp only [List.find?_eq_none, List.mem_reverse, decide_eq_true_eq]
      exact hrest
    simp only [lastNamed, List.reverse_append, List.reverse_cons, List.append_assoc,
      List.find?_append, hnone, Option.none_or, List.find?_cons, List.find?_nil]
    simp [hm]
  · intro name f g hfg
    have hgf : ¬ g.name = f.name := fun e => hfg e.symm
    constructor
    · simp [InterfaceDecl.BuildScope, Scope.Lookup, Scope.AddDecl, Member.toDecl,
        Decl.GetName, hfg]
    · simp [InterfaceDecl.BuildScope, Scope.Lookup, Scope.AddDecl, Member.toDecl,
        Decl.GetName]

/-- Sample for C18: in the scope of `Shape` both signatures are bound; in the
scope of `Dup`, which declares `x` twice, the name `x` is bound to the later
declaration, the method, and `y` is not bound. -/
theorem BuildScope_lookup_witness :
    (FnDecl.new "area" []).name ≠ (FnDecl.new "perimeter" []).name ∧
    (ifaceShape.BuildScope Scope.empty []).1.Lookup "area"
      = some (.fn (FnDecl.new "area" [])) ∧
    (ifaceShape.BuildScope Scope.empty []).1.Lookup "perimeter"
      = some (.fn (FnDecl.new "perimeter" [])) ∧
    (classDup.BuildScope Scope.empty []).1.Lookup "x" = some (.fn (FnDecl.new "x" [])) ∧
    (classDup.BuildScope Scope.empty []).1.Lookup "y" = none :=
  ⟨by decide,
    ((BuildScope_lookup "area" []).2.2.2.2 "Shape" (FnDecl.new "area" [])
      (FnDecl.new "perimeter" []) (by decide)).1,
    ((BuildScope_lookup "perimeter" []).2.2.2.2 "Shape" (FnDecl.new "area" [])
      (FnDecl.new "perimeter" []) (by decide)).2,
    (BuildScope_lookup "x" []).1 classDup,
    (BuildScope_lookup "y" []).1 classDup⟩

end Decaf
